import Mathlib

/-!
Verification of the LIR function-inlining pass (`LIRInliner`, Jit/codegen/inliner.cpp)
against its specification.

The inliner's own code (`inlineCall`, `isInlineable`, `checkEntryExitReturn`,
`checkArguments`, `checkLoadArg`, `findFunction`, `parseFunction`,
`resolveArguments`, `resolveLoadArg`, `resolveLinkedArgumentsUses`,
`resolveReturnValue`) is embedded directly from the source.  The LIR data
model it runs on (Function / BasicBlock / Instruction / Operand,
`BasicBlock::splitBefore`, `Function::copyFrom`) is declared in headers that
are not part of the sample; those parts are modelled from the spec (§3, §4.3)
and are marked as such.

Pointers are modelled by numeric identities: every instruction and every
basic block carries a unique id, predecessor/successor lists hold block ids,
and a linked operand holds the id of its defining instruction.  `JIT_CHECK` /
`JIT_DCHECK` failures and `std::vector::at` range errors are modelled as
`Except.error` (a loud abort), never as silent continuation.
-/

set_option autoImplicit false

namespace LIR

/-- Instruction opcodes.  The pass only distinguishes the pseudo-ops below;
every other opcode is carried opaquely as `kOther n`. -/
inductive Opcode where
  | kLoadArg
  | kReturn
  | kCall
  | kMove
  | kNop
  | kPhi
  | kOther (n : Nat)
  deriving DecidableEq, Repr

/-- Modelled from the spec: an operand is a tagged union over immediate
constants, virtual registers, linked references (identity of the defining
instruction), indirect/memory references (base + optional index, each itself
a register operand), and basic-block labels (used as phi inputs).  The
optional index register of an indirect operand is modelled by two
constructors: `ind` (no index register) and `indIdx` (with index register). -/
inductive Operand where
  | imm (value : Nat)
  | vreg (r : Nat)
  | linked (instrId : Nat)
  | ind (base : Operand)
  | indIdx (base : Operand) (index : Operand)
  | lbl (blockId : Nat)
  deriving DecidableEq, Repr

namespace Operand

/-- Modelled from the spec: `OperandBase::isImm`. -/
def isImm : Operand → Bool
  | .imm _ => true
  | _ => false

/-- Modelled from the spec: `OperandBase::isVreg`.  A linked operand reports
the type of its defining operand, which is a virtual register, so both plain
virtual registers and linked references count as vreg
("virtual/linked reference", spec §4.1). -/
def isVreg : Operand → Bool
  | .vreg _ => true
  | .linked _ => true
  | _ => false

/-- Modelled from the spec: `OperandBase::isLinked`. -/
def isLinked : Operand → Bool
  | .linked _ => true
  | _ => false

/-- Modelled from the spec: `OperandBase::isInd`. -/
def isInd : Operand → Bool
  | .ind _ => true
  | .indIdx _ _ => true
  | _ => false

/-- Modelled from the spec: `OperandBase::getConstant` (an immediate's
uint64 payload; only ever read behind an `isImm` test). -/
def getConstant : Operand → Nat
  | .imm v => v
  | _ => 0

end Operand

/-- Modelled from the spec: an instruction has an identity, an opcode and an
ordered list of input operands (the at-most-one output is identified with the
instruction's own id, which is what linked operands reference). -/
structure Instruction where
  id : Nat
  opcode : Opcode
  inputs : List Operand
  deriving DecidableEq, Repr

/-- Modelled from the spec: a basic block owns an ordered list of
instructions and holds predecessor/successor block-id lists. -/
structure BasicBlock where
  id : Nat
  instructions : List Instruction
  predecessors : List Nat
  successors : List Nat
  deriving DecidableEq, Repr

/-- Modelled from the spec: a function owns an ordered sequence of basic
blocks.  The two counters supply fresh identities for blocks and
instructions created by the pass. -/
structure Function where
  basicblocks : List BasicBlock
  nextBlockId : Nat
  nextInstrId : Nat
  deriving DecidableEq, Repr

/-- All instructions of a function, scanning blocks in stored order. -/
def Function.allInstrs (f : Function) : List Instruction :=
  f.basicblocks.flatMap (fun bb => bb.instructions)

/-- Modelled from the spec: `Function::getEntryBlock` — the first stored
basic block (the checker separately verifies that it has no predecessors). -/
def Function.getEntryBlock? (f : Function) : Option BasicBlock :=
  f.basicblocks.head?

/-- The per-block part of the return-placement scan of
`LIRInliner::checkEntryExitReturn` (inliner.cpp lines 84-96): a return
instruction must be the block's last instruction (pointer comparison with
`getLastInstr`, which positional recursion models exactly), and the block's
successor list must be exactly the one-element list holding the exit block
(`successors().size() == 1 && successors()[0] == exit_block`).  `succOk`
is that successor condition, precomputed. -/
def instrsReturnLast (succOk : Bool) : List Instruction → Bool
  | [] => true
  | [instr] => !(instr.opcode == .kReturn) || succOk
  | instr :: rest => !(instr.opcode == .kReturn) && instrsReturnLast succOk rest

/-- `LIRInliner::checkEntryExitReturn` (inliner.cpp lines 60-103).  The
entry block is the first stored block, the exit block is
`basicblocks().back()`; the loop over blocks is modelled positionally (the
C++ `bb != entry_block` / `bb != exit_block` pointer comparisons become
index comparisons with 0 and the last index). -/
def checkEntryExitReturn (callee : Function) : Bool :=
  match callee.basicblocks with
  | [] => false
  | b0 :: rest =>
    let bbs := b0 :: rest
    let exitB := bbs.getLast?.getD b0
    if !b0.predecessors.isEmpty then false
    else if !exitB.successors.isEmpty then false
    else
      let n := bbs.length
      let blocksOk := (List.range n).all (fun i =>
        match bbs.get? i with
        | none => true
        | some bb =>
          (!bb.predecessors.isEmpty || i == 0) &&
          (!bb.successors.isEmpty || i == n - 1) &&
          instrsReturnLast (bb.successors == [exitB.id]) bb.instructions)
      if !blocksOk then false
      else exitB.instructions.isEmpty

/-- The actual-argument list `arguments_` collected by
`LIRInliner::checkArguments`: every call input after the first
(callee-address) input. -/
def callArguments (call : Instruction) : List Operand :=
  call.inputs.drop 1

/-- `LIRInliner::checkArguments` (inliner.cpp lines 105-115): every call
input after the callee-address operand must be an immediate or a
virtual/linked register. -/
def checkArguments (call : Instruction) : Bool :=
  (callArguments call).all (fun input => input.isImm || input.isVreg)

/-- The `numInputs` of `LIRInliner::checkLoadArg` (inliner.cpp line 119):
`call_instr_->getNumInputs() - 1` in `size_t` arithmetic, so a call with no
inputs wraps around to `2^64 - 1`. -/
def numActualArgs (call : Instruction) : Nat :=
  if call.inputs.length == 0 then 2 ^ 64 - 1 else call.inputs.length - 1

/-- The scan of `LIRInliner::checkLoadArg` (inliner.cpp lines 120-148) over
the instruction stream, with the `check_load_arg` flag as explicit state.
The C++ iterates blocks in stored order and instructions in order with the
flag carried across blocks; that is the same scan as over the concatenated
instruction stream. -/
def checkLoadArgScan (numInputs : Nat) : Bool → List Instruction → Bool
  | _, [] => true
  | true, instr :: rest =>
    if instr.opcode == .kLoadArg then
      match instr.inputs.head? with
      | none => false
      | some input =>
        if !input.isImm then false
        else if numInputs ≤ input.getConstant then false
        else checkLoadArgScan numInputs true rest
    else checkLoadArgScan numInputs false rest
  | false, instr :: rest =>
    if instr.opcode == .kLoadArg then false
    else checkLoadArgScan numInputs false rest

/-- `LIRInliner::checkLoadArg` (inliner.cpp lines 117-150). -/
def checkLoadArg (call : Instruction) (callee : Function) : Bool :=
  checkLoadArgScan (numActualArgs call) true callee.allInstrs

/-- `LIRInliner::isInlineable` (inliner.cpp lines 47-58). -/
def isInlineable (call : Instruction) (callee : Function) : Bool :=
  if !checkEntryExitReturn callee then false
  else if !checkArguments call then false
  else if !checkLoadArg call callee then false
  else true

/-- Modelled from the spec: the host facilities behind `findFunction` and
`parseFunction` — `dladdr` (address → symbol name), the filesystem lookup of
`Jit/lir/c_helper_translations/<name>.lir`, and the external LIR text
parser, all opaque collaborators whose failures are non-fatal. -/
structure ResolveEnv where
  addrToName : Nat → Option String
  loadText : String → Option String
  parseText : String → Option Function

/-- The process-wide `name_to_function` cache of `LIRInliner::parseFunction`
(a map from symbol name to the parse result; a failed parse is stored as
`none`, mirroring the cached null `unique_ptr`). -/
abbrev Cache := List (String × Option Function)

/-- `LIRInliner::parseFunction` (inliner.cpp lines 173-197): return the
cached entry when present; otherwise try to load the `.lir` text (a missing
file is a failure that is not cached), parse it, cache and return the
result. -/
def parseFunction (env : ResolveEnv) (cache : Cache) (name : String) :
    Cache × Option Function :=
  match List.lookup name cache with
  | some r => (cache, r)
  | none =>
    match env.loadText name with
    | none => (cache, none)
    | some text =>
      let parsed := env.parseText text
      ((name, parsed) :: cache, parsed)

/-- `LIRInliner::findFunction` (inliner.cpp lines 152-171): the call must
have a first input, it must be an immediate (the callee address), `dladdr`
must resolve it to a symbol name, and the name must parse to a function. -/
def findFunction (env : ResolveEnv) (cache : Cache) (call : Instruction) :
    Cache × Option Function :=
  match call.inputs.head? with
  | none => (cache, none)
  | some dest =>
    if !dest.isImm then (cache, none)
    else
      match env.addrToName dest.getConstant with
      | none => (cache, none)
      | some name => parseFunction env cache name

/-- Index of the basic block holding the instruction with the given id. -/
def Function.findBlockIdx? (f : Function) (instrId : Nat) : Option Nat :=
  f.basicblocks.findIdx? (fun bb => bb.instructions.any (fun i => i.id == instrId))

/-- The instruction with the given id, if any. -/
def Function.findInstr? (f : Function) (instrId : Nat) : Option Instruction :=
  f.allInstrs.find? (fun i => i.id == instrId)

/-- Rewrite every instruction with the given id (there is exactly one in a
well-formed function); models in-place mutation through an `Instruction*`. -/
def Function.mapInstr (f : Function) (instrId : Nat) (g : Instruction → Instruction) :
    Function :=
  { f with basicblocks := f.basicblocks.map (fun bb =>
      { bb with instructions := bb.instructions.map (fun i =>
          if i.id == instrId then g i else i) }) }

/-- Modelled from the spec: operand copy step of the deep copy of the callee
(§4.3 step 2, §9): immediates and plain virtual registers are copied by
value, linked references and block labels are re-targeted through the
old-id → new-id maps, indirect operands copy their base/index sub-operands
the same way. -/
def copyOperand (instrMap : Nat → Nat) (blockMap : Nat → Nat) : Operand → Operand
  | .imm v => .imm v
  | .vreg r => .vreg r
  | .linked i => .linked (instrMap i)
  | .ind base => .ind (copyOperand instrMap blockMap base)
  | .indIdx base index =>
      .indIdx (copyOperand instrMap blockMap base) (copyOperand instrMap blockMap index)
  | .lbl b => .lbl (blockMap b)

/-- Modelled from the spec: instruction copy step of the callee deep copy. -/
def copyInstr (instrMap : Nat → Nat) (blockMap : Nat → Nat) (ins : Instruction) :
    Instruction :=
  { id := instrMap ins.id,
    opcode := ins.opcode,
    inputs := ins.inputs.map (copyOperand instrMap blockMap) }

/-- Modelled from the spec: block copy step of the callee deep copy,
preserving the callee's internal predecessor/successor structure through the
block-id map. -/
def copyBlock (instrMap : Nat → Nat) (blockMap : Nat → Nat) (bb : BasicBlock) :
    BasicBlock :=
  { id := blockMap bb.id,
    instructions := bb.instructions.map (copyInstr instrMap blockMap),
    predecessors := bb.predecessors.map blockMap,
    successors := bb.successors.map blockMap }

/-- A default block used only to total-ize head/last projections below. -/
def defaultBB : BasicBlock :=
  { id := 0, instructions := [], predecessors := [], successors := [] }

/-- The old-block-id → new-block-id map of the callee deep copy: the j-th
callee block receives the fresh id `f.nextBlockId + 1 + j` (id
`f.nextBlockId` itself is taken by the new block B of the split). -/
def spliceBlockMap (f : Function) (callee : Function) : Nat → Nat :=
  fun o =>
    (List.lookup o (callee.basicblocks.enum.map
      (fun p => (p.2.id, f.nextBlockId + 1 + p.1)))).getD o

/-- The old-instruction-id → new-instruction-id map of the callee deep copy:
the j-th callee instruction (in stored scan order) receives the fresh id
`f.nextInstrId + j`. -/
def spliceInstrMap (f : Function) (callee : Function) : Nat → Nat :=
  fun o =>
    (List.lookup o (callee.allInstrs.enum.map
      (fun p => (p.2.id, f.nextInstrId + p.1)))).getD o

/-- The id of the copied entry block. -/
def spliceEntryCopyId (f : Function) (callee : Function) : Nat :=
  spliceBlockMap f callee ((callee.basicblocks.head?.getD defaultBB).id)

/-- The id of the copied exit block. -/
def spliceExitCopyId (f : Function) (callee : Function) : Nat :=
  spliceBlockMap f callee ((callee.basicblocks.getLast?.getD defaultBB).id)

/-- The deep-copied callee blocks, wired into the caller: the entry copy
gains block A (`bbId`) as predecessor and the exit copy gains the new block
B (`f.nextBlockId`) as successor. -/
def spliceCopies (f : Function) (bbId : Nat) (callee : Function) : List BasicBlock :=
  callee.basicblocks.map (fun c =>
    let c1 := copyBlock (spliceInstrMap f callee) (spliceBlockMap f callee) c
    let c2 := if c1.id == spliceEntryCopyId f callee
      then { c1 with predecessors := c1.predecessors ++ [bbId] } else c1
    if c2.id == spliceExitCopyId f callee
      then { c2 with successors := c2.successors ++ [f.nextBlockId] } else c2)

/-- The caller's blocks with the predecessor lists of block A's old
successors re-pointed at the new block B. -/
def spliceOthers (f : Function) (bb : BasicBlock) : List BasicBlock :=
  f.basicblocks.map (fun b =>
    if bb.successors.contains b.id then
      { b with predecessors :=
          b.predecessors.map (fun p => if p == bb.id then f.nextBlockId else p) }
    else b)

/-- Block A after the split: the instructions before the call, flowing into
the copied entry block. -/
def spliceBlock1 (f : Function) (callId : Nat) (bb : BasicBlock) (callee : Function) :
    BasicBlock :=
  { bb with
    instructions := bb.instructions.take
      (bb.instructions.findIdx (fun i => i.id == callId)),
    successors := [spliceEntryCopyId f callee] }

/-- The new block B of the split: the call instruction and everything after
it, reached from the copied exit block, keeping A's old successors. -/
def spliceBlock2 (f : Function) (callId : Nat) (bb : BasicBlock) (callee : Function) :
    BasicBlock :=
  { id := f.nextBlockId,
    instructions := bb.instructions.drop
      (bb.instructions.findIdx (fun i => i.id == callId)),
    predecessors := [spliceExitCopyId f callee],
    successors := bb.successors }

/-- Modelled from the spec: the call-site splicer (§4.3), covering
`BasicBlock::splitBefore` and `Function::copyFrom` as used by
`LIRInliner::inlineCall` (inliner.cpp lines 30-38).
1. The call block is split: instructions before the call stay in block A,
   the call and everything after move to a fresh block B, which takes over
   A's successors.
2. Every callee block is deep-copied, in stored order, with fresh block and
   instruction ids, between A and B.
3. A's successor becomes the copied entry block; the copied exit block
   (kept as an empty pass-through sentinel) flows into B.
4. The result carries the `[begin, end)` block-index range of the copy
   (`callee_start_` / `callee_end_`).
Returns `none` when the call instruction is in no block or the callee has no
blocks (unreachable after `isInlineable`). -/
def splice (f : Function) (callId : Nat) (callee : Function) :
    Option (Function × Nat × Nat) :=
  match f.findBlockIdx? callId, callee.basicblocks with
  | some idx, _ :: _ =>
    match f.basicblocks.get? idx with
    | none => none
    | some bb =>
      some ({ basicblocks :=
                (spliceOthers f bb).take idx ++ [spliceBlock1 f callId bb callee]
                  ++ spliceCopies f bb.id callee ++ [spliceBlock2 f callId bb callee]
                  ++ (spliceOthers f bb).drop (idx + 1),
              nextBlockId := f.nextBlockId + 1 + callee.basicblocks.length,
              nextInstrId := f.nextInstrId + callee.allInstrs.length },
            idx + 1, idx + 1 + callee.basicblocks.length)
  | _, _ => none

/-- The `vreg_map` of `LIRInliner::resolveArguments`: maps the id of a
deleted `kLoadArg` instruction (standing for its output operand, the map's
C++ key) to the id of the instruction that the corresponding linked call
argument points at (the C++ value's `getLinkedOperand()->instr()`). -/
abbrev VregMap := List (Nat × Nat)

/-- The retargeting step of `LIRInliner::resolveLinkedArgumentsUses`
(inliner.cpp lines 256-262, `setLinkedOperand`): a linked operand whose
definition is in `vreg_map` is re-pointed at the mapped instruction. -/
def setLinkedOperand (m : VregMap) (o : Operand) : Operand :=
  match o with
  | .linked d =>
    match List.lookup d m with
    | some t => .linked t
    | none => o
  | _ => o

/-- `LIRInliner::resolveLinkedArgumentsUses` applied to one input operand
(inliner.cpp lines 264-280): linked inputs are retargeted; for indirect
inputs the base and (when present) index register operands are retargeted. -/
def resolveLinkedUsesOperand (m : VregMap) (o : Operand) : Operand :=
  match o with
  | .linked _ => setLinkedOperand m o
  | .ind base => .ind (setLinkedOperand m base)
  | .indIdx base index => .indIdx (setLinkedOperand m base) (setLinkedOperand m index)
  | _ => o

/-- `LIRInliner::resolveLinkedArgumentsUses` (inliner.cpp lines 253-282). -/
def resolveLinkedArgumentsUses (m : VregMap) (instr : Instruction) : Instruction :=
  { instr with inputs := instr.inputs.map (resolveLinkedUsesOperand m) }

/-- `LIRInliner::resolveLoadArg` (inliner.cpp lines 221-251) on one
`kLoadArg` instruction.  Returns the updated `vreg_map` together with
`some converted` when the instruction is kept (immediate argument, converted
in place to `kMove` with a fresh copy of the constant as input 0) or `none`
when it is erased (linked argument).  The two `JIT_DCHECK`s and the
`arguments_.at` bounds check are loud failures. -/
def resolveLoadArg (args : List Operand) (m : VregMap) (instr : Instruction) :
    Except String (VregMap × Option Instruction) :=
  match instr.inputs.head? with
  | none => .error "LoadArg instruction should have at least 1 input."
  | some a0 =>
    if !a0.isImm then .error "LoadArg instruction should have at least 1 input."
    else
      match args.get? a0.getConstant with
      | none => .error "arguments_.at: out of range"
      | some param =>
        if param.isImm then
          .ok (m, some { instr with
            opcode := .kMove,
            inputs := instr.inputs.set 0 (.imm param.getConstant) })
        else
          match param with
          | .linked t => .ok ((instr.id, t) :: m, none)
          | _ => .error "Inlined arguments must be immediate or linked."

/-- The while-loop of `LIRInliner::resolveArguments` (inliner.cpp lines
206-215) over one block's instruction list: `kLoadArg` instructions are
resolved (conversion advances past the converted instruction; erasure
continues at the next instruction), every other instruction has its linked
uses repaired with the current `vreg_map`. -/
def scanInstrs (args : List Operand) (m : VregMap) :
    List Instruction → Except String (VregMap × List Instruction)
  | [] => .ok (m, [])
  | instr :: rest =>
    if instr.opcode == .kLoadArg then
      match resolveLoadArg args m instr with
      | .error e => .error e
      | .ok (m', none) => scanInstrs args m' rest
      | .ok (m', some conv) =>
        match scanInstrs args m' rest with
        | .error e => .error e
        | .ok (m'', rest') => .ok (m'', conv :: rest')
    else
      let instr' := resolveLinkedArgumentsUses m instr
      match scanInstrs args m rest with
      | .error e => .error e
      | .ok (m'', rest') => .ok (m'', instr' :: rest')

/-- The block loop of `LIRInliner::resolveArguments` (inliner.cpp lines
203-216), over the block indices `[callee_start_, callee_end_)`, threading
the shared `vreg_map` across blocks; `basicblocks().at(i)` out of range is a
loud failure. -/
def resolveArgumentsGo (args : List Operand) :
    VregMap → Function → List Nat → Except String Function
  | _, f, [] => .ok f
  | m, f, i :: rest =>
    match f.basicblocks.get? i with
    | none => .error "basicblocks.at: out of range"
    | some bb =>
      match scanInstrs args m bb.instructions with
      | .error e => .error e
      | .ok (m', instrs') =>
        resolveArgumentsGo args m'
          { f with basicblocks := f.basicblocks.set i { bb with instructions := instrs' } }
          rest

/-- `LIRInliner::resolveArguments` (inliner.cpp lines 199-219). -/
def resolveArguments (f : Function) (args : List Operand)
    (calleeStart calleeEnd : Nat) : Except String Function :=
  resolveArgumentsGo args [] f (List.range' calleeStart (calleeEnd - calleeStart))

/-- The predecessor loop of `LIRInliner::resolveReturnValue` (inliner.cpp
lines 293-303): for every predecessor of the epilogue (in stored predecessor
order) whose last instruction is a return, a (label, value) input pair is
accumulated for the phi — the value being the return's released first input
(`JIT_CHECK`: a return must have at least one input) — and the return is
removed from the predecessor.  A predecessor id with no matching block
stands for a block whose last instruction does not exist (`getLastInstr`
null) and is skipped. -/
def goPreds (f : Function) (acc : List Operand) :
    List Nat → Except String (Function × List Operand)
  | [] => .ok (f, acc)
  | p :: rest =>
    match f.basicblocks.findIdx? (fun bb => bb.id == p) with
    | none => goPreds f acc rest
    | some j =>
      match f.basicblocks.get? j with
      | none => goPreds f acc rest
      | some bb =>
        match bb.instructions.getLast? with
        | none => goPreds f acc rest
        | some last =>
          if last.opcode == .kReturn then
            match last.inputs.head? with
            | none => .error "Return instruction should have at least 1 input operand."
            | some v =>
              goPreds
                { f with basicblocks :=
                    f.basicblocks.set j { bb with instructions := bb.instructions.dropLast } }
                (acc ++ [.lbl p, v]) rest
          else goPreds f acc rest

/-- `LIRInliner::resolveReturnValue` (inliner.cpp lines 284-318).  The
epilogue is `basicblocks().at(callee_end_ - 1)`; a fresh phi instruction is
allocated at its end, the predecessor loop collects the return values, and
then either the phi is removed again and the call becomes `kNop` (no
inputs), or the call becomes a `kMove` whose inputs are discarded and
replaced by a single linked reference to the phi. -/
def resolveReturnValue (f : Function) (callId : Nat) (calleeEnd : Nat) :
    Except String Function :=
  match f.basicblocks.get? (calleeEnd - 1) with
  | none => .error "basicblocks.at: out of range"
  | some epi =>
    let phiId := f.nextInstrId
    let f1 :=
      { f with
        basicblocks := f.basicblocks.set (calleeEnd - 1)
          { epi with instructions := epi.instructions ++ [{ id := phiId, opcode := .kPhi, inputs := [] }] },
        nextInstrId := f.nextInstrId + 1 }
    match goPreds f1 [] epi.predecessors with
    | .error e => .error e
    | .ok (f2, phiInputs) =>
      if phiInputs.isEmpty then
        let f3 :=
          { f2 with basicblocks := f2.basicblocks.map (fun (bb : BasicBlock) =>
              if bb.id == epi.id then { bb with instructions := bb.instructions.dropLast } else bb) }
        .ok (f3.mapInstr callId (fun i => { i with opcode := .kNop }))
      else
        let f3 := f2.mapInstr phiId (fun i => { i with inputs := phiInputs })
        .ok (f3.mapInstr callId (fun i =>
          { i with opcode := .kMove, inputs := [.linked phiId] }))

/-- `LIRInliner::inlineCall` (inliner.cpp lines 15-45): resolve the callee,
check inlineability (both side-effect free on the caller), then split, copy,
resolve arguments and merge returns.  The pass's working state
(`call_instr_`, `arguments_`, `callee_start_`, `callee_end_`) is threaded
explicitly; the caller is returned alongside the boolean result. -/
def inlineCall (env : ResolveEnv) (cache : Cache) (f : Function) (callId : Nat) :
    Cache × Except String (Bool × Function) :=
  match f.findInstr? callId with
  | none => (cache, .error "call_instr_ not in caller")
  | some call =>
    match findFunction env cache call with
    | (cache', none) => (cache', .ok (false, f))
    | (cache', some callee) =>
      if !isInlineable call callee then (cache', .ok (false, f))
      else
        match splice f callId callee with
        | none => (cache', .error "splice failed")
        | some (f1, s, e) =>
          match resolveArguments f1 (callArguments call) s e with
          | .error msg => (cache', .error msg)
          | .ok f2 =>
            match resolveReturnValue f2 callId e with
            | .error msg => (cache', .error msg)
            | .ok f3 => (cache', .ok (true, f3))

/-- The structural invariants of the LIR data model (spec §3): block and
instruction identities are unique and below the fresh-id counters,
predecessor/successor lists are duplicate-free, and membership in them is
mutually consistent (A is B's successor iff B is A's predecessor). -/
def Function.wf (f : Function) : Prop :=
  (f.basicblocks.map (fun bb => bb.id)).Nodup ∧
  (f.allInstrs.map (fun i => i.id)).Nodup ∧
  (∀ bb ∈ f.basicblocks, bb.id < f.nextBlockId) ∧
  (∀ i ∈ f.allInstrs, i.id < f.nextInstrId) ∧
  (∀ bb ∈ f.basicblocks, bb.predecessors.Nodup ∧ bb.successors.Nodup) ∧
  (∀ bb ∈ f.basicblocks, ∀ p ∈ bb.predecessors,
    ∃ pb ∈ f.basicblocks, pb.id = p ∧ bb.id ∈ pb.successors) ∧
  (∀ bb ∈ f.basicblocks, ∀ s ∈ bb.successors,
    ∃ sb ∈ f.basicblocks, sb.id = s ∧ bb.id ∈ sb.predecessors)

instance (f : Function) : Decidable f.wf := by
  unfold Function.wf
  infer_instance

/-! ## Concrete fixtures used by the witnesses -/
/-- Scenario A callee (spec §8): one entry block with a parameter load for
index 0 followed by a return of that value, then the empty exit sentinel. -/
def calleeA : Function :=
  { basicblocks := [
      { id := 0,
        instructions := [
          { id := 0, opcode := .kLoadArg, inputs := [.imm 0] },
          { id := 1, opcode := .kReturn, inputs := [.linked 0] } ],
        predecessors := [], successors := [1] },
      { id := 1, instructions := [], predecessors := [0], successors := [] } ],
    nextBlockId := 2, nextInstrId := 2 }

/-- A one-block caller whose only instruction is the call (id 1, callee
address 100, one immediate actual argument 7). -/
def callerA : Function :=
  { basicblocks := [
      { id := 0,
        instructions := [ { id := 1, opcode := .kCall, inputs := [.imm 100, .imm 7] } ],
        predecessors := [], successors := [] } ],
    nextBlockId := 1, nextInstrId := 2 }

/-- The call instruction of `callerA`. -/
def callA : Instruction :=
  { id := 1, opcode := .kCall, inputs := [.imm 100, .imm 7] }

/-- A resolver environment that resolves address 100 to `calleeA`. -/
def envA : ResolveEnv :=
  { addrToName := fun a => if a == 100 then some "dbl" else none,
    loadText := fun n => if n == "dbl" then some "dbltext" else none,
    parseText := fun t => if t == "dbltext" then some calleeA else none }

/-- A resolver environment in which no address resolves to a name. -/
def envNone : ResolveEnv :=
  { addrToName := fun _ => none,
    loadText := fun _ => none,
    parseText := fun _ => none }

/-! ## C9 -/
/-- A callee that passes the legality checker but whose single return
instruction has no input operand. -/
def calleeZ : Function :=
  { basicblocks := [
      { id := 0, instructions := [ { id := 0, opcode := .kReturn, inputs := [] } ],
        predecessors := [], successors := [1] },
      { id := 1, instructions := [], predecessors := [0], successors := [] } ],
    nextBlockId := 2, nextInstrId := 1 }

/-- A resolver environment that resolves address 100 to `calleeZ`. -/
def envZ : ResolveEnv :=
  { addrToName := fun a => if a == 100 then some "z" else none,
    loadText := fun n => if n == "z" then some "zt" else none,
    parseText := fun t => if t == "zt" then some calleeZ else none }

/-! ## C8 -/
/-- A caller whose call instruction's first input is not an immediate. -/
def callerNoImm : Function :=
  { basicblocks := [
      { id := 0,
        instructions := [ { id := 1, opcode := .kCall, inputs := [.vreg 0, .imm 7] } ],
        predecessors := [], successors := [] } ],
    nextBlockId := 1, nextInstrId := 2 }

/-- A resolver environment that resolves the name but has no text for it. -/
def envNameOnly : ResolveEnv :=
  { addrToName := fun a => if a == 100 then some "dbl" else none,
    loadText := fun _ => none,
    parseText := fun _ => none }

/-- A resolver environment whose text never parses. -/
def envParseFail : ResolveEnv :=
  { addrToName := fun a => if a == 100 then some "dbl" else none,
    loadText := fun n => if n == "dbl" then some "dbltext" else none,
    parseText := fun _ => none }

/-! ## C10 -/
/-- A callee whose first stored block has a predecessor, even though exactly
one block (elsewhere) has no predecessors and exactly one has no
successors. -/
def calleeC10 : Function :=
  { basicblocks := [
      { id := 0, instructions := [], predecessors := [1], successors := [2] },
      { id := 1, instructions := [], predecessors := [], successors := [0] },
      { id := 2, instructions := [], predecessors := [0], successors := [] } ],
    nextBlockId := 3, nextInstrId := 0 }

/-! ## C5 -/
/-- A callee whose exit (last) block contains an instruction. -/
def calleeC5 : Function :=
  { basicblocks := [
      { id := 0, instructions := [], predecessors := [], successors := [1] },
      { id := 1, instructions := [ { id := 0, opcode := .kOther 3, inputs := [] } ],
        predecessors := [0], successors := [] } ],
    nextBlockId := 2, nextInstrId := 1 }

/-! ## C6 -/
/-- What the prefix scan demands of a parameter load it accepts: a first
input that is an immediate index strictly below the actual-argument count. -/
def goodLoadArg (n : Nat) (x : Instruction) : Prop :=
  ∃ a0, x.inputs.head? = some a0 ∧ a0.isImm = true ∧ a0.getConstant < n

/-- Scenario E callee: a parameter load asking for argument index 5 when
the call supplies a single actual argument. -/
def calleeE : Function :=
  { basicblocks := [
      { id := 0,
        instructions := [
          { id := 0, opcode := .kLoadArg, inputs := [.imm 5] },
          { id := 1, opcode := .kReturn, inputs := [.imm 0] } ],
        predecessors := [], successors := [1] },
      { id := 1, instructions := [], predecessors := [0], successors := [] } ],
    nextBlockId := 2, nextInstrId := 2 }

/-! ## The shape of the argument-resolving scan -/
/-- The shape relation realised by the while-loop of `resolveArguments` on
one block: each instruction is erased (parameter load bound to a linked
argument), converted in place to a move (parameter load bound to an
immediate), or kept with its identity, opcode and input arity intact (its
linked uses repaired). -/
inductive ScanRel : List Instruction → List Instruction → Prop where
  | nil : ScanRel [] []
  | drop (a : Instruction) (l out : List Instruction) :
      a.opcode = Opcode.kLoadArg → ScanRel l out → ScanRel (a :: l) out
  | conv (a a' : Instruction) (l out : List Instruction) :
      a.opcode = Opcode.kLoadArg → a'.opcode = Opcode.kMove → a'.id = a.id →
      a'.inputs.length = a.inputs.length → ScanRel l out → ScanRel (a :: l) (a' :: out)
  | keep (a a' : Instruction) (l out : List Instruction) :
      a.opcode ≠ Opcode.kLoadArg → a'.opcode = a.opcode → a'.id = a.id →
      a'.inputs.length = a.inputs.length → ScanRel l out → ScanRel (a :: l) (a' :: out)

/-- Per-instruction safety of a block for the argument-resolving scan: every
parameter load carries an immediate index bound, in `args`, to an immediate
or linked operand. -/
def SafeArgs (args : List Operand) (l : List Instruction) : Prop :=
  ∀ i ∈ l, i.opcode = Opcode.kLoadArg →
    ∃ k, i.inputs.head? = some (Operand.imm k) ∧
      ∃ param, args.get? k = some param ∧
        (param.isImm = true ∨ ∃ t, param = Operand.linked t)

/-! ## The return-merging loop -/
/-- Whether the block with id `p` currently ends in a return instruction
(the test `pred->getLastInstr()->isReturn()` of `resolveReturnValue`). -/
def lastIsReturn (g : Function) (p : Nat) : Bool :=
  match g.basicblocks.findIdx? (fun bb => bb.id == p) with
  | none => false
  | some j =>
    match g.basicblocks.get? j with
    | none => false
    | some b =>
      match b.instructions.getLast? with
      | none => false
      | some r => r.opcode == Opcode.kReturn

/-- The first input operand of the return ending block `p` (the operand the
merge instruction takes over). -/
def returnValueOf (g : Function) (p : Nat) : Option Operand :=
  match g.basicblocks.findIdx? (fun bb => bb.id == p) with
  | none => none
  | some j =>
    match g.basicblocks.get? j with
    | none => none
    | some b =>
      match b.instructions.getLast? with
      | none => none
      | some r => r.inputs.head?

/-- The (label, value) inputs the return merger accumulates for a phi, one
group per predecessor whose stored block currently ends in a return. -/
def phiInputsOf (g : Function) (preds : List Nat) : List Operand :=
  preds.flatMap (fun p =>
    if lastIsReturn g p then Operand.lbl p :: (returnValueOf g p).toList else [])

/-- Rewrite applied to the call instruction on the void path: it becomes a
no-op. -/
def nopAt (callId : Nat) (i : Instruction) : Instruction :=
  if i.id == callId then { i with opcode := Opcode.kNop } else i

/-- Rewrite applied to the call instruction on the merging path: it becomes a
move of the phi output. -/
def moveAt (callId phiId : Nat) (i : Instruction) : Instruction :=
  if i.id == callId then { i with opcode := Opcode.kMove, inputs := [Operand.linked phiId] } else i

/-! ## C4 -/
/-- Scenario B callee (spec §8): a void callee — two blocks, no return
instruction anywhere. -/
def calleeB : Function :=
  { basicblocks := [
      { id := 0,
        instructions := [ { id := 0, opcode := .kMove, inputs := [.imm 5] } ],
        predecessors := [], successors := [1] },
      { id := 1, instructions := [], predecessors := [0], successors := [] } ],
    nextBlockId := 2, nextInstrId := 1 }

/-- A resolver environment that resolves address 100 to `calleeB`. -/
def envB : ResolveEnv :=
  { addrToName := fun a => if a == 100 then some "vo" else none,
    loadText := fun n => if n == "vo" then some "vot" else none,
    parseText := fun t => if t == "vot" then some calleeB else none }

/-- Scenario D callee (spec §8): a diamond with two return paths feeding the
exit block. -/
def calleeD : Function :=
  { basicblocks := [
      { id := 0,
        instructions := [ { id := 0, opcode := .kLoadArg, inputs := [.imm 0] } ],
        predecessors := [], successors := [1, 2] },
      { id := 1,
        instructions := [ { id := 1, opcode := .kReturn, inputs := [.imm 1] } ],
        predecessors := [0], successors := [3] },
      { id := 2,
        instructions := [ { id := 2, opcode := .kReturn, inputs := [.imm 2] } ],
        predecessors := [0], successors := [3] },
      { id := 3, instructions := [], predecessors := [1, 2], successors := [] } ],
    nextBlockId := 4, nextInstrId := 3 }

/-- A resolver environment that resolves address 100 to `calleeD`. -/
def envD : ResolveEnv :=
  { addrToName := fun a => if a == 100 then some "dd" else none,
    loadText := fun n => if n == "dd" then some "ddt" else none,
    parseText := fun t => if t == "ddt" then some calleeD else none }


/-- C9: a callee that passes `isInlineable` but contains a return
instruction with zero input operands makes the pass abort loudly during
return merging (the `JIT_CHECK` that a merged return has at least one input
operand), instead of completing; the legality checker itself does not
reject such a callee. -/
theorem inlineCall_zero_input_return_aborts :
    isInlineable callA calleeZ = true ∧
    (∃ bb ∈ calleeZ.basicblocks, ∃ i ∈ bb.instructions,
       i.opcode = Opcode.kReturn ∧ i.inputs = []) ∧
    (inlineCall envZ [] callerA 1).2 =
      Except.error "Return instruction should have at least 1 input operand." :=
  And.intro (by decide) (And.intro (by decide) (by rfl))

/-- C8: a callee-address operand that is absent or not an immediate, an
address with no symbolic name, or a name with no loadable or parsable
textual IR makes `inlineCall` return false as a normal non-fatal failure
with the caller untouched (an unparsable text additionally caches the
failure); and a successful parse is cached process-wide and reused on later
calls with the same name, independently of the environment. -/
theorem inlineCall_resolution_contract
    (env env2 : ResolveEnv) (cache : Cache) (f : Function) (callId : Nat)
    (call : Instruction) (a : Nat) (nm : String) (txt : String) (g : Function)
    (hcall : f.findInstr? callId = some call) :
    ((call.inputs.head? = none ∨ ∃ d, call.inputs.head? = some d ∧ d.isImm = false) →
       inlineCall env cache f callId = (cache, Except.ok (false, f))) ∧
    (call.inputs.head? = some (Operand.imm a) → env.addrToName a = none →
       inlineCall env cache f callId = (cache, Except.ok (false, f))) ∧
    (call.inputs.head? = some (Operand.imm a) → env.addrToName a = some nm →
       List.lookup nm cache = none → env.loadText nm = none →
       inlineCall env cache f callId = (cache, Except.ok (false, f))) ∧
    (call.inputs.head? = some (Operand.imm a) → env.addrToName a = some nm →
       List.lookup nm cache = none → env.loadText nm = some txt →
       env.parseText txt = none →
       inlineCall env cache f callId = ((nm, none) :: cache, Except.ok (false, f))) ∧
    (List.lookup nm cache = none → env.loadText nm = some txt →
       env.parseText txt = some g →
       parseFunction env cache nm = ((nm, some g) :: cache, some g) ∧
       parseFunction env2 ((nm, some g) :: cache) nm = ((nm, some g) :: cache, some g)) := by
  refine ⟨?_, ?_, ?_, ?_, ?_⟩
  · intro h1
    unfold inlineCall findFunction
    rcases h1 with hnone | ⟨d, hd, him⟩
    · simp [hcall, hnone]
    · simp [hcall, hd, him]
  · intro h1 h2
    unfold inlineCall findFunction
    simp [hcall, h1, h2, Operand.isImm, Operand.getConstant]
  · intro h1 h2 h3 h4
    unfold inlineCall findFunction parseFunction
    simp [hcall, h1, h2, h3, h4, Operand.isImm, Operand.getConstant]
  · intro h1 h2 h3 h4 h5
    unfold inlineCall findFunction parseFunction
    simp [hcall, h1, h2, h3, h4, h5, Operand.isImm, Operand.getConstant]
  · intro h1 h2 h3
    constructor
    · unfold parseFunction
      simp [h1, h2, h3]
    · unfold parseFunction
      simp

/-- Witness for C8: each resolution-failure mode on a concrete caller, the
caching of a successful parse, and its environment-independent reuse. -/
theorem inlineCall_resolution_contract_witness :
    inlineCall envNone [] callerNoImm 1 = ([], Except.ok (false, callerNoImm)) ∧
    inlineCall envNone [] callerA 1 = ([], Except.ok (false, callerA)) ∧
    inlineCall envNameOnly [] callerA 1 = ([], Except.ok (false, callerA)) ∧
    inlineCall envParseFail [] callerA 1 = ([("dbl", none)], Except.ok (false, callerA)) ∧
    (parseFunction envA [] "dbl" = ([("dbl", some calleeA)], some calleeA) ∧
     parseFunction envNone [("dbl", some calleeA)] "dbl" =
       ([("dbl", some calleeA)], some calleeA)) := by
  refine ⟨?_, ?_, ?_, ?_, ?_⟩
  · exact (inlineCall_resolution_contract envNone envNone [] callerNoImm 1
      { id := 1, opcode := .kCall, inputs := [.vreg 0, .imm 7] } 0 "x" "y" calleeA
      (by rfl)).1 (Or.inr ⟨.vreg 0, by rfl, by rfl⟩)
  · exact (inlineCall_resolution_contract envNone envNone [] callerA 1 callA 100
      "x" "y" calleeA (by rfl)).2.1 (by rfl) (by rfl)
  · exact (inlineCall_resolution_contract envNameOnly envNone [] callerA 1 callA 100
      "dbl" "y" calleeA (by rfl)).2.2.1 (by rfl) (by rfl) (by rfl) (by rfl)
  · exact (inlineCall_resolution_contract envParseFail envNone [] callerA 1 callA 100
      "dbl" "dbltext" calleeA (by rfl)).2.2.2.1 (by rfl) (by rfl) (by rfl) (by rfl) (by rfl)
  · exact (inlineCall_resolution_contract envA envNone [] callerA 1 callA 100
      "dbl" "dbltext" calleeA (by rfl)).2.2.2.2 (by rfl) (by rfl) (by rfl)

/-! ## Soundness of the legality checker -/
/-- `isInlineable` returns `true` only when all three sub-checks pass. -/
theorem isInlineable_true_elim (call : Instruction) (callee : Function)
    (h : isInlineable call callee = true) :
    checkEntryExitReturn callee = true ∧ checkArguments call = true ∧
    checkLoadArg call callee = true := by
  by_cases h1 : checkEntryExitReturn callee
  · by_cases h2 : checkArguments call
    · by_cases h3 : checkLoadArg call callee
      · exact And.intro h1 (And.intro h2 h3)
      · simp [isInlineable, h1, h2, h3] at h
    · simp [isInlineable, h1, h2] at h
  · simp [isInlineable, h1] at h

/-- If the return-placement scan accepts a block, every return sits at the
last position and the successor condition holds. -/
theorem instrsReturnLast_sound (s : Bool) (l : List Instruction)
    (h : instrsReturnLast s l = true) (j : Nat) (instr : Instruction)
    (hj : l.get? j = some instr) (hret : instr.opcode = Opcode.kReturn) :
    j = l.length - 1 ∧ s = true := by
  induction l generalizing j with
  | nil => simp at hj
  | cons a rest ih =>
    cases rest with
    | nil =>
      cases j with
      | zero =>
        simp only [List.get?] at hj
        cases hj
        simp only [instrsReturnLast, hret] at h
        simp at h
        exact And.intro rfl h
      | succ n => simp [List.get?] at hj
    | cons b rest2 =>
      simp only [instrsReturnLast, Bool.and_eq_true] at h
      cases j with
      | zero =>
        simp only [List.get?] at hj
        cases hj
        simp [hret] at h
      | succ n =>
        simp only [List.get?] at hj
        have hrec := ih h.2 n hj
        refine And.intro ?_ hrec.2
        have := hrec.1
        simp only [List.length_cons] at this ⊢
        omega

/-- What `checkEntryExitReturn` accepting a callee guarantees: the first
block has no predecessors, the last block has no successors and no
instructions, every other block has predecessors and (unless last)
successors, and every block passes the return-placement scan against the
last block. -/
theorem checkEntryExitReturn_sound (b0 : BasicBlock) (rest : List BasicBlock)
    (callee : Function) (hbb : callee.basicblocks = b0 :: rest)
    (h : checkEntryExitReturn callee = true) :
    b0.predecessors = [] ∧
    ((b0 :: rest).getLast?.getD b0).successors = [] ∧
    ((b0 :: rest).getLast?.getD b0).instructions = [] ∧
    ∀ i bb, (b0 :: rest).get? i = some bb →
      (i ≠ 0 → bb.predecessors ≠ []) ∧
      (i ≠ rest.length → bb.successors ≠ []) ∧
      instrsReturnLast (bb.successors == [((b0 :: rest).getLast?.getD b0).id])
        bb.instructions = true := by
  unfold checkEntryExitReturn at h
  rw [hbb] at h
  simp only [] at h
  split at h
  · simp at h
  · rename_i hp
    split at h
    · simp at h
    · rename_i hs
      split at h
      · simp at h
      · rename_i hall
        refine And.intro ?_ (And.intro ?_ (And.intro ?_ ?_))
        · simpa using hp
        · simpa using hs
        · simpa [List.isEmpty_iff] using h
        · intro i bb hget
          have hlt : i < (b0 :: rest).length := List.get?_eq_some.mp hget |>.1
          have hall2 : ((List.range (b0 :: rest).length).all (fun i =>
            match (b0 :: rest).get? i with
            | none => true
            | some bb =>
              (!bb.predecessors.isEmpty || i == 0) &&
              (!bb.successors.isEmpty || i == (b0 :: rest).length - 1) &&
              instrsReturnLast (bb.successors == [((b0 :: rest).getLast?.getD b0).id])
                bb.instructions)) = true := by
            simpa using hall
          have hi := List.all_eq_true.mp hall2 i (List.mem_range.mpr hlt)
          rw [hget] at hi
          simp only [Bool.and_eq_true, Bool.or_eq_true, Bool.not_eq_true',
            List.isEmpty_iff, beq_iff_eq, List.length_cons] at hi
          refine And.intro ?_ (And.intro ?_ hi.2)
          · intro hi0
            rcases hi.1.1 with hne | he
            · intro hc; rw [hc] at hne; simp at hne
            · exact absurd he hi0
          · intro hin
            rcases hi.1.2 with hne | he
            · intro hc; rw [hc] at hne; simp at hne
            · exact absurd (by omega : i = rest.length) hin

/-- C10 (implicit): `isInlineable` requires the unique entry block to be the
first stored block and the unique exit block to be the last stored block:
whenever the first stored block has a predecessor or the last stored block
has a successor, `isInlineable` returns false — even if exactly one block
with no predecessors and exactly one with no successors exist elsewhere in
stored order (the witness instantiates such a callee). -/
theorem isInlineable_first_last_positional (call : Instruction) (callee : Function)
    (b0 bl : BasicBlock)
    (h0 : callee.basicblocks.head? = some b0)
    (hl : callee.basicblocks.getLast? = some bl)
    (h : b0.predecessors ≠ [] ∨ bl.successors ≠ []) :
    isInlineable call callee = false := by
  cases hb : isInlineable call callee with
  | false => rfl
  | true =>
    exfalso
    have hEER := (isInlineable_true_elim call callee hb).1
    rcases hbb : callee.basicblocks with _ | ⟨c0, crest⟩
    · rw [hbb] at h0; simp at h0
    · rw [hbb] at h0 hl
      simp only [List.head?] at h0
      cases h0
      have hsound := checkEntryExitReturn_sound b0 crest callee hbb hEER
      rcases h with hp | hs
      · exact hp hsound.1
      · have : (b0 :: crest).getLast?.getD b0 = bl := by rw [hl]; rfl
        rw [this] at hsound
        exact hs hsound.2.1

/-- Witness for C10: `calleeC10` has exactly one no-predecessor block and
exactly one no-successor block, yet is rejected because its first stored
block has a predecessor. -/
theorem isInlineable_first_last_positional_witness :
    (calleeC10.basicblocks.countP (fun bb => bb.predecessors.isEmpty) = 1 ∧
     calleeC10.basicblocks.countP (fun bb => bb.successors.isEmpty) = 1) ∧
    isInlineable callA calleeC10 = false :=
  And.intro (by decide)
    (isInlineable_first_last_positional callA calleeC10
      { id := 0, instructions := [], predecessors := [1], successors := [2] }
      { id := 2, instructions := [], predecessors := [0], successors := [] }
      (by rfl) (by rfl) (Or.inl (by decide)))

/-- C5: `isInlineable` returns false whenever the callee violates the
single-entry/single-exit structure: no basic blocks, or the entry (first)
block has a predecessor, or some non-entry block has no predecessors, or
some non-exit block has no successors, or some return instruction is not
the last instruction of a block whose unique successor is the exit (last)
block, or the exit block contains an instruction. -/
theorem isInlineable_entry_exit_violation (call : Instruction) (callee : Function)
    (h :
      callee.basicblocks = [] ∨
      (∃ b0, callee.basicblocks.head? = some b0 ∧ b0.predecessors ≠ []) ∨
      (∃ i bb, callee.basicblocks.get? i = some bb ∧ i ≠ 0 ∧ bb.predecessors = []) ∨
      (∃ i bb, callee.basicblocks.get? i = some bb ∧
        i ≠ callee.basicblocks.length - 1 ∧ bb.successors = []) ∨
      (∃ i bb j instr bl, callee.basicblocks.get? i = some bb ∧
        bb.instructions.get? j = some instr ∧ instr.opcode = Opcode.kReturn ∧
        callee.basicblocks.getLast? = some bl ∧
        ¬(j = bb.instructions.length - 1 ∧ bb.successors = [bl.id])) ∨
      (∃ bl, callee.basicblocks.getLast? = some bl ∧ bl.instructions ≠ [])) :
    isInlineable call callee = false := by
  cases hb : isInlineable call callee with
  | false => rfl
  | true =>
    exfalso
    have hEER := (isInlineable_true_elim call callee hb).1
    rcases hbb : callee.basicblocks with _ | ⟨b0, rest⟩
    · rcases h with h | h | h | h | h | h
      · exact absurd hEER (by unfold checkEntryExitReturn; rw [hbb]; simp)
      all_goals (rw [hbb] at h; first
        | (obtain ⟨x, hx, -⟩ := h; simp at hx)
        | (obtain ⟨x, y, hx, -⟩ := h; simp at hx)
        | (obtain ⟨x, y, z, w, v, hx, -⟩ := h; simp at hx))
    · have hsound := checkEntryExitReturn_sound b0 rest callee hbb hEER
      rcases h with h | h | h | h | h | h
      · rw [hbb] at h; simp at h
      · obtain ⟨c0, hc0, hp⟩ := h
        rw [hbb] at hc0
        simp only [List.head?] at hc0
        cases hc0
        exact hp hsound.1
      · obtain ⟨i, bb, hget, hi0, hp⟩ := h
        rw [hbb] at hget
        exact (hsound.2.2.2 i bb hget).1 hi0 hp
      · obtain ⟨i, bb, hget, hin, hsuc⟩ := h
        rw [hbb] at hget hin
        simp only [List.length_cons] at hin
        have : i ≠ rest.length := by omega
        exact (hsound.2.2.2 i bb hget).2.1 this hsuc
      · obtain ⟨i, bb, j, instr, bl, hget, hj, hret, hlast, hnot⟩ := h
        rw [hbb] at hget hlast
        have hex : (b0 :: rest).getLast?.getD b0 = bl := by rw [hlast]; rfl
        have hscan := (hsound.2.2.2 i bb hget).2.2
        rw [hex] at hscan
        have := instrsReturnLast_sound _ _ hscan j instr hj hret
        exact hnot (And.intro this.1 (by simpa using this.2))
      · obtain ⟨bl, hlast, hins⟩ := h
        rw [hbb] at hlast
        have hex : (b0 :: rest).getLast?.getD b0 = bl := by rw [hlast]; rfl
        rw [hex] at hsound
        exact hins hsound.2.2.1

/-- Witness for C5: a callee whose exit block holds an instruction is
rejected. -/
theorem isInlineable_entry_exit_violation_witness :
    isInlineable callA calleeC5 = false :=
  isInlineable_entry_exit_violation callA calleeC5
    (Or.inr (Or.inr (Or.inr (Or.inr (Or.inr
      (Exists.intro { id := 1, instructions := [ { id := 0, opcode := .kOther 3, inputs := [] } ], predecessors := [0], successors := [] }
        (And.intro (by rfl) (by decide))))))))

/-! ## C7 -/
/-- C7: `isInlineable` returns false if any actual argument operand (every
call input after the callee-address input) is neither an immediate constant
nor a virtual/linked register reference — in particular an indirect/memory
operand used directly as an argument. -/
theorem isInlineable_bad_argument (call : Instruction) (callee : Function)
    (h : ∃ inp ∈ callArguments call, inp.isImm = false ∧ inp.isVreg = false) :
    isInlineable call callee = false := by
  cases hb : isInlineable call callee with
  | false => rfl
  | true =>
    exfalso
    have hargs := (isInlineable_true_elim call callee hb).2.1
    obtain ⟨inp, hmem, him, hvr⟩ := h
    have := List.all_eq_true.mp hargs inp hmem
    rw [him, hvr] at this
    simp at this

/-- Witness for C7: an indirect operand as the actual argument is
rejected. -/
theorem isInlineable_bad_argument_witness :
    isInlineable { id := 1, opcode := .kCall, inputs := [.imm 100, .ind (.vreg 3)] }
      calleeA = false :=
  isInlineable_bad_argument
    { id := 1, opcode := .kCall, inputs := [.imm 100, .ind (.vreg 3)] } calleeA
    (Exists.intro (.ind (.vreg 3)) (And.intro (by decide) (And.intro (by rfl) (by rfl))))

/-- After the scan has left the parameter-load prefix, any further
parameter load makes it fail. -/
theorem checkLoadArgScan_false_sound (n : Nat) (l : List Instruction)
    (h : checkLoadArgScan n false l = true) :
    ∀ x ∈ l, x.opcode ≠ Opcode.kLoadArg := by
  induction l with
  | nil => intro x hx; simp at hx
  | cons a rest ih =>
    intro x hx
    by_cases ha : a.opcode == Opcode.kLoadArg
    · simp only [checkLoadArgScan, ha, if_true] at h
      simp at h
    · rcases List.mem_cons.mp hx with rfl | hxr
      · simpa using ha
      · exact ih (by simpa [checkLoadArgScan, ha] using h) x hxr

/-- Every parameter load accepted by the scan satisfies `goodLoadArg`. -/
theorem checkLoadArgScan_true_sound (n : Nat) (l : List Instruction)
    (h : checkLoadArgScan n true l = true) :
    ∀ x ∈ l, x.opcode = Opcode.kLoadArg → goodLoadArg n x := by
  induction l with
  | nil => intro x hx; simp at hx
  | cons a rest ih =>
    intro x hx hla
    by_cases ha : a.opcode == Opcode.kLoadArg
    · simp only [checkLoadArgScan, ha, if_true] at h
      rcases hh : a.inputs.head? with _ | a0
      · rw [hh] at h; simp at h
      · rw [hh] at h
        by_cases him : a0.isImm
        · by_cases hle : n ≤ a0.getConstant
          · simp [him, hle] at h
          · rcases List.mem_cons.mp hx with rfl | hxr
            · exact Exists.intro a0 (And.intro hh (And.intro him (by omega)))
            · exact ih (by simpa [him, hle] using h) x hxr hla
        · simp [him] at h
    · rcases List.mem_cons.mp hx with rfl | hxr
      · exact absurd hla (by simpa using ha)
      · exact absurd hla
          (checkLoadArgScan_false_sound n rest (by simpa [checkLoadArgScan, ha] using h) x hxr)

/-- If the scan accepts, no parameter load occurs after a non-parameter-load
instruction, from any starting state. -/
theorem checkLoadArgScan_no_late_loadArg (n : Nat) :
    ∀ (l1 : List Instruction) (s : Bool) (a : Instruction) (l2 : List Instruction),
    checkLoadArgScan n s (l1 ++ a :: l2) = true → a.opcode ≠ Opcode.kLoadArg →
    ∀ b ∈ l2, b.opcode ≠ Opcode.kLoadArg := by
  intro l1
  induction l1 with
  | nil =>
    intro s a l2 h ha
    have ha' : (a.opcode == Opcode.kLoadArg) = false := by simpa using ha
    cases s
    · exact checkLoadArgScan_false_sound n l2
        (by simpa [checkLoadArgScan, ha'] using h)
    · exact checkLoadArgScan_false_sound n l2
        (by simpa [checkLoadArgScan, ha'] using h)
  | cons c t ih =>
    intro s a l2 h ha
    rw [List.cons_append] at h
    cases s
    · by_cases hc : c.opcode == Opcode.kLoadArg
      · simp only [checkLoadArgScan, hc, if_true] at h
        simp at h
      · exact ih false a l2 (by simpa [checkLoadArgScan, hc] using h) ha
    · by_cases hc : c.opcode == Opcode.kLoadArg
      · simp only [checkLoadArgScan, hc, if_true] at h
        rcases hh : c.inputs.head? with _ | a0
        · rw [hh] at h; simp at h
        · rw [hh] at h
          by_cases him : a0.isImm
          · by_cases hle : n ≤ a0.getConstant
            · simp [him, hle] at h
            · exact ih true a l2 (by simpa [him, hle] using h) ha
          · simp [him] at h
      · exact ih false a l2 (by simpa [checkLoadArgScan, hc] using h) ha

/-- C6: `isInlineable` returns false if, scanning the callee's blocks and
instructions in stored order, any parameter load appears after a
non-parameter-load instruction, or any parameter load's first input is
missing, is not an immediate, or is an index at or above the number of
actual call arguments (call inputs minus the callee-address operand). -/
theorem isInlineable_bad_parameter_loads (call : Instruction) (callee : Function)
    (hcall : call.inputs ≠ [])
    (h :
      (∃ l1 a l2, callee.allInstrs = l1 ++ a :: l2 ∧ a.opcode ≠ Opcode.kLoadArg ∧
        ∃ b ∈ l2, b.opcode = Opcode.kLoadArg) ∨
      (∃ x ∈ callee.allInstrs, x.opcode = Opcode.kLoadArg ∧
        (x.inputs.head? = none ∨
         ∃ a0, x.inputs.head? = some a0 ∧
           (a0.isImm = false ∨ call.inputs.length - 1 ≤ a0.getConstant)))) :
    isInlineable call callee = false := by
  cases hb : isInlineable call callee with
  | false => rfl
  | true =>
    exfalso
    have hla := (isInlineable_true_elim call callee hb).2.2
    unfold checkLoadArg at hla
    have hn : numActualArgs call = call.inputs.length - 1 := by
      unfold numActualArgs
      rw [if_neg]
      simpa using hcall
    rw [hn] at hla
    rcases h with ⟨l1, a, l2, hsplit, hna, b, hbmem, hbla⟩ | ⟨x, hxmem, hxla, hbad⟩
    · rw [hsplit] at hla
      exact checkLoadArgScan_no_late_loadArg _ l1 true a l2 hla hna b hbmem hbla
    · obtain ⟨a0, hh, him, hlt⟩ := checkLoadArgScan_true_sound _ _ hla x hxmem hxla
      rcases hbad with hnone | ⟨a1, hh1, hbad1⟩
      · rw [hnone] at hh; cases hh
      · rw [hh1] at hh
        cases hh
        rcases hbad1 with hbi | hble
        · rw [him] at hbi; cases hbi
        · omega

/-- Witness for C6: an out-of-range parameter-load index is rejected. -/
theorem isInlineable_bad_parameter_loads_witness :
    isInlineable callA calleeE = false := by
  have hbad : ∃ x ∈ calleeE.allInstrs, x.opcode = Opcode.kLoadArg ∧
      (x.inputs.head? = none ∨
       ∃ a0, x.inputs.head? = some a0 ∧
         (a0.isImm = false ∨ callA.inputs.length - 1 ≤ a0.getConstant)) := by
    refine ⟨{ id := 0, opcode := .kLoadArg, inputs := [Operand.imm 5] }, by decide, rfl,
      Or.inr ⟨Operand.imm 5, rfl, Or.inr (by decide)⟩⟩
  exact isInlineable_bad_parameter_loads callA calleeE (by decide) (Or.inr hbad)

/-! ## Generic list lemmas used by the splicing proofs -/
theorem findIdx?_go_some {α : Type} (p : α → Bool) (l : List α) :
    ∀ (k i : Nat), List.findIdx? p l k = some i →
      k ≤ i ∧ ∃ x, l.get? (i - k) = some x ∧ p x = true := by
  induction l with
  | nil => intro k i h; simp [List.findIdx?] at h
  | cons a t ih =>
    intro k i h
    rw [List.findIdx?_cons] at h
    by_cases hp : p a
    · rw [if_pos hp] at h
      cases h
      exact ⟨Nat.le_refl _, a, by simp, hp⟩
    · rw [if_neg hp] at h
      obtain ⟨hk, x, hx, hpx⟩ := ih (k + 1) i h
      refine ⟨by omega, x, ?_, hpx⟩
      have : i - k = (i - (k + 1)) + 1 := by omega
      rw [this]
      simpa using hx

/-- `findIdx?` returns an in-range index whose element satisfies the
predicate. -/
theorem findIdx?_some_get {α : Type} (p : α → Bool) (l : List α) (i : Nat)
    (h : List.findIdx? p l = some i) :
    ∃ x, l.get? i = some x ∧ p x = true := by
  have := findIdx?_go_some p l 0 i h
  simpa using this.2

theorem findIdx?_go_of_mem {α : Type} (p : α → Bool) (l : List α) (x : α)
    (hx : x ∈ l) (hpx : p x = true) :
    ∀ k, ∃ i, List.findIdx? p l k = some i := by
  induction l with
  | nil => cases hx
  | cons a t ih =>
    intro k
    rw [List.findIdx?_cons]
    by_cases hp : p a
    · exact ⟨k, by rw [if_pos hp]⟩
    · rcases List.mem_cons.mp hx with rfl | hxt
      · exact absurd hpx hp
      · obtain ⟨i, hi⟩ := ih hxt (k + 1)
        exact ⟨i, by rw [if_neg hp]; exact hi⟩

/-- If the list ids are duplicate-free, looking up a member's id by
`findIdx?` lands exactly on its position. -/
theorem findIdx?_id_go {α : Type} (idOf : α → Nat) (l : List α)
    (hnd : (l.map idOf).Nodup) :
    ∀ (j k : Nat) (x : α), l.get? j = some x →
      List.findIdx? (fun y => idOf y == idOf x) l k = some (k + j) := by
  induction l with
  | nil => intro j k x h; simp at h
  | cons a t ih =>
    simp only [List.map_cons, List.nodup_cons] at hnd
    intro j k x h
    rw [List.findIdx?_cons]
    cases j with
    | zero =>
      simp only [List.get?] at h
      cases h
      simp
    | succ n =>
      simp only [List.get?] at h
      have hxt : x ∈ t := List.get?_mem h
      have hne : idOf a ≠ idOf x := by
        intro he
        exact hnd.1 (he ▸ List.mem_map_of_mem idOf hxt)
      rw [if_neg (by simpa using hne)]
      have hrec := ih hnd.2 n (k + 1) x h
      have harith : k + 1 + n = k + (n + 1) := by omega
      rw [hrec, harith]

/-- Companion to `findIdx?_id_go`: `find?` by a member's id returns that
member when ids are duplicate-free. -/
theorem find?_id_unique {α : Type} (idOf : α → Nat) (l : List α)
    (hnd : (l.map idOf).Nodup) :
    ∀ (j : Nat) (x : α), l.get? j = some x →
      List.find? (fun y => idOf y == idOf x) l = some x := by
  induction l with
  | nil => intro j x h; simp at h
  | cons a t ih =>
    simp only [List.map_cons, List.nodup_cons] at hnd
    intro j x h
    cases j with
    | zero =>
      simp only [List.get?] at h
      cases h
      simp [List.find?]
    | succ n =>
      simp only [List.get?] at h
      have hxt : x ∈ t := List.get?_mem h
      have hne : idOf a ≠ idOf x := by
        intro he
        exact hnd.1 (he ▸ List.mem_map_of_mem idOf hxt)
      rw [List.find?_cons, show (idOf a == idOf x) = false from by simpa using hne]
      exact ih hnd.2 n x h

/-- Looking a member's id up in the enumerated association list of the deep
copy yields its positional fresh id. -/
theorem lookup_enumFrom_assoc {α : Type} (idOf : α → Nat) (l : List α)
    (hnd : (l.map idOf).Nodup) :
    ∀ (k base j : Nat) (x : α), l.get? j = some x →
      List.lookup (idOf x) ((List.enumFrom k l).map (fun p => (idOf p.2, base + p.1)))
        = some (base + (k + j)) := by
  induction l with
  | nil => intro k base j x h; simp at h
  | cons a t ih =>
    simp only [List.map_cons, List.nodup_cons] at hnd
    intro k base j x h
    rw [List.enumFrom_cons]
    cases j with
    | zero =>
      simp only [List.get?] at h
      cases h
      simp [List.lookup]
    | succ n =>
      simp only [List.get?] at h
      have hxt : x ∈ t := List.get?_mem h
      have hne : idOf x ≠ idOf a := by
        intro he
        exact hnd.1 (he ▸ List.mem_map_of_mem idOf hxt)
      rw [List.map_cons, List.lookup_cons,
        show (idOf x == idOf a) = false from by simpa using hne]
      have hrec := ih hnd.2 (k + 1) base n x h
      rw [hrec, show k + 1 + n = k + (n + 1) from by omega]

/-- Positional value of the block-id map on the j-th callee block. -/
theorem spliceBlockMap_eq (f callee : Function)
    (hnd : (callee.basicblocks.map (fun b => b.id)).Nodup)
    (j : Nat) (cb : BasicBlock) (hj : callee.basicblocks.get? j = some cb) :
    spliceBlockMap f callee cb.id = f.nextBlockId + 1 + j := by
  unfold spliceBlockMap
  have := lookup_enumFrom_assoc (fun b => b.id) callee.basicblocks hnd 0
    (f.nextBlockId + 1) j cb hj
  rw [show callee.basicblocks.enum = List.enumFrom 0 callee.basicblocks from rfl]
  rw [this]
  simp

/-- Positional value of the instruction-id map on the j-th callee
instruction. -/
theorem spliceInstrMap_eq (f callee : Function)
    (hnd : (callee.allInstrs.map (fun i => i.id)).Nodup)
    (j : Nat) (ins : Instruction) (hj : callee.allInstrs.get? j = some ins) :
    spliceInstrMap f callee ins.id = f.nextInstrId + j := by
  unfold spliceInstrMap
  have := lookup_enumFrom_assoc (fun i => i.id) callee.allInstrs hnd 0
    f.nextInstrId j ins hj
  rw [show callee.allInstrs.enum = List.enumFrom 0 callee.allInstrs from rfl]
  rw [this]
  simp

/-- The explicit form of a successful `splice`. -/
theorem splice_eq (f : Function) (callId : Nat) (callee : Function)
    (idx : Nat) (bb : BasicBlock) (cb0 : BasicBlock) (crest : List BasicBlock)
    (hidx : f.findBlockIdx? callId = some idx)
    (hbb : f.basicblocks.get? idx = some bb)
    (hcb : callee.basicblocks = cb0 :: crest) :
    splice f callId callee = some
      ({ basicblocks :=
           (spliceOthers f bb).take idx ++ [spliceBlock1 f callId bb callee]
             ++ spliceCopies f bb.id callee ++ [spliceBlock2 f callId bb callee]
             ++ (spliceOthers f bb).drop (idx + 1),
         nextBlockId := f.nextBlockId + 1 + callee.basicblocks.length,
         nextInstrId := f.nextInstrId + callee.allInstrs.length },
       idx + 1, idx + 1 + callee.basicblocks.length) := by
  unfold splice
  rw [hidx, hcb]
  simp only []
  rw [hbb]

theorem scanRel_nil_left (out : List Instruction) (h : ScanRel [] out) : out = [] := by
  cases h
  rfl

/-- `resolveLoadArg` either erases the parameter load or converts it in
place into a `kMove` with the same identity and arity. -/
theorem resolveLoadArg_ok_shape (args : List Operand) (m : VregMap) (a : Instruction)
    (m1 : VregMap) (r : Option Instruction)
    (h : resolveLoadArg args m a = Except.ok (m1, r)) :
    r = none ∨ ∃ c, r = some c ∧ c.opcode = Opcode.kMove ∧ c.id = a.id ∧
      c.inputs.length = a.inputs.length := by
  unfold resolveLoadArg at h
  split at h
  · simp at h
  · rename_i a0 hh
    split at h
    · simp at h
    · split at h
      · simp at h
      · rename_i param hparam
        split at h
        · simp only [Except.ok.injEq, Prod.mk.injEq] at h
          refine Or.inr ⟨_, h.2.symm, ?_⟩
          simp [← h.2]
        · split at h
          · simp only [Except.ok.injEq, Prod.mk.injEq] at h
            exact Or.inl h.2.symm
          · simp at h

/-- A successful scan realises the shape relation. -/
theorem scanRel_of_scan (args : List Operand) :
    ∀ (l : List Instruction) (m m' : VregMap) (out : List Instruction),
    scanInstrs args m l = Except.ok (m', out) → ScanRel l out := by
  intro l
  induction l with
  | nil =>
    intro m m' out h
    unfold scanInstrs at h
    simp only [Except.ok.injEq, Prod.mk.injEq] at h
    rw [← h.2]
    exact ScanRel.nil
  | cons a rest ih =>
    intro m m' out h
    unfold scanInstrs at h
    by_cases ha : a.opcode == Opcode.kLoadArg
    · rw [if_pos ha] at h
      rcases hr : resolveLoadArg args m a with e | ⟨m1, r⟩
      · rw [hr] at h; simp at h
      · rw [hr] at h
        rcases resolveLoadArg_ok_shape args m a m1 r hr with rfl | ⟨c, rfl, hop, hid, hlen⟩
        · simp only [] at h
          exact ScanRel.drop a rest out (by simpa using ha) (ih m1 m' out h)
        · simp only [] at h
          rcases hs : scanInstrs args m1 rest with e | ⟨m2, rest'⟩
          · rw [hs] at h; simp at h
          · rw [hs] at h
            simp only [Except.ok.injEq, Prod.mk.injEq] at h
            rw [← h.2]
            exact ScanRel.conv a c rest rest' (by simpa using ha) hop hid hlen
              (ih m1 m2 rest' hs)
    · rw [if_neg ha] at h
      rcases hs : scanInstrs args m rest with e | ⟨m2, rest'⟩
      · rw [hs] at h; simp at h
      · rw [hs] at h
        simp only [Except.ok.injEq, Prod.mk.injEq] at h
        rw [← h.2]
        refine ScanRel.keep a (resolveLinkedArgumentsUses m a) rest rest'
          (by simpa using ha) (by rfl) (by rfl) ?_ (ih m m2 rest' hs)
        simp [resolveLinkedArgumentsUses]

theorem scanRel_no_loadArg (l out : List Instruction) (h : ScanRel l out) :
    ∀ x ∈ out, x.opcode ≠ Opcode.kLoadArg := by
  induction h with
  | nil => intro x hx; cases hx
  | drop a l out ha hrel ih => exact ih
  | conv a a' l out ha hop hid hlen hrel ih =>
    intro x hx
    rcases List.mem_cons.mp hx with rfl | hx2
    · rw [hop]; intro hc; cases hc
    · exact ih x hx2
  | keep a a' l out ha hop hid hlen hrel ih =>
    intro x hx
    rcases List.mem_cons.mp hx with rfl | hx2
    · rw [hop]; exact ha
    · exact ih x hx2

theorem scanRel_ids_from (l out : List Instruction) (h : ScanRel l out) :
    ∀ x ∈ out, ∃ y ∈ l, y.id = x.id := by
  induction h with
  | nil => intro x hx; cases hx
  | drop a l out ha hrel ih =>
    intro x hx
    obtain ⟨y, hy, hyid⟩ := ih x hx
    exact ⟨y, List.mem_cons_of_mem a hy, hyid⟩
  | conv a a' l out ha hop hid hlen hrel ih =>
    intro x hx
    rcases List.mem_cons.mp hx with rfl | hx2
    · exact ⟨a, List.mem_cons_self a l, hid.symm⟩
    · obtain ⟨y, hy, hyid⟩ := ih x hx2
      exact ⟨y, List.mem_cons_of_mem a hy, hyid⟩
  | keep a a' l out ha hop hid hlen hrel ih =>
    intro x hx
    rcases List.mem_cons.mp hx with rfl | hx2
    · exact ⟨a, List.mem_cons_self a l, hid.symm⟩
    · obtain ⟨y, hy, hyid⟩ := ih x hx2
      exact ⟨y, List.mem_cons_of_mem a hy, hyid⟩

theorem scanRel_opcode_from (l out : List Instruction) (h : ScanRel l out) :
    ∀ x ∈ out, x.opcode = Opcode.kMove ∨ ∃ y ∈ l, y.opcode = x.opcode := by
  induction h with
  | nil => intro x hx; cases hx
  | drop a l out ha hrel ih =>
    intro x hx
    rcases ih x hx with hm | ⟨y, hy, hyo⟩
    · exact Or.inl hm
    · exact Or.inr ⟨y, List.mem_cons_of_mem a hy, hyo⟩
  | conv a a' l out ha hop hid hlen hrel ih =>
    intro x hx
    rcases List.mem_cons.mp hx with rfl | hx2
    · exact Or.inl hop
    · rcases ih x hx2 with hm | ⟨y, hy, hyo⟩
      · exact Or.inl hm
      · exact Or.inr ⟨y, List.mem_cons_of_mem a hy, hyo⟩
  | keep a a' l out ha hop hid hlen hrel ih =>
    intro x hx
    rcases List.mem_cons.mp hx with rfl | hx2
    · exact Or.inr ⟨a, List.mem_cons_self a l, hop.symm⟩
    · rcases ih x hx2 with hm | ⟨y, hy, hyo⟩
      · exact Or.inl hm
      · exact Or.inr ⟨y, List.mem_cons_of_mem a hy, hyo⟩

theorem scanRel_no_return (l out : List Instruction) (h : ScanRel l out)
    (hl : ∀ y ∈ l, y.opcode ≠ Opcode.kReturn) :
    ∀ x ∈ out, x.opcode ≠ Opcode.kReturn := by
  intro x hx
  rcases scanRel_opcode_from l out h x hx with hm | ⟨y, hy, hyo⟩
  · rw [hm]; intro hc; cases hc
  · rw [← hyo]; exact hl y hy

/-- The scan carries a trailing return (after a return-free prefix) to a
trailing return with the same identity and arity, after a return-free
prefix. -/
theorem scanRel_last_return (l out : List Instruction) (h : ScanRel l out) :
    ∀ (l0 : List Instruction) (r : Instruction), l = l0 ++ [r] →
    r.opcode = Opcode.kReturn → (∀ y ∈ l0, y.opcode ≠ Opcode.kReturn) →
    ∃ out0 r', out = out0 ++ [r'] ∧ r'.opcode = Opcode.kReturn ∧ r'.id = r.id ∧
      r'.inputs.length = r.inputs.length ∧ ∀ x ∈ out0, x.opcode ≠ Opcode.kReturn := by
  induction h with
  | nil =>
    intro l0 r he
    exact absurd he (by simp)
  | drop a l out ha hrel ih =>
    intro l0 r he hr hl0
    cases l0 with
    | nil =>
      simp only [List.nil_append, List.cons.injEq] at he
      rw [he.1] at ha
      rw [ha] at hr
      cases hr
    | cons b t =>
      simp only [List.cons_append, List.cons.injEq] at he
      obtain ⟨out0, r', ho, hro, hri, hrl, hnr⟩ :=
        ih t r he.2 hr (fun y hy => hl0 y (List.mem_cons_of_mem b hy))
      exact ⟨out0, r', ho, hro, hri, hrl, hnr⟩
  | conv a a' l out ha hop hid hlen hrel ih =>
    intro l0 r he hr hl0
    cases l0 with
    | nil =>
      simp only [List.nil_append, List.cons.injEq] at he
      rw [he.1] at ha
      rw [ha] at hr
      cases hr
    | cons b t =>
      simp only [List.cons_append, List.cons.injEq] at he
      obtain ⟨out0, r', ho, hro, hri, hrl, hnr⟩ :=
        ih t r he.2 hr (fun y hy => hl0 y (List.mem_cons_of_mem b hy))
      refine ⟨a' :: out0, r', by rw [ho, List.cons_append], hro, hri, hrl, ?_⟩
      intro x hx
      rcases List.mem_cons.mp hx with rfl | hx2
      · rw [hop]; intro hc; cases hc
      · exact hnr x hx2
  | keep a a' l out ha hop hid hlen hrel ih =>
    intro l0 r he hr hl0
    cases l0 with
    | nil =>
      simp only [List.nil_append, List.cons.injEq] at he
      have hl : l = [] := he.2
      subst hl
      have : out = [] := scanRel_nil_left out hrel
      subst this
      refine ⟨[], a', by simp, ?_, ?_, ?_, by intro x hx; cases hx⟩
      · rw [hop, he.1, hr]
      · rw [hid, he.1]
      · rw [hlen, he.1]
    | cons b t =>
      simp only [List.cons_append, List.cons.injEq] at he
      obtain ⟨out0, r', ho, hro, hri, hrl, hnr⟩ :=
        ih t r he.2 hr (fun y hy => hl0 y (List.mem_cons_of_mem b hy))
      refine ⟨a' :: out0, r', by rw [ho, List.cons_append], hro, hri, hrl, ?_⟩
      intro x hx
      rcases List.mem_cons.mp hx with rfl | hx2
      · rw [hop, he.1]; exact hl0 b (List.mem_cons_self b t)
      · exact hnr x hx2

/-- Safety makes the scan succeed. -/
theorem scanInstrs_ok (args : List Operand) :
    ∀ (l : List Instruction) (m : VregMap), SafeArgs args l →
    ∃ m' out, scanInstrs args m l = Except.ok (m', out) := by
  intro l
  induction l with
  | nil => intro m hs; exact ⟨m, [], rfl⟩
  | cons a rest ih =>
    intro m hs
    have hrest : SafeArgs args rest := fun i hi => hs i (List.mem_cons_of_mem a hi)
    by_cases ha : a.opcode == Opcode.kLoadArg
    · obtain ⟨k, hk, param, hparam, hkind⟩ :=
        hs a (List.mem_cons_self a rest) (by simpa using ha)
      have hres : ∃ m1 r, resolveLoadArg args m a = Except.ok (m1, r) := by
        rcases hkind with him | ⟨t, rfl⟩
        · obtain ⟨v, rfl⟩ : ∃ v, param = Operand.imm v := by
            cases param <;> simp_all [Operand.isImm]
          refine ⟨m, some
            { a with opcode := Opcode.kMove, inputs := a.inputs.set 0 (Operand.imm v) }, ?_⟩
          unfold resolveLoadArg
          rw [hk]
          simp [← List.get?_eq_getElem?, hparam, Operand.isImm, Operand.getConstant]
        · refine ⟨(a.id, t) :: m, none, ?_⟩
          unfold resolveLoadArg
          rw [hk]
          simp [← List.get?_eq_getElem?, hparam, Operand.isImm, Operand.getConstant]
      obtain ⟨m1, r, hr⟩ := hres
      obtain ⟨m', out, hsc⟩ := ih m1 hrest
      rcases r with _ | c
      · refine ⟨m', out, ?_⟩
        unfold scanInstrs
        rw [if_pos ha, hr]
        simp only []
        exact hsc
      · refine ⟨m', c :: out, ?_⟩
        unfold scanInstrs
        rw [if_pos ha, hr]
        simp only [hsc]
    · obtain ⟨m', out, hsc⟩ := ih m hrest
      refine ⟨m', resolveLinkedArgumentsUses m a :: out, ?_⟩
      unfold scanInstrs
      rw [if_neg ha]
      simp only [hsc]

/-- The block loop of `resolveArguments` over the spliced range: given that
every block in the range exists and is scan-safe, the loop succeeds, leaves
everything outside the range untouched, and rewrites each range block's
instruction list to a `ScanRel`-related one. -/
theorem resolveArgumentsGo_range (args : List Operand) :
    ∀ (nB : Nat) (s : Nat) (m : VregMap) (g : Function),
    (∀ j, j < nB → ∃ bbj, g.basicblocks.get? (s + j) = some bbj ∧
       SafeArgs args bbj.instructions) →
    ∃ f2, resolveArgumentsGo args m g (List.range' s nB) = Except.ok f2 ∧
      f2.nextBlockId = g.nextBlockId ∧ f2.nextInstrId = g.nextInstrId ∧
      f2.basicblocks.length = g.basicblocks.length ∧
      (∀ k, (k < s ∨ s + nB ≤ k) → f2.basicblocks.get? k = g.basicblocks.get? k) ∧
      (∀ j, j < nB → ∀ bbj, g.basicblocks.get? (s + j) = some bbj →
        ∃ out, f2.basicblocks.get? (s + j) =
          some { bbj with instructions := out } ∧ ScanRel bbj.instructions out) := by
  intro nB
  induction nB with
  | zero =>
    intro s m g hsafe
    exact ⟨g, rfl, rfl, rfl, rfl, fun k hk => rfl, fun j hj => absurd hj (by omega)⟩
  | succ n ihn =>
    intro s m g hsafe
    obtain ⟨bb0, hbb0, hsafe0⟩ := hsafe 0 (by omega)
    rw [Nat.add_zero] at hbb0
    have hslt : s < g.basicblocks.length := (List.get?_eq_some.mp hbb0).1
    obtain ⟨m1, out0, hscan⟩ := scanInstrs_ok args bb0.instructions m hsafe0
    have hstep : resolveArgumentsGo args m g (List.range' s (n + 1)) =
        resolveArgumentsGo args m1
          { g with basicblocks := g.basicblocks.set s { bb0 with instructions := out0 } }
          (List.range' (s + 1) n) := by
      rw [show List.range' s (n + 1) = s :: List.range' (s + 1) n from rfl]
      rw [resolveArgumentsGo]
      rw [hbb0]
      simp only [hscan]
    have hg1get_ne : ∀ k, k ≠ s →
        (g.basicblocks.set s { bb0 with instructions := out0 }).get? k =
          g.basicblocks.get? k := by
      intro k hk
      exact List.get?_set_ne _ _ (fun he => hk he.symm)
    have hg1get_eq :
        (g.basicblocks.set s { bb0 with instructions := out0 }).get? s =
          some { bb0 with instructions := out0 } := by
      rw [List.get?_set_eq]
      rw [hbb0]
      rfl
    have hsafe1 : ∀ j, j < n →
        ∃ bbj, (g.basicblocks.set s { bb0 with instructions := out0 }).get? (s + 1 + j)
          = some bbj ∧ SafeArgs args bbj.instructions := by
      intro j hj
      obtain ⟨bbj, hbbj, hsj⟩ := hsafe (j + 1) (by omega)
      refine ⟨bbj, ?_, hsj⟩
      rw [hg1get_ne (s + 1 + j) (by omega)]
      rw [show s + 1 + j = s + (j + 1) from by omega]
      exact hbbj
    obtain ⟨f2, hrec, hnb, hni, hlen, hout, hrange⟩ := ihn (s + 1) m1
      { g with basicblocks := g.basicblocks.set s { bb0 with instructions := out0 } } hsafe1
    refine ⟨f2, by rw [hstep]; exact hrec, by simpa using hnb, by simpa using hni,
      by simpa using hlen, ?_, ?_⟩
    · intro k hk
      have h1 : f2.basicblocks.get? k =
          (g.basicblocks.set s { bb0 with instructions := out0 }).get? k := by
        apply hout
        omega
      rw [h1, hg1get_ne k (by omega)]
    · intro j hj bbj hbbj
      cases j with
      | zero =>
        rw [Nat.add_zero] at hbbj ⊢
        have hbbj0 : bbj = bb0 := by
          rw [hbb0] at hbbj
          exact (Option.some.injEq _ _ ▸ hbbj).symm
        subst hbbj0
        refine ⟨out0, ?_, scanRel_of_scan args bbj.instructions m m1 out0 hscan⟩
        have h1 : f2.basicblocks.get? s =
            (g.basicblocks.set s { bbj with instructions := out0 }).get? s := by
          apply hout
          omega
        rw [h1, hg1get_eq]
      | succ j' =>
        have hbbj' : (g.basicblocks.set s { bb0 with instructions := out0 }).get?
            (s + 1 + j') = some bbj := by
          rw [hg1get_ne (s + 1 + j') (by omega),
            show s + 1 + j' = s + (j' + 1) from by omega]
          exact hbbj
        obtain ⟨out, hfout, hrel⟩ := hrange j' (by omega) bbj hbbj'
        refine ⟨out, ?_, hrel⟩
        rw [show s + (j' + 1) = s + 1 + j' from by omega]
        exact hfout

theorem set_self {α : Type} (l : List α) (j : Nat) (a : α) (h : l.get? j = some a) :
    l.set j a = l := by
  apply List.ext_get?
  intro n
  by_cases hn : n = j
  · subst hn
    rw [List.get?_set_eq, h]
    rfl
  · exact List.get?_set_ne _ _ (fun he => hn he.symm)

theorem nodup_map_get_ne {α : Type} (idOf : α → Nat) (l : List α)
    (hnd : (l.map idOf).Nodup) (j k : Nat) (b bk : α)
    (hj : l.get? j = some b) (hk : l.get? k = some bk) (hne : j ≠ k) :
    idOf bk ≠ idOf b := by
  intro he
  have hj' : (l.map idOf).get? j = some (idOf b) := by
    rw [List.get?_map, hj]; rfl
  have hk' : (l.map idOf).get? k = some (idOf bk) := by
    rw [List.get?_map, hk]; rfl
  exact hne (List.get?_inj (List.get?_eq_some.mp hj').1 hnd (by rw [hj', hk', he]))

theorem flatMap_congr {α β : Type} (l : List α) (f f2 : α → List β)
    (h : ∀ a ∈ l, f a = f2 a) : l.flatMap f = l.flatMap f2 := by
  induction l with
  | nil => rfl
  | cons a t ih =>
    rw [List.flatMap_cons, List.flatMap_cons, h a (List.mem_cons_self a t),
      ih (fun x hx => h x (List.mem_cons_of_mem a hx))]

/-- Replacing a block by one with the same id does not move `findIdx?` for
any id query. -/
theorem findIdx?_set_same_id (l : List BasicBlock) (j : Nat) (b nb : BasicBlock)
    (hj : l.get? j = some b) (hid : nb.id = b.id) (q : Nat) :
    ∀ k, List.findIdx? (fun bb => bb.id == q) (l.set j nb) k =
      List.findIdx? (fun bb => bb.id == q) l k := by
  induction l generalizing j with
  | nil => intro k; rfl
  | cons a t ih =>
    intro k
    cases j with
    | zero =>
      simp only [List.get?] at hj
      cases hj
      rw [List.set_cons_zero, List.findIdx?_cons, List.findIdx?_cons, hid]
    | succ n =>
      simp only [List.get?] at hj
      rw [List.set_cons_succ, List.findIdx?_cons, List.findIdx?_cons]
      by_cases ha : (a.id == q) = true
      · rw [if_pos ha, if_pos ha]
      · rw [if_neg ha, if_neg ha]
        exact ih n hj (k + 1)

/-- Replacing a block by one with the same id changes `lastIsReturn` and
`returnValueOf` only for that id. -/
theorem lastIsReturn_set (g : Function) (j : Nat) (b nb : BasicBlock)
    (hj : g.basicblocks.get? j = some b) (hid : nb.id = b.id) (q : Nat)
    (hq : q ≠ b.id) :
    lastIsReturn { g with basicblocks := g.basicblocks.set j nb } q =
      lastIsReturn g q ∧
    returnValueOf { g with basicblocks := g.basicblocks.set j nb } q =
      returnValueOf g q := by
  have hfi : List.findIdx? (fun bb => bb.id == q) (g.basicblocks.set j nb) =
      List.findIdx? (fun bb => bb.id == q) g.basicblocks :=
    findIdx?_set_same_id g.basicblocks j b nb hj hid q 0
  have hget : ∀ i, i ≠ j → (g.basicblocks.set j nb).get? i = g.basicblocks.get? i :=
    fun i hi => List.get?_set_ne _ _ (fun he => hi he.symm)
  have hij : ∀ i, List.findIdx? (fun bb => bb.id == q) g.basicblocks = some i → i ≠ j := by
    intro i hfi2 he
    obtain ⟨x, hx, hpx⟩ := findIdx?_some_get _ _ _ hfi2
    rw [he, hj] at hx
    cases hx
    have hxq : b.id = q := by simpa using hpx
    exact hq hxq.symm
  constructor
  · unfold lastIsReturn
    simp only []
    rw [hfi]
    rcases hfi2 : List.findIdx? (fun bb => bb.id == q) g.basicblocks with _ | i
    · rw [hfi2]
    · rw [hfi2]
      simp only []
      rw [hget i (hij i hfi2)]
  · unfold returnValueOf
    simp only []
    rw [hfi]
    rcases hfi2 : List.findIdx? (fun bb => bb.id == q) g.basicblocks with _ | i
    · rw [hfi2]
    · rw [hfi2]
      simp only []
      rw [hget i (hij i hfi2)]

/-- The predecessor loop of `resolveReturnValue`: over duplicate-free
predecessors of a function with duplicate-free block ids whose returns all
carry an input, the loop succeeds, appends one (label, value) pair per
predecessor whose block currently ends in a return — in predecessor order —
and deletes exactly those trailing returns. -/
theorem goPreds_spec :
    ∀ (preds : List Nat) (g : Function) (acc : List Operand),
    (∀ bb ∈ g.basicblocks, bb.id ∈ preds → ∀ i ∈ bb.instructions,
       i.opcode = Opcode.kReturn → i.inputs ≠ []) →
    (g.basicblocks.map (fun b => b.id)).Nodup →
    preds.Nodup →
    ∃ g', goPreds g acc preds = Except.ok (g',
        acc ++ preds.flatMap (fun p =>
          if lastIsReturn g p then Operand.lbl p :: (returnValueOf g p).toList else [])) ∧
      g'.nextBlockId = g.nextBlockId ∧ g'.nextInstrId = g.nextInstrId ∧
      g'.basicblocks.length = g.basicblocks.length ∧
      (∀ k bk, g.basicblocks.get? k = some bk →
        ∃ bk', g'.basicblocks.get? k = some bk' ∧ bk'.id = bk.id ∧
          bk'.predecessors = bk.predecessors ∧ bk'.successors = bk.successors ∧
          ((bk.id ∈ preds ∧ lastIsReturn g bk.id = true ∧
              bk'.instructions = bk.instructions.dropLast) ∨
           ((bk.id ∉ preds ∨ lastIsReturn g bk.id = false) ∧
              bk'.instructions = bk.instructions))) := by
  intro preds
  induction preds with
  | nil =>
    intro g acc hret hnd hpnd
    refine ⟨g, by simp [goPreds], rfl, rfl, rfl, ?_⟩
    intro k bk hk
    exact ⟨bk, hk, rfl, rfl, rfl, Or.inr ⟨Or.inl (by simp), rfl⟩⟩
  | cons p rest ih =>
    intro g acc hret hnd hpnd
    rw [List.nodup_cons] at hpnd
    rcases hfi : g.basicblocks.findIdx? (fun bb => bb.id == p) with _ | j
    · have hlir : lastIsReturn g p = false := by
        unfold lastIsReturn
        rw [hfi]
      obtain ⟨g', hgo, hbk, hik, hlen, hpos⟩ := ih g acc
        (fun bb hbb hm i hi hio => hret bb hbb (List.mem_cons_of_mem p hm) i hi hio)
        hnd hpnd.2
      refine ⟨g', ?_, hbk, hik, hlen, ?_⟩
      · rw [goPreds, hfi]
        rw [hgo, List.flatMap_cons, hlir]
        simp
      · intro k bk hk
        obtain ⟨bk', h1, h2, h3, h4, h5⟩ := hpos k bk hk
        have hbkp : bk.id ≠ p := by
          intro he
          obtain ⟨i, hi⟩ := findIdx?_go_of_mem (fun bb => bb.id == p) g.basicblocks bk
            (List.get?_mem hk) (by simpa using he) 0
          rw [hfi] at hi
          cases hi
        refine ⟨bk', h1, h2, h3, h4, ?_⟩
        rcases h5 with ⟨hm, hl, hi⟩ | ⟨hm, hi⟩
        · exact Or.inl ⟨List.mem_cons_of_mem p hm, hl, hi⟩
        · refine Or.inr ⟨?_, hi⟩
          rcases hm with hm | hm
          · exact Or.inl (by simp [hbkp, hm])
          · exact Or.inr hm
    · obtain ⟨b, hbj, hbid⟩ := findIdx?_some_get _ _ _ hfi
      have hbidp : b.id = p := by simpa using hbid
      rcases hlast : b.instructions.getLast? with _ | last
      · have hlir : lastIsReturn g p = false := by
          unfold lastIsReturn
          simp only [hfi, hbj, hlast]
        obtain ⟨g', hgo, hbk, hik, hlen, hpos⟩ := ih g acc
          (fun bb hbb hm i hi hio => hret bb hbb (List.mem_cons_of_mem p hm) i hi hio)
          hnd hpnd.2
        refine ⟨g', ?_, hbk, hik, hlen, ?_⟩
        · rw [goPreds, hfi]
          simp only [hbj, hlast]
          rw [hgo, List.flatMap_cons, hlir]
          simp
        · intro k bk hk
          obtain ⟨bk', h1, h2, h3, h4, h5⟩ := hpos k bk hk
          refine ⟨bk', h1, h2, h3, h4, ?_⟩
          rcases h5 with ⟨hm, hl, hi⟩ | ⟨hm, hi⟩
          · exact Or.inl ⟨List.mem_cons_of_mem p hm, hl, hi⟩
          · refine Or.inr ⟨?_, hi⟩
            rcases hm with hm | hm
            · by_cases hbkp : bk.id = p
              · exact Or.inr (hbkp ▸ hlir)
              · exact Or.inl (by simp [hbkp, hm])
            · exact Or.inr hm
      · by_cases hrr : (last.opcode == Opcode.kReturn) = true
        · have hlir : lastIsReturn g p = true := by
            unfold lastIsReturn
            simp only [hfi, hbj, hlast]
            exact hrr
          have hlne : last.inputs ≠ [] :=
            hret b (List.get?_mem hbj) (hbidp ▸ List.mem_cons_self p rest) last
              (List.mem_of_mem_getLast? hlast) (by simpa using hrr)
          obtain ⟨v, hv⟩ : ∃ v, last.inputs.head? = some v := by
            rcases hli : last.inputs with _ | ⟨v, t⟩
            · exact absurd hli hlne
            · exact ⟨v, rfl⟩
          have hrv : returnValueOf g p = some v := by
            unfold returnValueOf
            simp only [hfi, hbj, hlast]
            exact hv
          have hjlen : j < g.basicblocks.length := (List.get?_eq_some.mp hbj).1
          have hretg2 : ∀ bb ∈ (g.basicblocks.set j
              { b with instructions := b.instructions.dropLast }), bb.id ∈ rest →
              ∀ i ∈ bb.instructions, i.opcode = Opcode.kReturn → i.inputs ≠ [] := by
            intro bb hbb hbbm i hi hio
            rcases List.mem_or_eq_of_mem_set hbb with hbb2 | rfl
            · exact hret bb hbb2 (List.mem_cons_of_mem p hbbm) i hi hio
            · exact absurd hbbm (by simpa using (hbidp ▸ hpnd.1))
          have hndg2 : ((g.basicblocks.set j
              { b with instructions := b.instructions.dropLast }).map
                (fun bb => bb.id)).Nodup := by
            rw [List.map_set]
            have : (g.basicblocks.map (fun bb => bb.id)).get? j = some b.id := by
              rw [List.get?_map, hbj]; rfl
            rw [set_self _ j _ this]
            exact hnd
          obtain ⟨g', hgo, hbk, hik, hlen, hpos⟩ := ih
            { g with basicblocks := (g.basicblocks.set j { b with instructions := b.instructions.dropLast }) }
            (acc ++ [Operand.lbl p, v]) hretg2 hndg2 hpnd.2
          have hflat : rest.flatMap (fun q =>
              if lastIsReturn { g with basicblocks := (g.basicblocks.set j { b with instructions := b.instructions.dropLast }) } q
              then Operand.lbl q :: (returnValueOf { g with basicblocks := (g.basicblocks.set j { b with instructions := b.instructions.dropLast }) } q).toList
              else []) =
              rest.flatMap (fun q =>
              if lastIsReturn g q then Operand.lbl q :: (returnValueOf g q).toList
              else []) := by
            apply flatMap_congr
            intro q hq
            have hqp : q ≠ b.id := by
              rw [hbidp]
              intro he
              exact hpnd.1 (he ▸ hq)
            obtain ⟨hl1, hl2⟩ := lastIsReturn_set g j b
              { b with instructions := b.instructions.dropLast } hbj rfl q hqp
            rw [hl1, hl2]
          refine ⟨g', ?_, by simpa using hbk, by simpa using hik, ?_, ?_⟩
          · rw [goPreds, hfi]
            simp only [hbj, hlast]
            rw [if_pos hrr, hv]
            simp only []
            rw [hgo, hflat, List.flatMap_cons, hlir, hrv]
            simp
          · rw [hlen]
            simp
          · intro k bk hk
            by_cases hkj : k = j
            · subst hkj
              rw [hbj] at hk
              cases hk
              have hg2k : (g.basicblocks.set k
                  { b with instructions := b.instructions.dropLast }).get? k =
                  some { b with instructions := b.instructions.dropLast } := by
                rw [List.get?_set_eq, hbj]
                rfl
              obtain ⟨bk', h1, h2, h3, h4, h5⟩ := hpos k _ hg2k
              refine ⟨bk', h1, by simpa using h2, by simpa using h3, by simpa using h4, ?_⟩
              refine Or.inl ⟨by rw [hbidp]; exact List.mem_cons_self p rest,
                by rw [hbidp]; exact hlir, ?_⟩
              rcases h5 with ⟨hm, hl, hi⟩ | ⟨hm, hi⟩
              · exact absurd (by simpa using hm) (by rw [hbidp]; exact fun hmm => hpnd.1 hmm)
              · simpa using hi
            · have hg2k : (g.basicblocks.set j
                  { b with instructions := b.instructions.dropLast }).get? k =
                  some bk := by
                rw [List.get?_set_ne _ _ (fun he => hkj he.symm)]
                exact hk
              obtain ⟨bk', h1, h2, h3, h4, h5⟩ := hpos k bk hg2k
              have hbkp : bk.id ≠ p := by
                rw [← hbidp]
                exact nodup_map_get_ne (fun bb => bb.id) g.basicblocks hnd j k b bk hbj hk
                  (fun he => hkj he.symm)
              have hlset := lastIsReturn_set g j b
                { b with instructions := b.instructions.dropLast } hbj rfl bk.id
                (hbidp ▸ hbkp)
              refine ⟨bk', h1, h2, h3, h4, ?_⟩
              rcases h5 with ⟨hm, hl, hi⟩ | ⟨hm, hi⟩
              · exact Or.inl ⟨List.mem_cons_of_mem p hm, by rw [← hlset.1]; exact hl, hi⟩
              · refine Or.inr ⟨?_, hi⟩
                rcases hm with hm | hm
                · exact Or.inl (by simp [hbkp, hm])
                · exact Or.inr (by rw [← hlset.1]; exact hm)
        · have hlir : lastIsReturn g p = false := by
            unfold lastIsReturn
            simp only [hfi, hbj, hlast]
            simpa using hrr
          obtain ⟨g', hgo, hbk, hik, hlen, hpos⟩ := ih g acc
            (fun bb hbb hm i hi hio => hret bb hbb (List.mem_cons_of_mem p hm) i hi hio)
            hnd hpnd.2
          refine ⟨g', ?_, hbk, hik, hlen, ?_⟩
          · rw [goPreds, hfi]
            simp only [hbj, hlast]
            rw [if_neg hrr]
            rw [hgo, List.flatMap_cons, hlir]
            simp
          · intro k bk hk
            obtain ⟨bk', h1, h2, h3, h4, h5⟩ := hpos k bk hk
            refine ⟨bk', h1, h2, h3, h4, ?_⟩
            rcases h5 with ⟨hm, hl, hi⟩ | ⟨hm, hi⟩
            · exact Or.inl ⟨List.mem_cons_of_mem p hm, hl, hi⟩
            · refine Or.inr ⟨?_, hi⟩
              rcases hm with hm | hm
              · by_cases hbkp : bk.id = p
                · exact Or.inr (hbkp ▸ hlir)
                · exact Or.inl (by simp [hbkp, hm])
              · exact Or.inr hm

/-! ## Positions in the spliced block list -/
theorem scanRel_return_from (l out : List Instruction) (h : ScanRel l out) :
    ∀ x ∈ out, x.opcode = Opcode.kReturn →
      ∃ y ∈ l, y.opcode = Opcode.kReturn ∧ y.inputs.length = x.inputs.length := by
  induction h with
  | nil => intro x hx; cases hx
  | drop a l out ha hrel ih =>
    intro x hx hxr
    obtain ⟨y, hy, h1, h2⟩ := ih x hx hxr
    exact ⟨y, List.mem_cons_of_mem a hy, h1, h2⟩
  | conv a a' l out ha hop hid hlen hrel ih =>
    intro x hx hxr
    rcases List.mem_cons.mp hx with rfl | hx2
    · rw [hop] at hxr; cases hxr
    · obtain ⟨y, hy, h1, h2⟩ := ih x hx2 hxr
      exact ⟨y, List.mem_cons_of_mem a hy, h1, h2⟩
  | keep a a' l out ha hop hid hlen hrel ih =>
    intro x hx hxr
    rcases List.mem_cons.mp hx with rfl | hx2
    · exact ⟨a, List.mem_cons_self a l, by rw [← hop]; exact hxr, hlen.symm⟩
    · obtain ⟨y, hy, h1, h2⟩ := ih x hx2 hxr
      exact ⟨y, List.mem_cons_of_mem a hy, h1, h2⟩

theorem range'_get? (s n j : Nat) (h : j < n) : (List.range' s n).get? j = some (s + j) := by
  induction n generalizing s j with
  | zero => omega
  | succ m ih =>
    rw [show List.range' s (m + 1) = s :: List.range' (s + 1) m from rfl]
    cases j with
    | zero => rfl
    | succ i =>
      have := ih (s + 1) i (by omega)
      simp only [List.get?]
      rw [this, show s + 1 + i = s + (i + 1) from by omega]

theorem eq_take_cons_drop {α : Type} (l : List α) (n : Nat) (a : α)
    (h : l.get? n = some a) : l = l.take n ++ a :: l.drop (n + 1) := by
  induction l generalizing n with
  | nil => simp at h
  | cons x t ih =>
    cases n with
    | zero =>
      simp only [List.get?] at h
      cases h
      simp
    | succ m =>
      simp only [List.get?] at h
      rw [List.take_succ_cons, List.drop_succ_cons, List.cons_append]
      rw [← ih m h]

theorem five_length {α : Type} (pre mid post : List α) (x y : α) :
    (pre ++ [x] ++ mid ++ [y] ++ post).length =
      pre.length + mid.length + post.length + 2 := by
  simp only [List.length_append, List.length_cons, List.length_nil]
  omega

theorem five_get_x {α : Type} (pre mid post : List α) (x y : α) :
    (pre ++ [x] ++ mid ++ [y] ++ post).get? pre.length = some x := by
  rw [List.get?_append
    (by simp only [List.length_append, List.length_cons, List.length_nil]; omega)]
  rw [List.get?_append
    (by simp only [List.length_append, List.length_cons, List.length_nil]; omega)]
  rw [List.get?_append
    (by simp only [List.length_append, List.length_cons, List.length_nil]; omega)]
  rw [List.get?_append_right (by omega)]
  simp

theorem five_get_mid {α : Type} (pre mid post : List α) (x y : α) (j : Nat)
    (hj : j < mid.length) :
    (pre ++ [x] ++ mid ++ [y] ++ post).get? (pre.length + 1 + j) = mid.get? j := by
  rw [List.get?_append
    (by simp only [List.length_append, List.length_cons, List.length_nil]; omega)]
  rw [List.get?_append
    (by simp only [List.length_append, List.length_cons, List.length_nil]; omega)]
  rw [List.get?_append_right
    (by simp only [List.length_append, List.length_cons, List.length_nil]; omega)]
  congr 1
  simp only [List.length_append, List.length_cons, List.length_nil]
  omega

theorem five_get_y {α : Type} (pre mid post : List α) (x y : α) :
    (pre ++ [x] ++ mid ++ [y] ++ post).get? (pre.length + 1 + mid.length) = some y := by
  rw [List.get?_append
    (by simp only [List.length_append, List.length_cons, List.length_nil]; omega)]
  rw [List.get?_append_right
    (by simp only [List.length_append, List.length_cons, List.length_nil]; omega)]
  have h0 : pre.length + 1 + mid.length - (pre ++ [x] ++ mid).length = 0 := by
    simp only [List.length_append, List.length_cons, List.length_nil]
    omega
  rw [h0]
  rfl

theorem five_get_pre {α : Type} (pre mid post : List α) (x y : α) (k : Nat)
    (hk : k < pre.length) :
    (pre ++ [x] ++ mid ++ [y] ++ post).get? k = pre.get? k := by
  rw [List.get?_append
    (by simp only [List.length_append, List.length_cons, List.length_nil]; omega)]
  rw [List.get?_append
    (by simp only [List.length_append, List.length_cons, List.length_nil]; omega)]
  rw [List.get?_append
    (by simp only [List.length_append, List.length_cons, List.length_nil]; omega)]
  rw [List.get?_append (by omega)]

theorem five_get_post {α : Type} (pre mid post : List α) (x y : α) (m : Nat) :
    (pre ++ [x] ++ mid ++ [y] ++ post).get? (pre.length + 1 + mid.length + 1 + m) =
      post.get? m := by
  rw [List.get?_append_right
    (by simp only [List.length_append, List.length_cons, List.length_nil]; omega)]
  congr 1
  simp only [List.length_append, List.length_cons, List.length_nil]
  omega

/-! ## Structure of the wired copies -/
theorem spliceOthers_length (f : Function) (bb : BasicBlock) :
    (spliceOthers f bb).length = f.basicblocks.length := by
  simp [spliceOthers]

theorem spliceOthers_ids (f : Function) (bb : BasicBlock) :
    (spliceOthers f bb).map (fun b => b.id) = f.basicblocks.map (fun b => b.id) := by
  unfold spliceOthers
  rw [List.map_map]
  apply List.map_congr_left
  intro b hb
  by_cases hc : b.id ∈ bb.successors <;> simp [hc]

theorem spliceOthers_get (f : Function) (bb : BasicBlock) (k : Nat) (b : BasicBlock)
    (hk : f.basicblocks.get? k = some b) :
    ∃ b', (spliceOthers f bb).get? k = some b' ∧ b'.id = b.id ∧
      b'.instructions = b.instructions := by
  unfold spliceOthers
  rw [List.get?_map, hk]
  by_cases hc : b.id ∈ bb.successors <;> simp [hc]

theorem spliceEntryCopyId_eq (f : Function) (callee : Function)
    (hnd : (callee.basicblocks.map (fun b => b.id)).Nodup)
    (cb0 : BasicBlock) (crest : List BasicBlock)
    (hcb : callee.basicblocks = cb0 :: crest) :
    spliceEntryCopyId f callee = f.nextBlockId + 1 := by
  unfold spliceEntryCopyId
  have h0 : callee.basicblocks.get? 0 = some cb0 := by rw [hcb]; rfl
  have hbm := spliceBlockMap_eq f callee hnd 0 cb0 h0
  rw [hcb]
  simpa using hbm

theorem spliceExitCopyId_eq (f : Function) (callee : Function)
    (hnd : (callee.basicblocks.map (fun b => b.id)).Nodup)
    (cexit : BasicBlock)
    (hlast : callee.basicblocks.getLast? = some cexit) :
    spliceExitCopyId f callee =
      f.nextBlockId + 1 + (callee.basicblocks.length - 1) := by
  unfold spliceExitCopyId
  have hget : callee.basicblocks.get? (callee.basicblocks.length - 1) = some cexit := by
    rw [← List.getLast?_eq_get?]
    exact hlast
  have hbm := spliceBlockMap_eq f callee hnd (callee.basicblocks.length - 1) cexit hget
  rw [hlast]
  simpa using hbm

theorem spliceCopies_length (f : Function) (bbId : Nat) (callee : Function) :
    (spliceCopies f bbId callee).length = callee.basicblocks.length := by
  simp [spliceCopies]

/-- The j-th wired copy, explicitly. -/
theorem spliceCopies_get (f : Function) (bbId : Nat) (callee : Function)
    (hnd : (callee.basicblocks.map (fun b => b.id)).Nodup)
    (cb0 : BasicBlock) (crest : List BasicBlock)
    (hcb : callee.basicblocks = cb0 :: crest)
    (cexit : BasicBlock) (hlast : callee.basicblocks.getLast? = some cexit)
    (j : Nat) (cbj : BasicBlock) (hj : callee.basicblocks.get? j = some cbj) :
    (spliceCopies f bbId callee).get? j = some
      { id := f.nextBlockId + 1 + j,
        instructions := cbj.instructions.map
          (copyInstr (spliceInstrMap f callee) (spliceBlockMap f callee)),
        predecessors := cbj.predecessors.map (spliceBlockMap f callee) ++
          (if j = 0 then [bbId] else []),
        successors := cbj.successors.map (spliceBlockMap f callee) ++
          (if j = callee.basicblocks.length - 1 then [f.nextBlockId] else []) } := by
  have hentry := spliceEntryCopyId_eq f callee hnd cb0 crest hcb
  have hexit := spliceExitCopyId_eq f callee hnd cexit hlast
  have hbm := spliceBlockMap_eq f callee hnd j cbj hj
  have hbeq1 : ((f.nextBlockId + 1 + j) == f.nextBlockId + 1) = decide (j = 0) := by
    by_cases hj0 : j = 0
    · subst hj0; simp
    · have h1 : ((f.nextBlockId + 1 + j) == f.nextBlockId + 1) = false := by
        rw [beq_eq_false_iff_ne]
        omega
      rw [h1, decide_eq_false hj0]
  have hbeq2 : ((f.nextBlockId + 1 + j) ==
      f.nextBlockId + 1 + (callee.basicblocks.length - 1)) =
      decide (j = callee.basicblocks.length - 1) := by
    by_cases hjl : j = callee.basicblocks.length - 1
    · subst hjl; simp
    · have h1 : ((f.nextBlockId + 1 + j) ==
          f.nextBlockId + 1 + (callee.basicblocks.length - 1)) = false := by
        rw [beq_eq_false_iff_ne]
        omega
      rw [h1, decide_eq_false hjl]
  unfold spliceCopies
  rw [List.get?_map, hj]
  simp only [Option.map_some', Option.some.injEq]
  unfold copyBlock
  simp only []
  rw [hbm, hentry, hexit, hbeq1]
  by_cases hj0 : j = 0
  · rw [decide_eq_true hj0]
    simp only [if_true]
    rw [hbeq2]
    by_cases hjl : j = callee.basicblocks.length - 1
    · rw [decide_eq_true hjl]
      simp [hj0, hjl]
      try first
      | rfl
      | omega
      | rw [if_pos (by omega)]
    · rw [decide_eq_false hjl]
      simp [hj0, hjl]
      try first
      | rfl
      | omega
      | rw [if_neg (by omega)]
  · rw [decide_eq_false hj0]
    simp only [Bool.false_eq_true, if_false]
    rw [hbeq2]
    by_cases hjl : j = callee.basicblocks.length - 1
    · rw [decide_eq_true hjl]
      simp [hj0, hjl]
      try first
      | rfl
      | omega
      | rw [if_pos (by omega)]
    · rw [decide_eq_false hjl]
      simp [hj0, hjl]
      try first
      | rfl
      | omega
      | rw [if_neg (by omega)]

/-- The wired copies carry exactly the fresh block ids. -/
theorem spliceCopies_ids (f : Function) (bbId : Nat) (callee : Function)
    (hnd : (callee.basicblocks.map (fun b => b.id)).Nodup)
    (cb0 : BasicBlock) (crest : List BasicBlock)
    (hcb : callee.basicblocks = cb0 :: crest)
    (cexit : BasicBlock) (hlast : callee.basicblocks.getLast? = some cexit) :
    (spliceCopies f bbId callee).map (fun b => b.id) =
      List.range' (f.nextBlockId + 1) callee.basicblocks.length := by
  apply List.ext_get?
  intro n
  by_cases hn : n < callee.basicblocks.length
  · obtain ⟨cbn, hcbn⟩ : ∃ cbn, callee.basicblocks.get? n = some cbn := by
      rcases hx : callee.basicblocks.get? n with _ | cbn
      · rw [List.get?_eq_none] at hx
        omega
      · exact ⟨cbn, rfl⟩
    rw [List.get?_map,
      spliceCopies_get f bbId callee hnd cb0 crest hcb cexit hlast n cbn hcbn,
      range'_get? _ _ _ hn]
    rfl
  · rw [List.get?_eq_none.mpr, List.get?_eq_none.mpr]
    · rw [List.length_range']
      omega
    · rw [List.length_map, spliceCopies_length]
      omega

/-- After splicing, the block ids are still duplicate-free: the caller's
ids survive and the inserted blocks carry fresh ids. -/
theorem spliced_ids_nodup (f : Function) (callId : Nat) (callee : Function)
    (idx : Nat) (bb : BasicBlock)
    (hidx : f.basicblocks.get? idx = some bb)
    (hndf : (f.basicblocks.map (fun b => b.id)).Nodup)
    (hbound : ∀ b ∈ f.basicblocks, b.id < f.nextBlockId)
    (hndc : (callee.basicblocks.map (fun b => b.id)).Nodup)
    (cb0 : BasicBlock) (crest : List BasicBlock)
    (hcb : callee.basicblocks = cb0 :: crest)
    (cexit : BasicBlock) (hlast : callee.basicblocks.getLast? = some cexit) :
    (((spliceOthers f bb).take idx ++ [spliceBlock1 f callId bb callee]
        ++ spliceCopies f bb.id callee ++ [spliceBlock2 f callId bb callee]
        ++ (spliceOthers f bb).drop (idx + 1)).map (fun b => b.id)).Nodup := by
  have hids : ((spliceOthers f bb).take idx ++ [spliceBlock1 f callId bb callee]
        ++ spliceCopies f bb.id callee ++ [spliceBlock2 f callId bb callee]
        ++ (spliceOthers f bb).drop (idx + 1)).map (fun b => b.id) =
      (f.basicblocks.map (fun b => b.id)).take idx ++ [bb.id] ++
      List.range' (f.nextBlockId + 1) callee.basicblocks.length ++ [f.nextBlockId] ++
      (f.basicblocks.map (fun b => b.id)).drop (idx + 1) := by
    simp only [List.map_append, List.map_take, List.map_drop, spliceOthers_ids,
      spliceCopies_ids f bb.id callee hndc cb0 crest hcb cexit hlast]
    simp [spliceBlock1, spliceBlock2]
  rw [hids]
  have hgetid : (f.basicblocks.map (fun b => b.id)).get? idx = some bb.id := by
    rw [List.get?_map, hidx]
    rfl
  have hsplit := eq_take_cons_drop (f.basicblocks.map (fun b => b.id)) idx bb.id hgetid
  have hcomm : ((List.range' (f.nextBlockId + 1) callee.basicblocks.length ++ [f.nextBlockId]) ++
      (f.basicblocks.map (fun b => b.id)).drop (idx + 1)).Perm
      ((f.basicblocks.map (fun b => b.id)).drop (idx + 1) ++
        (List.range' (f.nextBlockId + 1) callee.basicblocks.length ++ [f.nextBlockId])) :=
    List.perm_append_comm
  have h3 := List.Perm.append_left ((f.basicblocks.map (fun b => b.id)).take idx)
    (List.Perm.cons bb.id hcomm)
  have e2 : (f.basicblocks.map (fun b => b.id)).take idx ++
      (bb.id :: ((f.basicblocks.map (fun b => b.id)).drop (idx + 1) ++
        (List.range' (f.nextBlockId + 1) callee.basicblocks.length ++ [f.nextBlockId]))) =
      ((f.basicblocks.map (fun b => b.id)).take idx ++
        bb.id :: (f.basicblocks.map (fun b => b.id)).drop (idx + 1)) ++
      (List.range' (f.nextBlockId + 1) callee.basicblocks.length ++ [f.nextBlockId]) := by
    simp [List.append_assoc]
  rw [e2, ← hsplit] at h3
  have e1 : (f.basicblocks.map (fun b => b.id)).take idx ++ [bb.id] ++
      List.range' (f.nextBlockId + 1) callee.basicblocks.length ++ [f.nextBlockId] ++
      (f.basicblocks.map (fun b => b.id)).drop (idx + 1) =
      (f.basicblocks.map (fun b => b.id)).take idx ++
      (bb.id :: ((List.range' (f.nextBlockId + 1) callee.basicblocks.length ++ [f.nextBlockId]) ++
        (f.basicblocks.map (fun b => b.id)).drop (idx + 1))) := by
    simp [List.append_assoc]
  have hperm : ((f.basicblocks.map (fun b => b.id)).take idx ++ [bb.id] ++
      List.range' (f.nextBlockId + 1) callee.basicblocks.length ++ [f.nextBlockId] ++
      (f.basicblocks.map (fun b => b.id)).drop (idx + 1)).Perm
      ((f.basicblocks.map (fun b => b.id)) ++
        (List.range' (f.nextBlockId + 1) callee.basicblocks.length ++ [f.nextBlockId])) := by
    rw [e1]
    exact h3
  rw [hperm.nodup_iff]
  rw [List.nodup_append]
  refine ⟨hndf, ?_, ?_⟩
  · rw [List.nodup_append]
    refine ⟨List.nodup_range' _ _, List.nodup_singleton _, ?_⟩
    intro x hx hx2
    rw [List.mem_range'_1] at hx
    simp only [List.mem_singleton] at hx2
    omega
  · intro x hx hx2
    obtain ⟨b, hb, rfl⟩ := List.mem_map.mp hx
    have hlt := hbound b hb
    rcases List.mem_append.mp hx2 with hx3 | hx3
    · rw [List.mem_range'_1] at hx3
      omega
    · simp only [List.mem_singleton] at hx3
      omega

/-- The merge-input list is empty exactly when no predecessor currently ends
in a return. -/
theorem phiInputs_empty_iff (g : Function) (preds : List Nat) :
    phiInputsOf g preds = [] ↔ ∀ p ∈ preds, lastIsReturn g p = false := by
  constructor
  · intro h p hp
    by_cases hl : lastIsReturn g p
    · exfalso
      have : Operand.lbl p ∈ phiInputsOf g preds := by
        rw [phiInputsOf, List.mem_flatMap]
        exact ⟨p, hp, by rw [if_pos hl]; exact List.mem_cons_self _ _⟩
      rw [h] at this
      cases this
    · simpa using hl
  · intro h
    induction preds with
    | nil => rfl
    | cons p ps ih =>
      rw [phiInputsOf, List.flatMap_cons, h p (List.mem_cons_self _ _)]
      simp only [Bool.false_eq_true, if_false, List.nil_append]
      exact ih (fun q hq => h q (List.mem_cons_of_mem _ hq))

/-- `Function.mapInstr` acts block-wise and preserves everything except the
rewritten instructions. -/
theorem mapInstr_get? (g : Function) (instrId : Nat) (fn : Instruction → Instruction) (k : Nat) :
    (g.mapInstr instrId fn).basicblocks.get? k =
      (g.basicblocks.get? k).map (fun bb =>
        { bb with instructions := bb.instructions.map (fun i => if i.id == instrId then fn i else i) }) := by
  unfold Function.mapInstr
  simp only []
  rw [List.get?_map]

/-- `lastIsReturn` and `returnValueOf` only read the block list. -/
theorem lastIsReturn_blocks_congr (g h : Function) (hb : g.basicblocks = h.basicblocks) (p : Nat) :
    lastIsReturn g p = lastIsReturn h p ∧ returnValueOf g p = returnValueOf h p := by
  unfold lastIsReturn returnValueOf
  rw [hb]
  exact ⟨rfl, rfl⟩

/-- Rewriting the (unique, fresh-id) instruction `n` touches nothing in a
list whose instruction ids are all below `n`. -/
theorem map_skip_fresh (n : Nat) (fn : Instruction → Instruction) (l : List Instruction)
    (h : ∀ i ∈ l, i.id < n) :
    l.map (fun i => if i.id == n then fn i else i) = l := by
  induction l with
  | nil => rfl
  | cons a t ih =>
    rw [List.map_cons]
    have ha : (a.id == n) = false := by
      simp only [beq_eq_false_iff_ne]
      exact Nat.ne_of_lt (h a (List.mem_cons_self a t))
    simp only [ha, Bool.false_eq_true, if_false]
    rw [ih (fun i hi => h i (List.mem_cons_of_mem a hi))]

/-- What one run of `resolveReturnValue` does, for an empty epilogue block:
either the void path (no predecessor returns: the fresh phi is removed again
and the call becomes a no-op) or the merging path (the phi receives one
(label, value) pair per returning predecessor in stored predecessor order,
those returns are deleted, and the call becomes a move of the phi). -/
theorem resolveReturnValue_spec (g : Function) (callId calleeEnd : Nat)
    (epi : BasicBlock)
    (hepi : g.basicblocks.get? (calleeEnd - 1) = some epi)
    (hepty : epi.instructions = [])
    (hndg : (g.basicblocks.map (fun b => b.id)).Nodup)
    (hpnd : epi.predecessors.Nodup)
    (hret : ∀ bb ∈ g.basicblocks, bb.id ∈ epi.predecessors →
      ∀ i ∈ bb.instructions, i.opcode = Opcode.kReturn → i.inputs ≠ [])
    (hifresh : ∀ bb ∈ g.basicblocks, ∀ i ∈ bb.instructions, i.id < g.nextInstrId)
    (hcallid : callId < g.nextInstrId) :
    ∃ g', resolveReturnValue g callId calleeEnd = Except.ok g' ∧
      g'.basicblocks.length = g.basicblocks.length ∧
      (phiInputsOf g epi.predecessors = [] →
        (∃ epiOut, g'.basicblocks.get? (calleeEnd - 1) = some epiOut ∧
          epiOut.id = epi.id ∧ epiOut.predecessors = epi.predecessors ∧
          epiOut.successors = epi.successors ∧ epiOut.instructions = []) ∧
        (∀ k bk, k ≠ calleeEnd - 1 → g.basicblocks.get? k = some bk →
          ∃ bk', g'.basicblocks.get? k = some bk' ∧ bk'.id = bk.id ∧
            bk'.predecessors = bk.predecessors ∧ bk'.successors = bk.successors ∧
            bk'.instructions = bk.instructions.map (nopAt callId))) ∧
      (phiInputsOf g epi.predecessors ≠ [] →
        (∃ epiOut, g'.basicblocks.get? (calleeEnd - 1) = some epiOut ∧
          epiOut.id = epi.id ∧ epiOut.predecessors = epi.predecessors ∧
          epiOut.successors = epi.successors ∧
          epiOut.instructions = [{ id := g.nextInstrId, opcode := Opcode.kPhi, inputs := phiInputsOf g epi.predecessors }]) ∧
        (∀ k bk, k ≠ calleeEnd - 1 → g.basicblocks.get? k = some bk →
          ∃ bk', g'.basicblocks.get? k = some bk' ∧ bk'.id = bk.id ∧
            bk'.predecessors = bk.predecessors ∧ bk'.successors = bk.successors ∧
            bk'.instructions =
              (if bk.id ∈ epi.predecessors ∧ lastIsReturn g bk.id = true
               then bk.instructions.dropLast else bk.instructions).map (moveAt callId g.nextInstrId))) := by
  have hjlen : calleeEnd - 1 < g.basicblocks.length := (List.get?_eq_some.mp hepi).1
  have hephi : (g.basicblocks.set (calleeEnd - 1)
      { epi with instructions := epi.instructions ++ [{ id := g.nextInstrId, opcode := Opcode.kPhi, inputs := [] }] }).get? (calleeEnd - 1) =
      some { epi with instructions := epi.instructions ++ [{ id := g.nextInstrId, opcode := Opcode.kPhi, inputs := [] }] } := by
    rw [List.get?_set_eq]
    rw [hepi]
    rfl
  have hndg1 : ((g.basicblocks.set (calleeEnd - 1)
      { epi with instructions := epi.instructions ++ [{ id := g.nextInstrId, opcode := Opcode.kPhi, inputs := [] }] }).map (fun b => b.id)).Nodup := by
    rw [List.map_set]
    have hh : (g.basicblocks.map (fun b => b.id)).get? (calleeEnd - 1) = some epi.id := by
      rw [List.get?_map, hepi]
      rfl
    rw [set_self _ _ _ hh]
    exact hndg
  have hretg1 : ∀ bb ∈ (g.basicblocks.set (calleeEnd - 1)
      { epi with instructions := epi.instructions ++ [{ id := g.nextInstrId, opcode := Opcode.kPhi, inputs := [] }] }),
      bb.id ∈ epi.predecessors →
      ∀ i ∈ bb.instructions, i.opcode = Opcode.kReturn → i.inputs ≠ [] := by
    intro bb hbb hm i hi hio
    rcases List.mem_or_eq_of_mem_set hbb with hbb2 | rfl
    · exact hret bb hbb2 hm i hi hio
    · simp only [hepty, List.nil_append, List.mem_singleton] at hi
      rw [hi] at hio
      cases hio
  obtain ⟨g2, hgo, hnb2, hni2, hlen2, hpos2⟩ := goPreds_spec epi.predecessors
    { g with
        basicblocks := g.basicblocks.set (calleeEnd - 1)
          { epi with instructions := epi.instructions ++ [{ id := g.nextInstrId, opcode := Opcode.kPhi, inputs := [] }] },
        nextInstrId := g.nextInstrId + 1 }
    [] hretg1 hndg1 hpnd
  have hfind_epi : ∀ (j : Nat) (b : BasicBlock), g.basicblocks.get? j = some b →
      b.id = epi.id → j = calleeEnd - 1 := by
    intro j b hj hid
    by_contra hne
    exact nodup_map_get_ne (fun b => b.id) g.basicblocks hndg (calleeEnd - 1) j epi b hepi hj
      (fun he => hne he.symm) hid
  have hfi_g : List.findIdx? (fun bb => bb.id == epi.id) g.basicblocks = some (calleeEnd - 1) := by
    rcases hfi : List.findIdx? (fun bb => bb.id == epi.id) g.basicblocks with _ | j
    · exfalso
      obtain ⟨i, hi⟩ := findIdx?_go_of_mem (fun bb => bb.id == epi.id) g.basicblocks epi
        (List.get?_mem hepi) (by simp) 0
      rw [hfi] at hi
      cases hi
    · obtain ⟨b, hbj, hbid⟩ := findIdx?_some_get _ _ _ hfi
      rw [hfi, hfind_epi j b hbj (by simpa using hbid)]
  have hfi_g1 : List.findIdx? (fun bb => bb.id == epi.id)
      (g.basicblocks.set (calleeEnd - 1)
        { epi with instructions := epi.instructions ++ [{ id := g.nextInstrId, opcode := Opcode.kPhi, inputs := [] }] }) 0 =
      some (calleeEnd - 1) :=
    (findIdx?_set_same_id g.basicblocks (calleeEnd - 1) epi
      { epi with instructions := epi.instructions ++ [{ id := g.nextInstrId, opcode := Opcode.kPhi, inputs := [] }] }
      hepi rfl epi.id 0).trans hfi_g
  have hlir_g_epi : lastIsReturn g epi.id = false := by
    unfold lastIsReturn
    rw [hfi_g]
    simp only []
    rw [hepi]
    simp only [hepty]
    rfl
  have hrv_g_epi : returnValueOf g epi.id = none := by
    unfold returnValueOf
    rw [hfi_g]
    simp only []
    rw [hepi]
    simp only [hepty]
    rfl
  have hlir1_epi_f : lastIsReturn
      { g with
          basicblocks := g.basicblocks.set (calleeEnd - 1)
            { epi with instructions := epi.instructions ++ [{ id := g.nextInstrId, opcode := Opcode.kPhi, inputs := [] }] },
          nextInstrId := g.nextInstrId + 1 } epi.id = false := by
    rw [(lastIsReturn_blocks_congr
      { g with
          basicblocks := g.basicblocks.set (calleeEnd - 1)
            { epi with instructions := epi.instructions ++ [{ id := g.nextInstrId, opcode := Opcode.kPhi, inputs := [] }] },
          nextInstrId := g.nextInstrId + 1 }
      { g with
          basicblocks := g.basicblocks.set (calleeEnd - 1)
            { epi with instructions := epi.instructions ++ [{ id := g.nextInstrId, opcode := Opcode.kPhi, inputs := [] }] } }
      rfl epi.id).1]
    unfold lastIsReturn
    simp only []
    rw [hfi_g1]
    simp only []
    rw [hephi]
    simp only [hepty, List.nil_append]
    rfl
  have hrv1_epi_f : returnValueOf
      { g with
          basicblocks := g.basicblocks.set (calleeEnd - 1)
            { epi with instructions := epi.instructions ++ [{ id := g.nextInstrId, opcode := Opcode.kPhi, inputs := [] }] },
          nextInstrId := g.nextInstrId + 1 } epi.id = none := by
    rw [(lastIsReturn_blocks_congr
      { g with
          basicblocks := g.basicblocks.set (calleeEnd - 1)
            { epi with instructions := epi.instructions ++ [{ id := g.nextInstrId, opcode := Opcode.kPhi, inputs := [] }] },
          nextInstrId := g.nextInstrId + 1 }
      { g with
          basicblocks := g.basicblocks.set (calleeEnd - 1)
            { epi with instructions := epi.instructions ++ [{ id := g.nextInstrId, opcode := Opcode.kPhi, inputs := [] }] } }
      rfl epi.id).2]
    unfold returnValueOf
    simp only []
    rw [hfi_g1]
    simp only []
    rw [hephi]
    simp only [hepty, List.nil_append]
    rfl
  have hlir1 : ∀ p ∈ epi.predecessors,
      lastIsReturn { g with
          basicblocks := g.basicblocks.set (calleeEnd - 1)
            { epi with instructions := epi.instructions ++ [{ id := g.nextInstrId, opcode := Opcode.kPhi, inputs := [] }] },
          nextInstrId := g.nextInstrId + 1 } p = lastIsReturn g p ∧
      returnValueOf { g with
          basicblocks := g.basicblocks.set (calleeEnd - 1)
            { epi with instructions := epi.instructions ++ [{ id := g.nextInstrId, opcode := Opcode.kPhi, inputs := [] }] },
          nextInstrId := g.nextInstrId + 1 } p = returnValueOf g p := by
    intro p hp
    have hcg := lastIsReturn_blocks_congr
      { g with
          basicblocks := g.basicblocks.set (calleeEnd - 1)
            { epi with instructions := epi.instructions ++ [{ id := g.nextInstrId, opcode := Opcode.kPhi, inputs := [] }] },
          nextInstrId := g.nextInstrId + 1 }
      { g with
          basicblocks := g.basicblocks.set (calleeEnd - 1)
            { epi with instructions := epi.instructions ++ [{ id := g.nextInstrId, opcode := Opcode.kPhi, inputs := [] }] } }
      rfl p
    rw [hcg.1, hcg.2]
    by_cases hpe : p = epi.id
    · subst hpe
      constructor
      · rw [hlir_g_epi]
        have h2 := hlir1_epi_f
        rw [(lastIsReturn_blocks_congr
          { g with
              basicblocks := g.basicblocks.set (calleeEnd - 1)
                { epi with instructions := epi.instructions ++ [{ id := g.nextInstrId, opcode := Opcode.kPhi, inputs := [] }] },
              nextInstrId := g.nextInstrId + 1 }
          { g with
              basicblocks := g.basicblocks.set (calleeEnd - 1)
                { epi with instructions := epi.instructions ++ [{ id := g.nextInstrId, opcode := Opcode.kPhi, inputs := [] }] } }
          rfl epi.id).1] at h2
        exact h2
      · rw [hrv_g_epi]
        have h2 := hrv1_epi_f
        rw [(lastIsReturn_blocks_congr
          { g with
              basicblocks := g.basicblocks.set (calleeEnd - 1)
                { epi with instructions := epi.instructions ++ [{ id := g.nextInstrId, opcode := Opcode.kPhi, inputs := [] }] },
              nextInstrId := g.nextInstrId + 1 }
          { g with
              basicblocks := g.basicblocks.set (calleeEnd - 1)
                { epi with instructions := epi.instructions ++ [{ id := g.nextInstrId, opcode := Opcode.kPhi, inputs := [] }] } }
          rfl epi.id).2] at h2
        exact h2
    · exact lastIsReturn_set g (calleeEnd - 1) epi
        { epi with instructions := epi.instructions ++ [{ id := g.nextInstrId, opcode := Opcode.kPhi, inputs := [] }] }
        hepi rfl p hpe
  have hflat : ([] : List Operand) ++ epi.predecessors.flatMap (fun p =>
      if lastIsReturn { g with
          basicblocks := g.basicblocks.set (calleeEnd - 1)
            { epi with instructions := epi.instructions ++ [{ id := g.nextInstrId, opcode := Opcode.kPhi, inputs := [] }] },
          nextInstrId := g.nextInstrId + 1 } p then
        Operand.lbl p :: (returnValueOf { g with
          basicblocks := g.basicblocks.set (calleeEnd - 1)
            { epi with instructions := epi.instructions ++ [{ id := g.nextInstrId, opcode := Opcode.kPhi, inputs := [] }] },
          nextInstrId := g.nextInstrId + 1 } p).toList else []) =
      phiInputsOf g epi.predecessors := by
    rw [List.nil_append, phiInputsOf]
    apply flatMap_congr
    intro p hp
    rw [(hlir1 p hp).1, (hlir1 p hp).2]
  rw [hflat] at hgo
  have hlen_g1 : ∀ n : Nat, (g.basicblocks.set (calleeEnd - 1)
      { epi with instructions := epi.instructions ++ [{ id := g.nextInstrId, opcode := Opcode.kPhi, inputs := [] }] }).length = n →
      g.basicblocks.length = n := by
    intro n hn
    rw [← hn]
    exact (List.length_set _ _ _).symm
  unfold resolveReturnValue
  rw [hepi]
  simp only [hgo]
  have hlen_g2 : g2.basicblocks.length = g.basicblocks.length := (hlen_g1 _ hlen2.symm).symm
  by_cases hpi : phiInputsOf g epi.predecessors = []
  · rw [if_pos (show (phiInputsOf g epi.predecessors).isEmpty = true by rw [hpi]; rfl)]
    refine ⟨_, rfl, ?_, ?_, ?_⟩
    · simp only [Function.mapInstr, List.length_map]
      exact hlen_g2
    · intro _
      constructor
      · obtain ⟨bk', hbk', hid', hp', hs', hdich⟩ := hpos2 (calleeEnd - 1) _ hephi
        have hid2 : bk'.id = epi.id := hid'
        have hp2 : bk'.predecessors = epi.predecessors := hp'
        have hs2 : bk'.successors = epi.successors := hs'
        have hins2 : bk'.instructions =
            epi.instructions ++ [{ id := g.nextInstrId, opcode := Opcode.kPhi, inputs := [] }] := by
          rcases hdich with ⟨hm, hl, hins⟩ | ⟨hm, hins⟩
          · exfalso
            have hl2 : lastIsReturn
                { g with
                    basicblocks := g.basicblocks.set (calleeEnd - 1)
                      { epi with instructions := epi.instructions ++ [{ id := g.nextInstrId, opcode := Opcode.kPhi, inputs := [] }] },
                    nextInstrId := g.nextInstrId + 1 } epi.id = true := hl
            rw [hlir1_epi_f] at hl2
            cases hl2
          · exact hins
        have hdl : bk'.instructions.dropLast = [] := by
          rw [hins2, hepty]
          rfl
        refine ⟨{ bk' with instructions := [] }, ?_, hid2, hp2, hs2, rfl⟩
        simp only [Function.mapInstr]
        rw [List.get?_map, List.get?_map, hbk']
        simp only [Option.map_some']
        rw [if_pos (show (bk'.id == epi.id) = true by simp [hid2])]
        simp [hdl]
      · intro k bk hkne hk
        have hg1k : (g.basicblocks.set (calleeEnd - 1)
            { epi with instructions := epi.instructions ++ [{ id := g.nextInstrId, opcode := Opcode.kPhi, inputs := [] }] }).get? k =
            g.basicblocks.get? k :=
          List.get?_set_ne _ _ (fun he => hkne he.symm)
        obtain ⟨bk2, hbk2, hid2, hp2, hs2, hdich⟩ := hpos2 k bk (hg1k.trans hk)
        have hbkne : bk.id ≠ epi.id := by
          intro he
          exact hkne (hfind_epi k bk hk he)
        have hins2 : bk2.instructions = bk.instructions := by
          rcases hdich with ⟨hm, hl, hins⟩ | ⟨hm, hins⟩
          · exfalso
            have hl2 := (hlir1 bk.id hm).1
            rw [hl, (phiInputs_empty_iff g epi.predecessors).mp hpi bk.id hm] at hl2
            cases hl2
          · exact hins
        refine ⟨{ bk2 with instructions := bk.instructions.map (nopAt callId) }, ?_, hid2, hp2, hs2, rfl⟩
        simp only [Function.mapInstr]
        rw [List.get?_map, List.get?_map, hbk2]
        simp only [Option.map_some']
        rw [if_neg (show ¬((bk2.id == epi.id) = true) by simp [hid2, hbkne])]
        simp only [hins2]
        rfl
    · intro hne
      exact absurd hpi hne
  · have hiem : (phiInputsOf g epi.predecessors).isEmpty = false := by
      rcases hq : phiInputsOf g epi.predecessors with _ | ⟨a, t⟩
      · exact absurd hq hpi
      · rfl
    rw [hiem]
    simp only [Bool.false_eq_true, if_false]
    refine ⟨_, rfl, ?_, ?_, ?_⟩
    · simp only [Function.mapInstr, List.length_map]
      exact hlen_g2
    · intro h
      exact absurd h hpi
    intro _
    refine ⟨?_, ?_⟩
    · obtain ⟨bk', hbk', hid', hp', hs', hdich⟩ := hpos2 (calleeEnd - 1) _ hephi
      have hid2 : bk'.id = epi.id := hid'
      have hp2 : bk'.predecessors = epi.predecessors := hp'
      have hs2 : bk'.successors = epi.successors := hs'
      have hins2 : bk'.instructions =
          epi.instructions ++ [{ id := g.nextInstrId, opcode := Opcode.kPhi, inputs := [] }] := by
        rcases hdich with ⟨hm, hl, hins⟩ | ⟨hm, hins⟩
        · exfalso
          have hl2 : lastIsReturn
              { g with
                  basicblocks := g.basicblocks.set (calleeEnd - 1)
                    { epi with instructions := epi.instructions ++ [{ id := g.nextInstrId, opcode := Opcode.kPhi, inputs := [] }] },
                  nextInstrId := g.nextInstrId + 1 } epi.id = true := hl
          rw [hlir1_epi_f] at hl2
          cases hl2
        · exact hins
      refine ⟨{ bk' with instructions := [{ id := g.nextInstrId, opcode := Opcode.kPhi, inputs := phiInputsOf g epi.predecessors }] },
        ?_, hid2, hp2, hs2, rfl⟩
      simp only [Function.mapInstr]
      rw [List.get?_map, List.get?_map, hbk']
      simp only [Option.map_some']
      congr 1
      rw [hins2, hepty]
      simp only [List.nil_append, List.map_cons, List.map_nil]
      rw [if_pos (show (({ id := g.nextInstrId, opcode := Opcode.kPhi, inputs := ([] : List Operand) } : Instruction).id == g.nextInstrId) = true by simp)]
      rw [if_neg (show ¬((({ id := g.nextInstrId, opcode := Opcode.kPhi, inputs := phiInputsOf g epi.predecessors } : Instruction).id == callId) = true) by simp [Nat.ne_of_gt hcallid])]
    · intro k bk hkne hk
      have hg1k : (g.basicblocks.set (calleeEnd - 1)
          { epi with instructions := epi.instructions ++ [{ id := g.nextInstrId, opcode := Opcode.kPhi, inputs := [] }] }).get? k =
          g.basicblocks.get? k :=
        List.get?_set_ne _ _ (fun he => hkne he.symm)
      obtain ⟨bk2, hbk2, hid2, hp2, hs2, hdich⟩ := hpos2 k bk (hg1k.trans hk)
      have hbkmem : bk ∈ g.basicblocks := List.get?_mem hk
      have hfresh_bk : ∀ i ∈ bk.instructions, i.id < g.nextInstrId := hifresh bk hbkmem
      have hfresh_dl : ∀ i ∈ bk.instructions.dropLast, i.id < g.nextInstrId :=
        fun i hi => hfresh_bk i ((List.dropLast_prefix bk.instructions).subset hi)
      have hins2 : bk2.instructions =
          if bk.id ∈ epi.predecessors ∧ lastIsReturn g bk.id = true
          then bk.instructions.dropLast else bk.instructions := by
        rcases hdich with ⟨hm, hl, hins⟩ | ⟨hm, hins⟩
        · rw [if_pos ⟨hm, by rw [← (hlir1 bk.id hm).1]; exact hl⟩]
          exact hins
        · rw [if_neg ?_]
          · exact hins
          by_cases hmem : bk.id ∈ epi.predecessors
          · rcases hm with hm | hm
            · exact absurd hmem hm
            · intro hc
              rw [(hlir1 bk.id hmem).1, hc.2] at hm
              cases hm
          · exact fun hc => hmem hc.1
      refine ⟨{ bk2 with instructions :=
        (if bk.id ∈ epi.predecessors ∧ lastIsReturn g bk.id = true
         then bk.instructions.dropLast else bk.instructions).map (moveAt callId g.nextInstrId) },
        ?_, hid2, hp2, hs2, rfl⟩
      simp only [Function.mapInstr]
      rw [List.get?_map, List.get?_map, hbk2]
      simp only [Option.map_some']
      congr 1
      simp only [hins2]
      by_cases hcond : bk.id ∈ epi.predecessors ∧ lastIsReturn g bk.id = true
      · rw [if_pos hcond, map_skip_fresh _ _ _ hfresh_dl]
        rfl
      · rw [if_neg hcond, map_skip_fresh _ _ _ hfresh_bk]
        rfl

/-- In a function with duplicate-free block ids, the id search lands exactly
on the stored position. -/
theorem findIdx_id_of_get? (l : List BasicBlock) (k : Nat) (b : BasicBlock)
    (hk : l.get? k = some b)
    (hnd : (l.map (fun x => x.id)).Nodup) :
    List.findIdx? (fun x => x.id == b.id) l 0 = some k := by
  obtain ⟨i, hi⟩ := findIdx?_go_of_mem (fun x => x.id == b.id) l b (List.get?_mem hk)
    (by simp) 0
  obtain ⟨x, hx, hpx⟩ := findIdx?_some_get _ _ _ hi
  have hxid : x.id = b.id := by simpa using hpx
  have hik : i = k := by
    by_contra hne
    exact nodup_map_get_ne (fun x => x.id) l hnd k i b x hk hx (fun he => hne he.symm) hxid
  rw [← hik]
  exact hi

/-- `lastIsReturn` evaluated through a block's stored position. -/
theorem lastIsReturn_eq_of_get? (g : Function) (k : Nat) (b : BasicBlock)
    (hk : g.basicblocks.get? k = some b)
    (hnd : (g.basicblocks.map (fun x => x.id)).Nodup) :
    lastIsReturn g b.id =
      (match b.instructions.getLast? with
       | none => false
       | some r => r.opcode == Opcode.kReturn) := by
  unfold lastIsReturn
  rw [findIdx_id_of_get? g.basicblocks k b hk hnd]
  simp only []
  rw [hk]

/-- `returnValueOf` evaluated through a block's stored position. -/
theorem returnValueOf_eq_of_get? (g : Function) (k : Nat) (b : BasicBlock)
    (hk : g.basicblocks.get? k = some b)
    (hnd : (g.basicblocks.map (fun x => x.id)).Nodup) :
    returnValueOf g b.id =
      (match b.instructions.getLast? with
       | none => none
       | some r => r.inputs.head?) := by
  unfold returnValueOf
  rw [findIdx_id_of_get? g.basicblocks k b hk hnd]
  simp only []
  rw [hk]

/-- Shared setup for a successful run of the inlining pipeline past the
checks: locating the call block, splicing the callee copy in, and resolving
the parameter loads.  Characterizes the intermediate function on which
`resolveReturnValue` then runs. -/
theorem pipelineSetup (f : Function) (callId : Nat) (call : Instruction) (callee : Function)
    (hcall : f.findInstr? callId = some call)
    (hinl : isInlineable call callee = true)
    (hinp : call.inputs ≠ [])
    (hargs : ∀ a ∈ callArguments call, a.isImm = true ∨ ∃ t, a = Operand.linked t)
    (hndf : (f.basicblocks.map (fun b => b.id)).Nodup)
    (hbound : ∀ b ∈ f.basicblocks, b.id < f.nextBlockId)
    (hndc : (callee.basicblocks.map (fun b => b.id)).Nodup)
    (hndci : (callee.allInstrs.map (fun i => i.id)).Nodup) :
    ∃ idx bb f1 f2 cb0 crest cexit,
      callee.basicblocks = cb0 :: crest ∧
      callee.basicblocks.getLast? = some cexit ∧
      cexit.instructions = [] ∧ cexit.successors = [] ∧
      f.findBlockIdx? callId = some idx ∧
      f.basicblocks.get? idx = some bb ∧
      splice f callId callee = some (f1, idx + 1, idx + 1 + callee.basicblocks.length) ∧
      resolveArguments f1 (callArguments call) (idx + 1)
        (idx + 1 + callee.basicblocks.length) = Except.ok f2 ∧
      f2.nextBlockId = f.nextBlockId + 1 + callee.basicblocks.length ∧
      f2.nextInstrId = f.nextInstrId + callee.allInstrs.length ∧
      f2.basicblocks.length = f.basicblocks.length + callee.basicblocks.length + 1 ∧
      (f2.basicblocks.map (fun b => b.id)).Nodup ∧
      f2.basicblocks.get? idx = some (spliceBlock1 f callId bb callee) ∧
      f2.basicblocks.get? (idx + 1 + callee.basicblocks.length) =
        some (spliceBlock2 f callId bb callee) ∧
      (∀ k, k < idx → f2.basicblocks.get? k = (spliceOthers f bb).get? k) ∧
      (∀ m, f2.basicblocks.get? (idx + 1 + callee.basicblocks.length + 1 + m) =
        (spliceOthers f bb).get? (idx + 1 + m)) ∧
      (∀ j, j < callee.basicblocks.length → ∀ cbj, callee.basicblocks.get? j = some cbj →
        ∃ out, f2.basicblocks.get? (idx + 1 + j) = some
          { id := f.nextBlockId + 1 + j,
            instructions := out,
            predecessors := cbj.predecessors.map (spliceBlockMap f callee) ++
              (if j = 0 then [bb.id] else []),
            successors := cbj.successors.map (spliceBlockMap f callee) ++
              (if j = callee.basicblocks.length - 1 then [f.nextBlockId] else []) } ∧
          ScanRel (cbj.instructions.map
            (copyInstr (spliceInstrMap f callee) (spliceBlockMap f callee))) out) := by
  obtain ⟨hEER, hCA, hCLA⟩ := isInlineable_true_elim call callee hinl
  obtain ⟨cb0, crest, hcb⟩ : ∃ cb0 crest, callee.basicblocks = cb0 :: crest := by
    rcases hq : callee.basicblocks with _ | ⟨a, t⟩
    · exfalso
      unfold checkEntryExitReturn at hEER
      rw [hq] at hEER
      cases hEER
    · exact ⟨a, t, rfl⟩
  obtain ⟨cexit, hlast⟩ : ∃ cexit, callee.basicblocks.getLast? = some cexit := by
    rw [hcb]
    rcases hq : (cb0 :: crest).getLast? with _ | c
    · rw [List.getLast?_eq_get?, List.get?_eq_none] at hq
      simp at hq
    · exact ⟨c, rfl⟩
  have hEERs := checkEntryExitReturn_sound cb0 crest callee hcb hEER
  have hgetD : (cb0 :: crest).getLast?.getD cb0 = cexit := by
    rw [hcb] at hlast
    rw [hlast]
    rfl
  have hcex_succ : cexit.successors = [] := by rw [← hgetD]; exact hEERs.2.1
  have hcex_ins : cexit.instructions = [] := by rw [← hgetD]; exact hEERs.2.2.1
  have hfind := hcall
  unfold Function.findInstr? at hfind
  have hcid : call.id = callId := by
    have := List.find?_some hfind
    simpa using this
  have hmem : call ∈ f.allInstrs := List.mem_of_find?_eq_some hfind
  have hmem2 := hmem
  unfold Function.allInstrs at hmem2
  obtain ⟨bbx, hbbx, hcallin⟩ := List.mem_flatMap.mp hmem2
  have hpx : (fun bb => bb.instructions.any (fun i => i.id == callId)) bbx = true := by
    simp only [List.any_eq_true]
    exact ⟨call, hcallin, by simp [hcid]⟩
  obtain ⟨idx, hidx⟩ : ∃ idx, f.findBlockIdx? callId = some idx := by
    unfold Function.findBlockIdx?
    exact findIdx?_go_of_mem _ f.basicblocks bbx hbbx hpx 0
  obtain ⟨bb, hbb, hbbp⟩ := findIdx?_some_get _ _ _ hidx
  have hidxlt : idx < f.basicblocks.length := (List.get?_eq_some.mp hbb).1
  have hsplice := splice_eq f callId callee idx bb cb0 crest hidx hbb hcb
  have hnum : numActualArgs call = (callArguments call).length := by
    unfold numActualArgs callArguments
    rcases hi : call.inputs with _ | ⟨a, t⟩
    · exact absurd hi hinp
    · simp
  have hgetsome : ∀ (j : Nat), j < callee.basicblocks.length →
      ∃ cbj, callee.basicblocks.get? j = some cbj := by
    intro j hj
    rcases hq : callee.basicblocks.get? j with _ | c
    · rw [List.get?_eq_none] at hq
      omega
    · exact ⟨c, rfl⟩
  have hsafe_copy : ∀ cb ∈ callee.basicblocks,
      SafeArgs (callArguments call) (cb.instructions.map
        (copyInstr (spliceInstrMap f callee) (spliceBlockMap f callee))) := by
    intro cb hcbmem i hi hila
    obtain ⟨y, hy, rfl⟩ := List.mem_map.mp hi
    have hyla : y.opcode = Opcode.kLoadArg := hila
    have hymem : y ∈ callee.allInstrs := by
      unfold Function.allInstrs
      exact List.mem_flatMap.mpr ⟨cb, hcbmem, hy⟩
    obtain ⟨a0, ha0, haimm, halt⟩ :=
      checkLoadArgScan_true_sound (numActualArgs call) callee.allInstrs hCLA y hymem hyla
    obtain ⟨k, rfl⟩ : ∃ k, a0 = Operand.imm k := by
      cases a0 <;> simp_all [Operand.isImm]
    refine ⟨k, ?_, ?_⟩
    · show (y.inputs.map (copyOperand (spliceInstrMap f callee) (spliceBlockMap f callee))).head? = some (Operand.imm k)
      rcases hyi : y.inputs with _ | ⟨b, t⟩
      · rw [hyi] at ha0
        cases ha0
      · rw [hyi] at ha0
        have hb : b = Operand.imm k := by simpa using ha0
        subst hb
        rfl
    · have hk : k < (callArguments call).length := by
        rw [← hnum]
        simpa [Operand.getConstant] using halt
      obtain ⟨param, hparam⟩ : ∃ param, (callArguments call).get? k = some param := by
        rcases hq : (callArguments call).get? k with _ | p
        · rw [List.get?_eq_none] at hq
          omega
        · exact ⟨p, rfl⟩
      exact ⟨param, hparam, hargs param (List.get?_mem hparam)⟩
  have hprelen : ((spliceOthers f bb).take idx).length = idx := by
    rw [List.length_take, spliceOthers_length]
    omega
  have hmidlen : (spliceCopies f bb.id callee).length = callee.basicblocks.length :=
    spliceCopies_length f bb.id callee
  have hf1mid : ∀ j, j < callee.basicblocks.length → ∀ cbj, callee.basicblocks.get? j = some cbj →
      (((spliceOthers f bb).take idx) ++ [(spliceBlock1 f callId bb callee)] ++ (spliceCopies f bb.id callee) ++ [(spliceBlock2 f callId bb callee)] ++ ((spliceOthers f bb).drop (idx + 1))).get? (idx + 1 + j) = some { id := f.nextBlockId + 1 + j, instructions := cbj.instructions.map (copyInstr (spliceInstrMap f callee) (spliceBlockMap f callee)), predecessors := cbj.predecessors.map (spliceBlockMap f callee) ++ (if j = 0 then [bb.id] else []), successors := cbj.successors.map (spliceBlockMap f callee) ++ (if j = callee.basicblocks.length - 1 then [f.nextBlockId] else []) } := by
    intro j hj cbj hcbj
    have h5 := five_get_mid ((spliceOthers f bb).take idx) (spliceCopies f bb.id callee) ((spliceOthers f bb).drop (idx + 1)) (spliceBlock1 f callId bb callee) (spliceBlock2 f callId bb callee) j (by rw [hmidlen]; exact hj)
    rw [hprelen] at h5
    rw [spliceCopies_get f bb.id callee hndc cb0 crest hcb cexit hlast j cbj hcbj] at h5
    exact h5
  have hsafe_pos : ∀ j, j < callee.basicblocks.length → ∃ bbj,
      ({ basicblocks := (spliceOthers f bb).take idx ++ [spliceBlock1 f callId bb callee] ++ spliceCopies f bb.id callee ++ [spliceBlock2 f callId bb callee] ++ (spliceOthers f bb).drop (idx + 1), nextBlockId := f.nextBlockId + 1 + callee.basicblocks.length, nextInstrId := f.nextInstrId + callee.allInstrs.length } : Function).basicblocks.get? (idx + 1 + j) = some bbj ∧
      SafeArgs (callArguments call) bbj.instructions := by
    intro j hj
    obtain ⟨cbj, hcbj⟩ := hgetsome j hj
    exact ⟨{ id := f.nextBlockId + 1 + j, instructions := cbj.instructions.map (copyInstr (spliceInstrMap f callee) (spliceBlockMap f callee)), predecessors := cbj.predecessors.map (spliceBlockMap f callee) ++ (if j = 0 then [bb.id] else []), successors := cbj.successors.map (spliceBlockMap f callee) ++ (if j = callee.basicblocks.length - 1 then [f.nextBlockId] else []) }, hf1mid j hj cbj hcbj, hsafe_copy cbj (List.get?_mem hcbj)⟩
  obtain ⟨f2, hra, hnb2, hni2, hlen2, hout2, hrange2⟩ :=
    resolveArgumentsGo_range (callArguments call) callee.basicblocks.length (idx + 1) []
      { basicblocks := (spliceOthers f bb).take idx ++ [spliceBlock1 f callId bb callee] ++ spliceCopies f bb.id callee ++ [spliceBlock2 f callId bb callee] ++ (spliceOthers f bb).drop (idx + 1), nextBlockId := f.nextBlockId + 1 + callee.basicblocks.length, nextInstrId := f.nextInstrId + callee.allInstrs.length } hsafe_pos
  have hreseq : resolveArguments { basicblocks := (spliceOthers f bb).take idx ++ [spliceBlock1 f callId bb callee] ++ spliceCopies f bb.id callee ++ [spliceBlock2 f callId bb callee] ++ (spliceOthers f bb).drop (idx + 1), nextBlockId := f.nextBlockId + 1 + callee.basicblocks.length, nextInstrId := f.nextInstrId + callee.allInstrs.length } (callArguments call) (idx + 1)
      (idx + 1 + callee.basicblocks.length) = Except.ok f2 := by
    unfold resolveArguments
    rw [show idx + 1 + callee.basicblocks.length - (idx + 1) = callee.basicblocks.length from by omega]
    exact hra
  have hf1len : (((spliceOthers f bb).take idx) ++ [(spliceBlock1 f callId bb callee)] ++ (spliceCopies f bb.id callee) ++ [(spliceBlock2 f callId bb callee)] ++ ((spliceOthers f bb).drop (idx + 1))).length = f.basicblocks.length + callee.basicblocks.length + 1 := by
    rw [five_length, hprelen, hmidlen, List.length_drop, spliceOthers_length]
    omega
  have hndf1 : ((((spliceOthers f bb).take idx) ++ [(spliceBlock1 f callId bb callee)] ++ (spliceCopies f bb.id callee) ++ [(spliceBlock2 f callId bb callee)] ++ ((spliceOthers f bb).drop (idx + 1))).map (fun b => b.id)).Nodup :=
    spliced_ids_nodup f callId callee idx bb hbb hndf hbound hndc cb0 crest hcb cexit hlast
  have hids_eq : f2.basicblocks.map (fun b => b.id) = (((spliceOthers f bb).take idx) ++ [(spliceBlock1 f callId bb callee)] ++ (spliceCopies f bb.id callee) ++ [(spliceBlock2 f callId bb callee)] ++ ((spliceOthers f bb).drop (idx + 1))).map (fun b => b.id) := by
    apply List.ext_get?
    intro k
    by_cases hk : idx + 1 ≤ k ∧ k < idx + 1 + callee.basicblocks.length
    · obtain ⟨j, rfl⟩ : ∃ j, k = idx + 1 + j := ⟨k - (idx + 1), by omega⟩
      have hj : j < callee.basicblocks.length := by omega
      obtain ⟨cbj, hcbj⟩ := hgetsome j hj
      have hmid := hf1mid j hj cbj hcbj
      obtain ⟨out, hfo, hrel⟩ := hrange2 j hj _ hmid
      rw [List.get?_map, List.get?_map, hfo, hmid]
      rfl
    · have ho := hout2 k (by omega)
      rw [List.get?_map, List.get?_map, ho]
  have hxg := five_get_x ((spliceOthers f bb).take idx) (spliceCopies f bb.id callee) ((spliceOthers f bb).drop (idx + 1)) (spliceBlock1 f callId bb callee) (spliceBlock2 f callId bb callee)
  rw [hprelen] at hxg
  have hyg := five_get_y ((spliceOthers f bb).take idx) (spliceCopies f bb.id callee) ((spliceOthers f bb).drop (idx + 1)) (spliceBlock1 f callId bb callee) (spliceBlock2 f callId bb callee)
  rw [hprelen, hmidlen] at hyg
  refine ⟨idx, bb, { basicblocks := (spliceOthers f bb).take idx ++ [spliceBlock1 f callId bb callee] ++ spliceCopies f bb.id callee ++ [spliceBlock2 f callId bb callee] ++ (spliceOthers f bb).drop (idx + 1), nextBlockId := f.nextBlockId + 1 + callee.basicblocks.length, nextInstrId := f.nextInstrId + callee.allInstrs.length }, f2, cb0, crest, cexit, hcb, hlast, hcex_ins, hcex_succ, hidx, hbb,
    hsplice, hreseq, hnb2, hni2, hlen2.trans hf1len, ?_, ?_, ?_, ?_, ?_, ?_⟩
  · rw [hids_eq]
    exact hndf1
  · exact (hout2 idx (Or.inl (by omega))).trans hxg
  · exact (hout2 (idx + 1 + callee.basicblocks.length) (Or.inr (by omega))).trans hyg
  · intro k hklt
    have hpg := five_get_pre ((spliceOthers f bb).take idx) (spliceCopies f bb.id callee) ((spliceOthers f bb).drop (idx + 1)) (spliceBlock1 f callId bb callee) (spliceBlock2 f callId bb callee) k (by rw [hprelen]; omega)
    rw [(hout2 k (Or.inl (by omega))).trans hpg]
    exact List.get?_take (by omega)
  · intro m
    have hpg := five_get_post ((spliceOthers f bb).take idx) (spliceCopies f bb.id callee) ((spliceOthers f bb).drop (idx + 1)) (spliceBlock1 f callId bb callee) (spliceBlock2 f callId bb callee) m
    rw [hprelen, hmidlen] at hpg
    rw [show idx + 1 + callee.basicblocks.length + 1 + m = idx + 1 + callee.basicblocks.length + 1 + m from rfl]
    rw [(hout2 (idx + 1 + callee.basicblocks.length + 1 + m) (Or.inr (by omega))).trans hpg]
    rw [List.get?_drop]
  · intro j hj cbj hcbj
    obtain ⟨out, hfo, hrel⟩ := hrange2 j hj _ (hf1mid j hj cbj hcbj)
    exact ⟨out, hfo, hrel⟩

/-- End-to-end characterization of a successful `inlineCall`: under the
structural invariants of caller and callee and the return conventions
(returns carry an input), the pass returns true and the result is the
spliced, argument-resolved function with the return merge applied — the
void and merging paths exposed as the two implications at the end. -/
theorem inlineCall_success_spec (env : ResolveEnv) (cache cache' : Cache)
    (f : Function) (callId : Nat) (call : Instruction) (callee : Function)
    (hcall : f.findInstr? callId = some call)
    (hff : findFunction env cache call = (cache', some callee))
    (hinl : isInlineable call callee = true)
    (hargs : ∀ a ∈ callArguments call, a.isImm = true ∨ ∃ t, a = Operand.linked t)
    (hndf : (f.basicblocks.map (fun b => b.id)).Nodup)
    (hbound : ∀ b ∈ f.basicblocks, b.id < f.nextBlockId)
    (hibf : ∀ i ∈ f.allInstrs, i.id < f.nextInstrId)
    (hretf : ∀ i ∈ f.allInstrs, i.opcode = Opcode.kReturn → i.inputs ≠ [])
    (hndc : (callee.basicblocks.map (fun b => b.id)).Nodup)
    (hndci : (callee.allInstrs.map (fun i => i.id)).Nodup)
    (hpnodc : ∀ cb ∈ callee.basicblocks, cb.predecessors.Nodup)
    (hpredin : ∀ cb ∈ callee.basicblocks, ∀ p ∈ cb.predecessors,
      ∃ pb ∈ callee.basicblocks, pb.id = p)
    (hret1 : ∀ i ∈ callee.allInstrs, i.opcode = Opcode.kReturn → i.inputs ≠ []) :
    ∃ idx bb f2 epi g' cexit,
      callee.basicblocks.getLast? = some cexit ∧
      cexit.instructions = [] ∧ cexit.successors = [] ∧
      inlineCall env cache f callId = (cache', Except.ok (true, g')) ∧
      f.findBlockIdx? callId = some idx ∧
      f.basicblocks.get? idx = some bb ∧
      (∃ f1, splice f callId callee = some (f1, idx + 1, idx + 1 + callee.basicblocks.length) ∧
        resolveArguments f1 (callArguments call) (idx + 1)
          (idx + 1 + callee.basicblocks.length) = Except.ok f2) ∧
      f2.basicblocks.length = f.basicblocks.length + callee.basicblocks.length + 1 ∧
      (f2.basicblocks.map (fun b => b.id)).Nodup ∧
      f2.nextInstrId = f.nextInstrId + callee.allInstrs.length ∧
      f2.basicblocks.get? idx = some (spliceBlock1 f callId bb callee) ∧
      f2.basicblocks.get? (idx + 1 + callee.basicblocks.length) = some (spliceBlock2 f callId bb callee) ∧
      (∀ j, j < callee.basicblocks.length → ∀ cbj, callee.basicblocks.get? j = some cbj →
        ∃ out, f2.basicblocks.get? (idx + 1 + j) = some
          { id := f.nextBlockId + 1 + j,
            instructions := out,
            predecessors := cbj.predecessors.map (spliceBlockMap f callee) ++
              (if j = 0 then [bb.id] else []),
            successors := cbj.successors.map (spliceBlockMap f callee) ++
              (if j = callee.basicblocks.length - 1 then [f.nextBlockId] else []) } ∧
          ScanRel (cbj.instructions.map (copyInstr (spliceInstrMap f callee) (spliceBlockMap f callee))) out) ∧
      (∀ k bk, f2.basicblocks.get? k = some bk →
        (∃ b ∈ f.basicblocks, bk.id = b.id ∧ bk.instructions = b.instructions) ∨
        (k = idx ∧ bk = spliceBlock1 f callId bb callee) ∨
        (k = idx + 1 + callee.basicblocks.length ∧ bk = spliceBlock2 f callId bb callee) ∨
        (∃ j, j < callee.basicblocks.length ∧ k = idx + 1 + j ∧ bk.id = f.nextBlockId + 1 + j ∧
          ∃ cbj, callee.basicblocks.get? j = some cbj ∧
            ScanRel (cbj.instructions.map (copyInstr (spliceInstrMap f callee) (spliceBlockMap f callee))) bk.instructions)) ∧
      f2.basicblocks.get? (idx + 1 + callee.basicblocks.length - 1) = some epi ∧
      epi.instructions = [] ∧
      epi.id = f.nextBlockId + 1 + (callee.basicblocks.length - 1) ∧
      epi.predecessors = cexit.predecessors.map (spliceBlockMap f callee) ++
        (if callee.basicblocks.length - 1 = 0 then [bb.id] else []) ∧
      epi.successors = [f.nextBlockId] ∧
      g'.basicblocks.length = f2.basicblocks.length ∧
      (phiInputsOf f2 epi.predecessors = [] →
        (∃ epiOut, g'.basicblocks.get? (idx + 1 + callee.basicblocks.length - 1) = some epiOut ∧
          epiOut.id = epi.id ∧ epiOut.predecessors = epi.predecessors ∧
          epiOut.successors = epi.successors ∧ epiOut.instructions = []) ∧
        (∀ k bk, k ≠ idx + 1 + callee.basicblocks.length - 1 → f2.basicblocks.get? k = some bk →
          ∃ bk', g'.basicblocks.get? k = some bk' ∧ bk'.id = bk.id ∧
            bk'.predecessors = bk.predecessors ∧ bk'.successors = bk.successors ∧
            bk'.instructions = bk.instructions.map (nopAt callId))) ∧
      (phiInputsOf f2 epi.predecessors ≠ [] →
        (∃ epiOut, g'.basicblocks.get? (idx + 1 + callee.basicblocks.length - 1) = some epiOut ∧
          epiOut.id = epi.id ∧ epiOut.predecessors = epi.predecessors ∧
          epiOut.successors = epi.successors ∧
          epiOut.instructions = [{ id := f2.nextInstrId, opcode := Opcode.kPhi, inputs := phiInputsOf f2 epi.predecessors }]) ∧
        (∀ k bk, k ≠ idx + 1 + callee.basicblocks.length - 1 → f2.basicblocks.get? k = some bk →
          ∃ bk', g'.basicblocks.get? k = some bk' ∧ bk'.id = bk.id ∧
            bk'.predecessors = bk.predecessors ∧ bk'.successors = bk.successors ∧
            bk'.instructions =
              (if bk.id ∈ epi.predecessors ∧ lastIsReturn f2 bk.id = true
               then bk.instructions.dropLast else bk.instructions).map (moveAt callId f2.nextInstrId))) := by
  have hinp : call.inputs ≠ [] := by
    intro he
    unfold findFunction at hff
    rw [he] at hff
    simp [Prod.ext_iff] at hff
  obtain ⟨idx, bb, f1, f2, cb0, crest, cexit, hcb, hlast, hcex_ins, hcex_succ, hidx, hbb,
    hsplice, hres, hnbc2, hni2, hlen2, hnd2, hx, hy, hpre, hpost, hrange⟩ :=
    pipelineSetup f callId call callee hcall hinl hinp hargs hndf hbound hndc hndci
  have hnBpos : 0 < callee.basicblocks.length := by
    rw [hcb]
    exact Nat.succ_pos _
  have hgetsome : ∀ (j : Nat), j < callee.basicblocks.length →
      ∃ cbj, callee.basicblocks.get? j = some cbj := by
    intro j hj
    rcases hq : callee.basicblocks.get? j with _ | c
    · rw [List.get?_eq_none] at hq
      omega
    · exact ⟨c, rfl⟩
  have hlastget : callee.basicblocks.get? (callee.basicblocks.length - 1) = some cexit := by
    rw [← List.getLast?_eq_get?]
    exact hlast
  have hcexmem : cexit ∈ callee.basicblocks := List.get?_mem hlastget
  obtain ⟨oute, hepi0, hrele⟩ := hrange (callee.basicblocks.length - 1) (by omega) cexit hlastget
  have houtnil : oute = [] := by
    apply scanRel_nil_left
    rw [hcex_ins] at hrele
    exact hrele
  subst houtnil
  have hepi : f2.basicblocks.get? (idx + 1 + callee.basicblocks.length - 1) = some { id := f.nextBlockId + 1 + (callee.basicblocks.length - 1), instructions := [], predecessors := cexit.predecessors.map (spliceBlockMap f callee) ++ (if callee.basicblocks.length - 1 = 0 then [bb.id] else []), successors := cexit.successors.map (spliceBlockMap f callee) ++ (if callee.basicblocks.length - 1 = callee.basicblocks.length - 1 then [f.nextBlockId] else []) } := by
    rw [show idx + 1 + callee.basicblocks.length - 1 = idx + 1 + (callee.basicblocks.length - 1) from by omega]
    exact hepi0
  have hcases : ∀ k bk, f2.basicblocks.get? k = some bk →
      (∃ b ∈ f.basicblocks, bk.id = b.id ∧ bk.instructions = b.instructions) ∨
      (k = idx ∧ bk = spliceBlock1 f callId bb callee) ∨
      (k = idx + 1 + callee.basicblocks.length ∧ bk = spliceBlock2 f callId bb callee) ∨
      (∃ j, j < callee.basicblocks.length ∧ k = idx + 1 + j ∧ bk.id = f.nextBlockId + 1 + j ∧
        ∃ cbj, callee.basicblocks.get? j = some cbj ∧
          ScanRel (cbj.instructions.map (copyInstr (spliceInstrMap f callee) (spliceBlockMap f callee))) bk.instructions) := by
    intro k bk hk
    have hklen : k < f2.basicblocks.length := (List.get?_eq_some.mp hk).1
    rw [hlen2] at hklen
    by_cases h1 : k < idx
    · left
      have hoth := (hpre k h1).symm.trans hk
      unfold spliceOthers at hoth
      rw [List.get?_map] at hoth
      rcases hfk : f.basicblocks.get? k with _ | b
      · rw [hfk] at hoth
        cases hoth
      · rw [hfk] at hoth
        simp only [Option.map_some', Option.some.injEq] at hoth
        refine ⟨b, List.get?_mem hfk, ?_, ?_⟩
        · rw [← hoth]
          by_cases hc : b.id ∈ bb.successors <;> simp [hc]
        · rw [← hoth]
          by_cases hc : b.id ∈ bb.successors <;> simp [hc]
    · by_cases h2 : k = idx
      · subst h2
        right
        left
        refine ⟨rfl, ?_⟩
        have := hx.symm.trans hk
        exact (Option.some.inj this).symm
      · by_cases h3 : idx + 1 ≤ k ∧ k < idx + 1 + callee.basicblocks.length
        · right
          right
          right
          obtain ⟨j, rfl⟩ : ∃ j, k = idx + 1 + j := ⟨k - (idx + 1), by omega⟩
          have hj : j < callee.basicblocks.length := by omega
          obtain ⟨cbj, hcbj⟩ := hgetsome j hj
          obtain ⟨out, hfo, hrel⟩ := hrange j hj cbj hcbj
          have hbk := (Option.some.inj (hfo.symm.trans hk)).symm
          refine ⟨j, hj, rfl, ?_, cbj, hcbj, ?_⟩
          · rw [hbk]
          · rw [hbk]
            exact hrel
        · by_cases h4 : k = idx + 1 + callee.basicblocks.length
          · subst h4
            right
            right
            left
            refine ⟨rfl, ?_⟩
            have := hy.symm.trans hk
            exact (Option.some.inj this).symm
          · left
            obtain ⟨m, rfl⟩ : ∃ m, k = idx + 1 + callee.basicblocks.length + 1 + m :=
              ⟨k - (idx + 1 + callee.basicblocks.length + 1), by omega⟩
            have hoth := (hpost m).symm.trans hk
            unfold spliceOthers at hoth
            rw [List.get?_map] at hoth
            rcases hfk : f.basicblocks.get? (idx + 1 + m) with _ | b
            · rw [hfk] at hoth
              cases hoth
            · rw [hfk] at hoth
              simp only [Option.map_some', Option.some.injEq] at hoth
              refine ⟨b, List.get?_mem hfk, ?_, ?_⟩
              · rw [← hoth]
                by_cases hc : b.id ∈ bb.successors <;> simp [hc]
              · rw [← hoth]
                by_cases hc : b.id ∈ bb.successors <;> simp [hc]
  have hretAll : ∀ bbk ∈ f2.basicblocks, ∀ i ∈ bbk.instructions,
      i.opcode = Opcode.kReturn → i.inputs ≠ [] := by
    intro bbk hbbk i hi hio
    obtain ⟨k, hk⟩ := List.get?_of_mem hbbk
    rcases hcases k bbk hk with ⟨b, hbmem, hbid, hbins⟩ | ⟨hk2, rfl⟩ | ⟨hk2, rfl⟩ |
      ⟨j, hj, hkj, hbkid, cbj, hcbj, hrel⟩
    · rw [hbins] at hi
      exact hretf i (List.mem_flatMap.mpr ⟨b, hbmem, hi⟩) hio
    · have hsub : i ∈ bb.instructions := List.take_subset _ _ hi
      exact hretf i (List.mem_flatMap.mpr ⟨bb, List.get?_mem hbb, hsub⟩) hio
    · have hsub : i ∈ bb.instructions := List.drop_subset _ _ hi
      exact hretf i (List.mem_flatMap.mpr ⟨bb, List.get?_mem hbb, hsub⟩) hio
    · obtain ⟨y, hy2, hyr, hylen⟩ := scanRel_return_from _ _ hrel i hi hio
      obtain ⟨y0, hy0, rfl⟩ := List.mem_map.mp hy2
      have hy0r : y0.opcode = Opcode.kReturn := hyr
      have hne := hret1 y0 (List.mem_flatMap.mpr ⟨cbj, List.get?_mem hcbj, hy0⟩) hy0r
      intro hnil
      rw [hnil] at hylen
      simp only [copyInstr, List.length_map, List.length_nil] at hylen
      exact hne (List.length_eq_zero.mp hylen)
  have hifresh2 : ∀ bbk ∈ f2.basicblocks, ∀ i ∈ bbk.instructions, i.id < f2.nextInstrId := by
    intro bbk hbbk i hi
    obtain ⟨k, hk⟩ := List.get?_of_mem hbbk
    rcases hcases k bbk hk with ⟨b, hbmem, hbid, hbins⟩ | ⟨hk2, rfl⟩ | ⟨hk2, rfl⟩ |
      ⟨j, hj, hkj, hbkid, cbj, hcbj, hrel⟩
    · rw [hbins] at hi
      have := hibf i (List.mem_flatMap.mpr ⟨b, hbmem, hi⟩)
      rw [hni2]
      omega
    · have hsub : i ∈ bb.instructions := List.take_subset _ _ hi
      have := hibf i (List.mem_flatMap.mpr ⟨bb, List.get?_mem hbb, hsub⟩)
      rw [hni2]
      omega
    · have hsub : i ∈ bb.instructions := List.drop_subset _ _ hi
      have := hibf i (List.mem_flatMap.mpr ⟨bb, List.get?_mem hbb, hsub⟩)
      rw [hni2]
      omega
    · obtain ⟨y, hy2, hyid⟩ := scanRel_ids_from _ _ hrel i hi
      obtain ⟨y0, hy0, rfl⟩ := List.mem_map.mp hy2
      obtain ⟨t, ht⟩ := List.get?_of_mem
        (show y0 ∈ callee.allInstrs from List.mem_flatMap.mpr ⟨cbj, List.get?_mem hcbj, hy0⟩)
      have htlt : t < callee.allInstrs.length := (List.get?_eq_some.mp ht).1
      have him := spliceInstrMap_eq f callee hndci t y0 ht
      have hyid2 : i.id = spliceInstrMap f callee y0.id := hyid.symm
      rw [hyid2, him, hni2]
      omega
  have hcid : call.id = callId := by
    have hfind := hcall
    unfold Function.findInstr? at hfind
    have := List.find?_some hfind
    simpa using this
  have hcallid2 : callId < f2.nextInstrId := by
    have hfind := hcall
    unfold Function.findInstr? at hfind
    have hlt := hibf call (List.mem_of_find?_eq_some hfind)
    rw [hni2, ← hcid]
    omega
  have hEERs := checkEntryExitReturn_sound cb0 crest callee hcb
    (isInlineable_true_elim call callee hinl).1
  have hpnd : ({ id := f.nextBlockId + 1 + (callee.basicblocks.length - 1), instructions := [], predecessors := cexit.predecessors.map (spliceBlockMap f callee) ++ (if callee.basicblocks.length - 1 = 0 then [bb.id] else []), successors := cexit.successors.map (spliceBlockMap f callee) ++ (if callee.basicblocks.length - 1 = callee.basicblocks.length - 1 then [f.nextBlockId] else []) } : BasicBlock).predecessors.Nodup := by
    show (cexit.predecessors.map (spliceBlockMap f callee) ++ (if callee.basicblocks.length - 1 = 0 then [bb.id] else [])).Nodup
    by_cases hnb1 : callee.basicblocks.length - 1 = 0
    · have hc1 : crest = [] := by
        have : (cb0 :: crest).length = callee.basicblocks.length := by rw [hcb]
        have : crest.length = 0 := by
          simp only [List.length_cons] at this
          omega
        exact List.length_eq_zero.mp this
      have hcex0 : cexit = cb0 := by
        rw [hcb, hc1] at hlast
        exact (Option.some.inj hlast).symm
      rw [if_pos hnb1, hcex0, hEERs.1]
      simp
    · rw [if_neg hnb1, List.append_nil]
      refine List.Nodup.map_on ?_ (hpnodc cexit hcexmem)
      intro p1 hp1 p2 hp2 heq
      obtain ⟨pb1, hpb1, hpb1id⟩ := hpredin cexit hcexmem p1 hp1
      obtain ⟨pb2, hpb2, hpb2id⟩ := hpredin cexit hcexmem p2 hp2
      obtain ⟨t1, ht1⟩ := List.get?_of_mem hpb1
      obtain ⟨t2, ht2⟩ := List.get?_of_mem hpb2
      have he1 := spliceBlockMap_eq f callee hndc t1 pb1 ht1
      have he2 := spliceBlockMap_eq f callee hndc t2 pb2 ht2
      rw [hpb1id] at he1
      rw [hpb2id] at he2
      rw [he1, he2] at heq
      have ht12 : t1 = t2 := by omega
      rw [ht12] at ht1
      rw [ht1] at ht2
      have := Option.some.inj ht2
      rw [← hpb1id, ← hpb2id, this]
  obtain ⟨g', hrrv, hg'len, hvoidr, hmerger⟩ :=
    resolveReturnValue_spec f2 callId (idx + 1 + callee.basicblocks.length) { id := f.nextBlockId + 1 + (callee.basicblocks.length - 1), instructions := [], predecessors := cexit.predecessors.map (spliceBlockMap f callee) ++ (if callee.basicblocks.length - 1 = 0 then [bb.id] else []), successors := cexit.successors.map (spliceBlockMap f callee) ++ (if callee.basicblocks.length - 1 = callee.basicblocks.length - 1 then [f.nextBlockId] else []) }
      hepi rfl hnd2 hpnd
      (fun bbk hbbk hm i hi hio => hretAll bbk hbbk i hi hio)
      hifresh2 hcallid2
  have hinline : inlineCall env cache f callId = (cache', Except.ok (true, g')) := by
    unfold inlineCall
    rw [hcall]
    simp only []
    rw [hff]
    simp only []
    rw [hinl]
    simp only [Bool.not_true, Bool.false_eq_true, if_false]
    rw [hsplice]
    simp only []
    rw [hres]
    simp only []
    rw [hrrv]
  refine ⟨idx, bb, f2, { id := f.nextBlockId + 1 + (callee.basicblocks.length - 1), instructions := [], predecessors := cexit.predecessors.map (spliceBlockMap f callee) ++ (if callee.basicblocks.length - 1 = 0 then [bb.id] else []), successors := cexit.successors.map (spliceBlockMap f callee) ++ (if callee.basicblocks.length - 1 = callee.basicblocks.length - 1 then [f.nextBlockId] else []) }, g', cexit, hlast, hcex_ins, hcex_succ, hinline, hidx, hbb,
    ⟨f1, hsplice, hres⟩, hlen2, hnd2, hni2, hx, hy, hrange, hcases, hepi, rfl, rfl, rfl, ?_, hg'len, hvoidr, hmerger⟩
  show cexit.successors.map (spliceBlockMap f callee) ++ (if callee.basicblocks.length - 1 = callee.basicblocks.length - 1 then [f.nextBlockId] else []) = [f.nextBlockId]
  rw [hcex_succ, if_pos rfl]
  rfl

/-- In a list with duplicate-free mapped ids, members with the same id are
equal. -/
theorem mem_id_unique {α : Type} (idOf : α → Nat) (l : List α)
    (hnd : (l.map idOf).Nodup) (x y : α) (hx : x ∈ l) (hy : y ∈ l)
    (hxy : idOf x = idOf y) : x = y := by
  obtain ⟨t1, ht1⟩ := List.get?_of_mem hx
  obtain ⟨t2, ht2⟩ := List.get?_of_mem hy
  by_cases he : t1 = t2
  · rw [he] at ht1
    exact Option.some.inj (ht1.symm.trans ht2)
  · exact absurd hxy.symm (nodup_map_get_ne idOf l hnd t1 t2 x y ht1 ht2 he)

/-- A block accepted by the return-placement scan that contains a return
splits as a return-free prefix followed by that return, and the successor
condition held. -/
theorem block_return_decomp (succOk : Bool) (l : List Instruction)
    (hscan : instrsReturnLast succOk l = true)
    (y0 : Instruction) (hy0 : y0 ∈ l) (hret : y0.opcode = Opcode.kReturn) :
    ∃ l0, l = l0 ++ [y0] ∧ (∀ y ∈ l0, y.opcode ≠ Opcode.kReturn) ∧ succOk = true := by
  obtain ⟨p0, hp0⟩ := List.get?_of_mem hy0
  have hs := instrsReturnLast_sound succOk l hscan p0 y0 hp0 hret
  have hlen : 0 < l.length := List.length_pos.mpr (List.ne_nil_of_mem hy0)
  refine ⟨l.take (l.length - 1), ?_, ?_, hs.2⟩
  · have hdecomp := eq_take_cons_drop l (l.length - 1) y0 (by rw [← hs.1]; exact hp0)
    rw [show l.length - 1 + 1 = l.length from by omega, List.drop_length] at hdecomp
    exact hdecomp
  · intro y hy hyret
    obtain ⟨q, hq⟩ := List.get?_of_mem hy
    have hqlt : q < (l.take (l.length - 1)).length := (List.get?_eq_some.mp hq).1
    rw [List.length_take] at hqlt
    have hq2 : l.get? q = some y := by
      rw [← List.get?_take (show q < l.length - 1 from by omega)]
      exact hq
    have := (instrsReturnLast_sound succOk l hscan q y hq2 hyret).1
    omega

/-! ## C2 -/
/-- C2: for every call instruction, if `inlineCall` returns `false` (callee
unresolved or `isInlineable` rejected it), the caller's IR is completely
unchanged — same block list, same instruction counts, same operand
identities; all checks run strictly before any mutation of the caller. -/
theorem inlineCall_false_leaves_caller_unchanged
    (env : ResolveEnv) (cache : Cache) (f : Function) (callId : Nat)
    (cache' : Cache) (f' : Function)
    (h : inlineCall env cache f callId = (cache', Except.ok (false, f'))) :
    f' = f := by
  unfold inlineCall at h
  split at h
  · simp at h
  · rename_i call hcall
    split at h
    · rename_i cache2 hff
      simp only [Prod.mk.injEq, Except.ok.injEq] at h
      exact h.2.2.symm
    · rename_i cache2 callee hff
      split at h
      · simp only [Prod.mk.injEq, Except.ok.injEq] at h
        exact h.2.2.symm
      · split at h
        · simp at h
        · rename_i spl f1 s e hspl
          split at h
          · simp at h
          · rename_i f2 hra
            split at h
            · simp at h
            · simp at h

/-- Witness for C2: the all-failing resolver leaves `callerA` untouched. -/
theorem inlineCall_false_leaves_caller_unchanged_witness :
    inlineCall envNone [] callerA 1 = ([], Except.ok (false, callerA)) ∧
    callerA = callerA :=
  And.intro (by rfl)
    (inlineCall_false_leaves_caller_unchanged envNone [] callerA 1 [] callerA (by rfl))

/-- C4: for a callee with no return instruction on any path, a successful
`inlineCall` ends on the void path of `resolveReturnValue`: the freshly
allocated merge (phi) instruction collects zero inputs and is removed again,
the call instruction is converted into a no-op, and (when neither input
function used phi instructions) no merge instruction remains anywhere in the
result. -/
theorem inlineCall_void_callee_nop (env : ResolveEnv) (cache cache' : Cache)
    (f : Function) (callId : Nat) (call : Instruction) (callee : Function)
    (hcall : f.findInstr? callId = some call)
    (hff : findFunction env cache call = (cache', some callee))
    (hinl : isInlineable call callee = true)
    (hargs : ∀ a ∈ callArguments call, a.isImm = true ∨ ∃ t, a = Operand.linked t)
    (hwf : f.wf) (hwfc : callee.wf)
    (hretf : ∀ i ∈ f.allInstrs, i.opcode = Opcode.kReturn → i.inputs ≠ [])
    (hretlast : ∀ bbk ∈ f.basicblocks, ∀ j r, bbk.instructions.get? j = some r →
      r.opcode = Opcode.kReturn → j = bbk.instructions.length - 1)
    (hvoid : ∀ i ∈ callee.allInstrs, i.opcode ≠ Opcode.kReturn)
    (hnophif : ∀ i ∈ f.allInstrs, i.opcode ≠ Opcode.kPhi)
    (hnophic : ∀ i ∈ callee.allInstrs, i.opcode ≠ Opcode.kPhi) :
    ∃ g', inlineCall env cache f callId = (cache', Except.ok (true, g')) ∧
      (∀ bbk ∈ g'.basicblocks, ∀ i ∈ bbk.instructions, i.id = callId →
        i.opcode = Opcode.kNop) ∧
      (∃ bbk ∈ g'.basicblocks, ∃ i ∈ bbk.instructions, i.id = callId ∧
        i.opcode = Opcode.kNop) ∧
      (∀ bbk ∈ g'.basicblocks, ∀ i ∈ bbk.instructions, i.opcode ≠ Opcode.kPhi) := by
  obtain ⟨hndf, hndif, hbound, hibf, hpsn, hpcf, hscf⟩ := hwf
  obtain ⟨hndc, hndci, hboundc, hibc, hpsnc, hpcc, hscc⟩ := hwfc
  obtain ⟨idx, bb, f2, epi, g', cexit, hlast, hcexins, hcexsucc, hinline, hidx, hbb, hsr,
    hf2len, hnd2, hni2, hx, hy, hrange, hcases, hepi, hepins, hepid, hepip, hepis,
    hglen, hvoidr, hmerger⟩ :=
    inlineCall_success_spec env cache cache' f callId call callee hcall hff hinl hargs
      hndf hbound hibf hretf hndc hndci (fun cb hcb => (hpsnc cb hcb).1)
      (fun cb hcb p hp => by
        obtain ⟨pb, hm, h1, h2⟩ := hpcc cb hcb p hp
        exact ⟨pb, hm, h1⟩)
      (fun i hi hio => absurd hio (hvoid i hi))
  have hnBpos : 0 < callee.basicblocks.length := by
    by_cases hq : callee.basicblocks = []
    · exfalso
      rw [hq] at hlast
      simp at hlast
    · exact List.length_pos.mpr hq
  have hcid : call.id = callId := by
    have hfind := hcall
    unfold Function.findInstr? at hfind
    have := List.find?_some hfind
    simpa using this
  have hcexmem : cexit ∈ callee.basicblocks := by
    have hg : callee.basicblocks.get? (callee.basicblocks.length - 1) = some cexit := by
      rw [← List.getLast?_eq_get?]
      exact hlast
    exact List.get?_mem hg
  obtain ⟨ic, hicm, hicid⟩ : ∃ ic ∈ bb.instructions, ic.id = callId := by
    have hidx2 := hidx
    unfold Function.findBlockIdx? at hidx2
    obtain ⟨bb', hbb', hppx⟩ := findIdx?_some_get _ _ _ hidx2
    have hbbeq : bb' = bb := Option.some.inj (hbb'.symm.trans hbb)
    rw [hbbeq] at hppx
    simp only [List.any_eq_true] at hppx
    obtain ⟨ic, hicm2, hicid2⟩ := hppx
    exact ⟨ic, hicm2, by simpa using hicid2⟩
  have hvoidp : phiInputsOf f2 epi.predecessors = [] := by
    apply (phiInputs_empty_iff f2 epi.predecessors).mpr
    intro p hp
    rw [hepip] at hp
    rcases List.mem_append.mp hp with hp1 | hp2
    · obtain ⟨p0, hp0, rfl⟩ := List.mem_map.mp hp1
      obtain ⟨pb, hpbmem, hpbid⟩ : ∃ pb ∈ callee.basicblocks, pb.id = p0 := by
        obtain ⟨pb, hm, h1, h2⟩ := hpcc cexit hcexmem p0 hp0
        exact ⟨pb, hm, h1⟩
      obtain ⟨t, ht⟩ := List.get?_of_mem hpbmem
      have htlt : t < callee.basicblocks.length := (List.get?_eq_some.mp ht).1
      have hbmp : spliceBlockMap f callee p0 = f.nextBlockId + 1 + t := by
        rw [← hpbid]
        exact spliceBlockMap_eq f callee hndc t pb ht
      obtain ⟨out, hfo, hrel⟩ := hrange t htlt pb ht
      have hlir2 : lastIsReturn f2 (f.nextBlockId + 1 + t) =
          (match out.getLast? with
           | none => false
           | some r => r.opcode == Opcode.kReturn) :=
        lastIsReturn_eq_of_get? f2 (idx + 1 + t) _ hfo hnd2
      rw [hbmp, hlir2]
      have hnoret : ∀ x ∈ out, x.opcode ≠ Opcode.kReturn := by
        apply scanRel_no_return _ _ hrel
        intro y hymem
        obtain ⟨y0, hy0, rfl⟩ := List.mem_map.mp hymem
        exact hvoid y0 (List.mem_flatMap.mpr ⟨pb, hpbmem, hy0⟩)
      rcases hgl : out.getLast? with _ | r
      · first
        | rw [hgl]
        | rfl
      · try rw [hgl]
        have hrmem : r ∈ out := List.get?_mem (by rw [← List.getLast?_eq_get?]; exact hgl)
        exact beq_eq_false_iff_ne.mpr (hnoret r hrmem)
    · by_cases hnb1 : callee.basicblocks.length - 1 = 0
      · rw [if_pos hnb1] at hp2
        have hpbb : p = bb.id := by simpa using hp2
        have hlir2 : lastIsReturn f2 bb.id =
            (match (bb.instructions.take (bb.instructions.findIdx (fun i => i.id == callId))).getLast? with
             | none => false
             | some r => r.opcode == Opcode.kReturn) :=
          lastIsReturn_eq_of_get? f2 idx _ hx hnd2
        rw [hpbb, hlir2]
        rcases hgl : (bb.instructions.take (bb.instructions.findIdx (fun i => i.id == callId))).getLast? with _ | r
        · first
          | rw [hgl]
          | rfl
        · try rw [hgl]
          by_cases hro : r.opcode = Opcode.kReturn
          · exfalso
            have hglget := hgl
            rw [List.getLast?_eq_get?] at hglget
            have hTLpos : 0 < (bb.instructions.take (bb.instructions.findIdx (fun i => i.id == callId))).length :=
              Nat.lt_of_le_of_lt (Nat.zero_le _) (List.get?_eq_some.mp hglget).1
            have hTL : (bb.instructions.take (bb.instructions.findIdx (fun i => i.id == callId))).length =
                min (bb.instructions.findIdx (fun i => i.id == callId)) bb.instructions.length := List.length_take _ _
            have hq2 : bb.instructions.get? ((bb.instructions.take (bb.instructions.findIdx (fun i => i.id == callId))).length - 1) = some r := by
              rw [← List.get?_take (show (bb.instructions.take (bb.instructions.findIdx (fun i => i.id == callId))).length - 1 < (bb.instructions.findIdx (fun i => i.id == callId)) from by omega)]
              exact hglget
            have hlastidx := hretlast bb (List.get?_mem hbb) _ r hq2 hro
            have hPOSlt : (bb.instructions.findIdx (fun i => i.id == callId)) < bb.instructions.length :=
              List.findIdx_lt_length_of_exists ⟨ic, hicm, by simp [hicid]⟩
            omega
          · exact beq_eq_false_iff_ne.mpr hro
      · rw [if_neg hnb1] at hp2
        simp at hp2
  obtain ⟨hepiOutE, hothers⟩ := hvoidr hvoidp
  obtain ⟨epiOut, hgo, hoid, hop, hos, hoi⟩ := hepiOutE
  have hgetf2 : ∀ k, k < f2.basicblocks.length → ∃ bk, f2.basicblocks.get? k = some bk := by
    intro k hk
    rcases hq : f2.basicblocks.get? k with _ | c
    · rw [List.get?_eq_none] at hq
      omega
    · exact ⟨c, rfl⟩
  refine ⟨g', hinline, ?_, ?_, ?_⟩
  · intro bbk hbbk i hi hiid
    obtain ⟨k, hk⟩ := List.get?_of_mem hbbk
    by_cases hke : k = idx + 1 + callee.basicblocks.length - 1
    · rw [hke] at hk
      have hbe : bbk = epiOut := Option.some.inj (hk.symm.trans hgo)
      rw [hbe, hoi] at hi
      cases hi
    · have hklen : k < f2.basicblocks.length := by
        have := (List.get?_eq_some.mp hk).1
        rw [hglen] at this
        exact this
      obtain ⟨bk, hbk⟩ := hgetf2 k hklen
      obtain ⟨bk', hgbk', hid', hp', hs', hins'⟩ := hothers k bk hke hbk
      have hbbk2 : bbk = bk' := Option.some.inj (hk.symm.trans hgbk')
      rw [hbbk2, hins'] at hi
      obtain ⟨i0, hi0, rfl⟩ := List.mem_map.mp hi
      by_cases hc : (i0.id == callId) = true
      · unfold nopAt
        rw [if_pos hc]
      · exfalso
        unfold nopAt at hiid
        rw [if_neg hc] at hiid
        exact hc (by simp [hiid])
  · have hicm2 : ic ∈ bb.instructions.take (bb.instructions.findIdx (fun i => i.id == callId)) ++ bb.instructions.drop (bb.instructions.findIdx (fun i => i.id == callId)) := by
      rw [List.take_append_drop]
      exact hicm
    rcases List.mem_append.mp hicm2 with hic1 | hic2
    · have hne : idx ≠ idx + 1 + callee.basicblocks.length - 1 := by omega
      obtain ⟨bk', hgbk', hid', hp', hs', hins'⟩ := hothers idx _ hne hx
      refine ⟨bk', List.get?_mem hgbk', nopAt callId ic, ?_, ?_, ?_⟩
      · rw [hins']
        exact List.mem_map.mpr ⟨ic, hic1, rfl⟩
      · unfold nopAt
        rw [if_pos (by simp [hicid])]
        exact hicid
      · unfold nopAt
        rw [if_pos (by simp [hicid])]
    · have hne : idx + 1 + callee.basicblocks.length ≠ idx + 1 + callee.basicblocks.length - 1 := by omega
      obtain ⟨bk', hgbk', hid', hp', hs', hins'⟩ := hothers (idx + 1 + callee.basicblocks.length) _ hne hy
      refine ⟨bk', List.get?_mem hgbk', nopAt callId ic, ?_, ?_, ?_⟩
      · rw [hins']
        exact List.mem_map.mpr ⟨ic, hic2, rfl⟩
      · unfold nopAt
        rw [if_pos (by simp [hicid])]
        exact hicid
      · unfold nopAt
        rw [if_pos (by simp [hicid])]
  · intro bbk hbbk i hi
    obtain ⟨k, hk⟩ := List.get?_of_mem hbbk
    by_cases hke : k = idx + 1 + callee.basicblocks.length - 1
    · rw [hke] at hk
      have hbe : bbk = epiOut := Option.some.inj (hk.symm.trans hgo)
      rw [hbe, hoi] at hi
      cases hi
    · have hklen : k < f2.basicblocks.length := by
        have := (List.get?_eq_some.mp hk).1
        rw [hglen] at this
        exact this
      obtain ⟨bk, hbk⟩ := hgetf2 k hklen
      obtain ⟨bk', hgbk', hid', hp', hs', hins'⟩ := hothers k bk hke hbk
      have hbbk2 : bbk = bk' := Option.some.inj (hk.symm.trans hgbk')
      rw [hbbk2, hins'] at hi
      obtain ⟨i0, hi0, rfl⟩ := List.mem_map.mp hi
      by_cases hc : (i0.id == callId) = true
      · unfold nopAt
        rw [if_pos hc]
        intro hcp
        cases hcp
      · unfold nopAt
        rw [if_neg hc]
        have hi0phi : i0.opcode ≠ Opcode.kPhi := by
          rcases hcases k bk hbk with ⟨b, hbmem, hbid, hbins⟩ | ⟨hk2, rfl⟩ | ⟨hk2, rfl⟩ |
            ⟨j, hj, hkj, hbkid, cbj, hcbj, hrel⟩
          · rw [hbins] at hi0
            exact hnophif i0 (List.mem_flatMap.mpr ⟨b, hbmem, hi0⟩)
          · exact hnophif i0 (List.mem_flatMap.mpr
              ⟨bb, List.get?_mem hbb, List.take_subset _ _ hi0⟩)
          · exact hnophif i0 (List.mem_flatMap.mpr
              ⟨bb, List.get?_mem hbb, List.drop_subset _ _ hi0⟩)
          · rcases scanRel_opcode_from _ _ hrel i0 hi0 with hm | ⟨y, hymem, hyo⟩
            · rw [hm]
              intro hcp
              cases hcp
            · obtain ⟨y0, hy0, rfl⟩ := List.mem_map.mp hymem
              rw [← hyo]
              exact hnophic y0 (List.mem_flatMap.mpr ⟨cbj, List.get?_mem hcbj, hy0⟩)
        exact hi0phi

/-- Witness for C4 on the Scenario B fixture: inlining the void `calleeB`
into `callerA` succeeds, the call (id 1) becomes a no-op, and no phi
remains. -/
theorem inlineCall_void_callee_nop_witness :
    ∃ g', inlineCall envB [] callerA 1 = ([("vo", some calleeB)], Except.ok (true, g')) ∧
      (∀ bbk ∈ g'.basicblocks, ∀ i ∈ bbk.instructions, i.id = 1 →
        i.opcode = Opcode.kNop) ∧
      (∃ bbk ∈ g'.basicblocks, ∃ i ∈ bbk.instructions, i.id = 1 ∧
        i.opcode = Opcode.kNop) ∧
      (∀ bbk ∈ g'.basicblocks, ∀ i ∈ bbk.instructions, i.opcode ≠ Opcode.kPhi) :=
  inlineCall_void_callee_nop envB [] [("vo", some calleeB)] callerA 1 callA calleeB
    (by rfl) (by rfl) (by decide)
    (by
      intro a ha
      simp [callArguments, callA] at ha
      subst ha
      left
      rfl)
    (by decide) (by decide) (by decide)
    (by
      intro bbk hbbk j r hjr hro
      simp [callerA] at hbbk
      subst hbbk
      cases j with
      | zero =>
        simp at hjr
        rw [← hjr] at hro
        cases hro
      | succ n => simp at hjr)
    (by decide) (by decide) (by decide)

/-! ## C3 -/
/-- C3: after a successful inline of a callee with at least one returning
path, the epilogue block holds exactly the merge (phi) instruction, whose
inputs are one (incoming-label, value) pair per predecessor whose block ends
in a return — in the epilogue's stored predecessor order, which is what
`phiInputsOf` folds over — those returns are deleted (`dropLast` on exactly
the return-ending predecessors), and the call instruction becomes a move
whose inputs are replaced by the single linked reference to the phi. -/
theorem inlineCall_merge_phi (env : ResolveEnv) (cache cache' : Cache)
    (f : Function) (callId : Nat) (call : Instruction) (callee : Function)
    (hcall : f.findInstr? callId = some call)
    (hff : findFunction env cache call = (cache', some callee))
    (hinl : isInlineable call callee = true)
    (hargs : ∀ a ∈ callArguments call, a.isImm = true ∨ ∃ t, a = Operand.linked t)
    (hwf : f.wf) (hwfc : callee.wf)
    (hretf : ∀ i ∈ f.allInstrs, i.opcode = Opcode.kReturn → i.inputs ≠ [])
    (hret1 : ∀ i ∈ callee.allInstrs, i.opcode = Opcode.kReturn → i.inputs ≠ [])
    (hretpath : ∃ cb ∈ callee.basicblocks, ∃ i ∈ cb.instructions,
      i.opcode = Opcode.kReturn) :
    ∃ g' idx f1 f2 epiOut,
      inlineCall env cache f callId = (cache', Except.ok (true, g')) ∧
      f.findBlockIdx? callId = some idx ∧
      splice f callId callee = some (f1, idx + 1, idx + 1 + callee.basicblocks.length) ∧
      resolveArguments f1 (callArguments call) (idx + 1) (idx + 1 + callee.basicblocks.length) =
        Except.ok f2 ∧
      g'.basicblocks.get? (idx + 1 + callee.basicblocks.length - 1) = some epiOut ∧
      epiOut.instructions = [{ id := f2.nextInstrId, opcode := Opcode.kPhi, inputs := phiInputsOf f2 epiOut.predecessors }] ∧
      phiInputsOf f2 epiOut.predecessors ≠ [] ∧
      (∀ k bk, k ≠ idx + 1 + callee.basicblocks.length - 1 → f2.basicblocks.get? k = some bk →
        ∃ bk', g'.basicblocks.get? k = some bk' ∧ bk'.id = bk.id ∧
          bk'.instructions =
            (if bk.id ∈ epiOut.predecessors ∧ lastIsReturn f2 bk.id = true
             then bk.instructions.dropLast else bk.instructions).map
              (moveAt callId f2.nextInstrId)) ∧
      (∀ bbk ∈ g'.basicblocks, ∀ i ∈ bbk.instructions, i.id = callId →
        i.opcode = Opcode.kMove ∧ i.inputs = [Operand.linked f2.nextInstrId]) ∧
      (∃ bbk ∈ g'.basicblocks, ∃ i ∈ bbk.instructions, i.id = callId) := by
  obtain ⟨hndf, hndif, hbound, hibf, hpsn, hpcf, hscf⟩ := hwf
  obtain ⟨hndc, hndci, hboundc, hibc, hpsnc, hpcc, hscc⟩ := hwfc
  obtain ⟨idx, bb, f2, epi, g', cexit, hlast, hcexins, hcexsucc, hinline, hidx, hbb, hsr,
    hf2len, hnd2, hni2, hx, hy, hrange, hcases, hepi, hepins, hepid, hepip, hepis,
    hglen, hvoidr, hmerger⟩ :=
    inlineCall_success_spec env cache cache' f callId call callee hcall hff hinl hargs
      hndf hbound hibf hretf hndc hndci (fun cb hcb => (hpsnc cb hcb).1)
      (fun cb hcb p hp => by
        obtain ⟨pb, hm, h1, h2⟩ := hpcc cb hcb p hp
        exact ⟨pb, hm, h1⟩)
      hret1
  obtain ⟨f1, hsplice, hres⟩ := hsr
  have hnBpos : 0 < callee.basicblocks.length := by
    by_cases hq : callee.basicblocks = []
    · exfalso
      rw [hq] at hlast
      simp at hlast
    · exact List.length_pos.mpr hq
  have hcexmem : cexit ∈ callee.basicblocks := by
    have hg : callee.basicblocks.get? (callee.basicblocks.length - 1) = some cexit := by
      rw [← List.getLast?_eq_get?]
      exact hlast
    exact List.get?_mem hg
  obtain ⟨cbr, hcbrmem, i0, hi0, hi0r⟩ := hretpath
  have hnB2 : 2 ≤ callee.basicblocks.length := by
    by_contra hlt
    have hnB1 : callee.basicblocks.length = 1 := by omega
    obtain ⟨x, hxeq⟩ := List.length_eq_one.mp hnB1
    have hcex : cexit = x := by
      rw [hxeq] at hlast
      exact Option.some.inj hlast.symm
    rw [hxeq] at hcbrmem
    have : cbr = x := by simpa using hcbrmem
    rw [this, ← hcex, hcexins] at hi0
    cases hi0
  have hcid : call.id = callId := by
    have hfind := hcall
    unfold Function.findInstr? at hfind
    have := List.find?_some hfind
    simpa using this
  have hcallid : callId < f2.nextInstrId := by
    have hfind := hcall
    unfold Function.findInstr? at hfind
    have hlt := hibf call (List.mem_of_find?_eq_some hfind)
    rw [hni2, ← hcid]
    omega
  obtain ⟨ic, hicm, hicid⟩ : ∃ ic ∈ bb.instructions, ic.id = callId := by
    have hidx2 := hidx
    unfold Function.findBlockIdx? at hidx2
    obtain ⟨bb', hbb', hppx⟩ := findIdx?_some_get _ _ _ hidx2
    have hbbeq : bb' = bb := Option.some.inj (hbb'.symm.trans hbb)
    rw [hbbeq] at hppx
    simp only [List.any_eq_true] at hppx
    obtain ⟨ic2, hicm2, hicid2⟩ := hppx
    exact ⟨ic2, hicm2, by simpa using hicid2⟩
  obtain ⟨cb0, crest, hcb⟩ : ∃ cb0 crest, callee.basicblocks = cb0 :: crest := by
    rcases hq : callee.basicblocks with _ | ⟨a, t⟩
    · rw [hq] at hnBpos
      simp at hnBpos
    · exact ⟨a, t, rfl⟩
  have hEERs := checkEntryExitReturn_sound cb0 crest callee hcb
    (isInlineable_true_elim call callee hinl).1
  have hgetD : (cb0 :: crest).getLast?.getD cb0 = cexit := by
    rw [hcb] at hlast
    rw [hlast]
    rfl
  obtain ⟨jr, hjr⟩ := List.get?_of_mem hcbrmem
  have hjrlt : jr < callee.basicblocks.length := (List.get?_eq_some.mp hjr).1
  have hscanr : instrsReturnLast (cbr.successors == [cexit.id]) cbr.instructions = true := by
    have h4 := (hEERs.2.2.2 jr cbr (by rw [← hcb]; exact hjr)).2.2
    rw [hgetD] at h4
    exact h4
  obtain ⟨l0, hdec, hl0nr, hsucct⟩ :=
    block_return_decomp (cbr.successors == [cexit.id]) cbr.instructions hscanr i0 hi0 hi0r
  have hsucceq : cbr.successors = [cexit.id] := by simpa using hsucct
  obtain ⟨out, hfo, hrel⟩ := hrange jr hjrlt cbr hjr
  obtain ⟨out0, rr, hout, hrrret, hrrid, hrrlen, hout0nr⟩ :=
    scanRel_last_return _ _ hrel
      (l0.map (copyInstr (spliceInstrMap f callee) (spliceBlockMap f callee)))
      (copyInstr (spliceInstrMap f callee) (spliceBlockMap f callee) i0)
      (by rw [hdec, List.map_append, List.map_cons, List.map_nil])
      hi0r
      (by
        intro y hymem
        obtain ⟨y1, hy1, rfl⟩ := List.mem_map.mp hymem
        exact hl0nr y1 hy1)
  have hbmr : spliceBlockMap f callee cbr.id = f.nextBlockId + 1 + jr :=
    spliceBlockMap_eq f callee hndc jr cbr hjr
  have hlirr : lastIsReturn f2 (f.nextBlockId + 1 + jr) = true := by
    have hlir2 : lastIsReturn f2 (f.nextBlockId + 1 + jr) =
        (match out.getLast? with
         | none => false
         | some r => r.opcode == Opcode.kReturn) :=
      lastIsReturn_eq_of_get? f2 (idx + 1 + jr) _ hfo hnd2
    rw [hlir2, hout, List.getLast?_concat]
    simp [hrrret]
  have hcbrin : cbr.id ∈ cexit.predecessors := by
    obtain ⟨sb, hsbmem, hsbid, hin⟩ := hscc cbr hcbrmem cexit.id
      (by rw [hsucceq]; exact List.mem_singleton.mpr rfl)
    have hsbeq : sb = cexit := mem_id_unique (fun b => b.id) callee.basicblocks hndc
      sb cexit hsbmem hcexmem hsbid
    rw [← hsbeq]
    exact hin
  have hinpreds : f.nextBlockId + 1 + jr ∈ epi.predecessors := by
    rw [hepip]
    apply List.mem_append.mpr
    left
    rw [← hbmr]
    exact List.mem_map.mpr ⟨cbr.id, hcbrin, rfl⟩
  have hpredge : ∀ q ∈ epi.predecessors, f.nextBlockId + 1 ≤ q := by
    intro q hq
    rw [hepip] at hq
    rcases List.mem_append.mp hq with hq1 | hq2
    · obtain ⟨p0, hp0, rfl⟩ := List.mem_map.mp hq1
      obtain ⟨pb, hm, h1, h2⟩ := hpcc cexit hcexmem p0 hp0
      obtain ⟨t, ht⟩ := List.get?_of_mem hm
      have := spliceBlockMap_eq f callee hndc t pb ht
      rw [← h1, this]
      omega
    · rw [if_neg (by omega)] at hq2
      simp at hq2
  have hmergep : phiInputsOf f2 epi.predecessors ≠ [] := by
    intro hnil
    have hin : Operand.lbl (f.nextBlockId + 1 + jr) ∈ phiInputsOf f2 epi.predecessors := by
      rw [phiInputsOf, List.mem_flatMap]
      refine ⟨f.nextBlockId + 1 + jr, hinpreds, ?_⟩
      rw [hlirr]
      simp
    rw [hnil] at hin
    cases hin
  obtain ⟨hepiOutE, hothersM⟩ := hmerger hmergep
  obtain ⟨epiOut, hgo, hoid, hop, hos, hoi⟩ := hepiOutE
  have hgetf2 : ∀ k, k < f2.basicblocks.length → ∃ bk, f2.basicblocks.get? k = some bk := by
    intro k hk
    rcases hq : f2.basicblocks.get? k with _ | c
    · rw [List.get?_eq_none] at hq
      omega
    · exact ⟨c, rfl⟩
  refine ⟨g', idx, f1, f2, epiOut, hinline, hidx, hsplice, hres, hgo, ?_, ?_, ?_, ?_, ?_⟩
  · rw [hoi, hop]
  · rw [hop]
    exact hmergep
  · intro k bk hke hbk
    obtain ⟨bk', hgbk', hid', hp', hs', hins'⟩ := hothersM k bk hke hbk
    refine ⟨bk', hgbk', hid', ?_⟩
    rw [hins', hop]
  · intro bbk hbbk i hi hiid
    obtain ⟨k, hk⟩ := List.get?_of_mem hbbk
    by_cases hke : k = idx + 1 + callee.basicblocks.length - 1
    · rw [hke] at hk
      have hbe : bbk = epiOut := Option.some.inj (hk.symm.trans hgo)
      rw [hbe, hoi] at hi
      have : i = { id := f2.nextInstrId, opcode := Opcode.kPhi, inputs := phiInputsOf f2 epi.predecessors } := by simpa using hi
      rw [this] at hiid
      exfalso
      have hiid2 : f2.nextInstrId = callId := hiid
      omega
    · have hklen : k < f2.basicblocks.length := by
        have := (List.get?_eq_some.mp hk).1
        rw [hglen] at this
        exact this
      obtain ⟨bk, hbk⟩ := hgetf2 k hklen
      obtain ⟨bk', hgbk', hid', hp', hs', hins'⟩ := hothersM k bk hke hbk
      have hbbk2 : bbk = bk' := Option.some.inj (hk.symm.trans hgbk')
      rw [hbbk2, hins'] at hi
      obtain ⟨i1, hi1, rfl⟩ := List.mem_map.mp hi
      by_cases hc : (i1.id == callId) = true
      · unfold moveAt
        rw [if_pos hc]
        exact ⟨rfl, rfl⟩
      · exfalso
        unfold moveAt at hiid
        rw [if_neg hc] at hiid
        exact hc (by simp [hiid])
  · have hcondF : ∀ bid, bid < f.nextBlockId + 1 →
        ¬(bid ∈ epi.predecessors ∧ lastIsReturn f2 bid = true) := by
      intro bid hbid hcond
      have := hpredge bid hcond.1
      omega
    have hicm2 : ic ∈ bb.instructions.take (bb.instructions.findIdx (fun i => i.id == callId)) ++ bb.instructions.drop (bb.instructions.findIdx (fun i => i.id == callId)) := by
      rw [List.take_append_drop]
      exact hicm
    rcases List.mem_append.mp hicm2 with hic1 | hic2
    · have hne : idx ≠ idx + 1 + callee.basicblocks.length - 1 := by omega
      obtain ⟨bk', hgbk', hid', hp', hs', hins'⟩ := hothersM idx _ hne hx
      refine ⟨bk', List.get?_mem hgbk', moveAt callId f2.nextInstrId ic, ?_, ?_⟩
      · rw [hins']
        rw [if_neg (hcondF (spliceBlock1 f callId bb callee).id
          (by
            show bb.id < f.nextBlockId + 1
            have := hbound bb (List.get?_mem hbb)
            omega))]
        exact List.mem_map.mpr ⟨ic, hic1, rfl⟩
      · unfold moveAt
        rw [if_pos (by simp [hicid])]
        exact hicid
    · have hne : idx + 1 + callee.basicblocks.length ≠ idx + 1 + callee.basicblocks.length - 1 := by omega
      obtain ⟨bk', hgbk', hid', hp', hs', hins'⟩ := hothersM (idx + 1 + callee.basicblocks.length) _ hne hy
      refine ⟨bk', List.get?_mem hgbk', moveAt callId f2.nextInstrId ic, ?_, ?_⟩
      · rw [hins']
        rw [if_neg (hcondF (spliceBlock2 f callId bb callee).id
          (by
            show f.nextBlockId < f.nextBlockId + 1
            omega))]
        exact List.mem_map.mpr ⟨ic, hic2, rfl⟩
      · unfold moveAt
        rw [if_pos (by simp [hicid])]
        exact hicid

/-- Witness for C3 on the Scenario D fixture: inlining the two-return
`calleeD` into `callerA` merges both returns into the phi and turns the call
into a move of the phi. -/
theorem inlineCall_merge_phi_witness :
    ∃ g' idx f1 f2 epiOut,
      inlineCall envD [] callerA 1 = ([("dd", some calleeD)], Except.ok (true, g')) ∧
      callerA.findBlockIdx? 1 = some idx ∧
      splice callerA 1 calleeD = some (f1, idx + 1, idx + 1 + calleeD.basicblocks.length) ∧
      resolveArguments f1 (callArguments callA) (idx + 1) (idx + 1 + calleeD.basicblocks.length) =
        Except.ok f2 ∧
      g'.basicblocks.get? (idx + 1 + calleeD.basicblocks.length - 1) = some epiOut ∧
      epiOut.instructions = [{ id := f2.nextInstrId, opcode := Opcode.kPhi, inputs := phiInputsOf f2 epiOut.predecessors }] ∧
      phiInputsOf f2 epiOut.predecessors ≠ [] ∧
      (∀ k bk, k ≠ idx + 1 + calleeD.basicblocks.length - 1 → f2.basicblocks.get? k = some bk →
        ∃ bk', g'.basicblocks.get? k = some bk' ∧ bk'.id = bk.id ∧
          bk'.instructions =
            (if bk.id ∈ epiOut.predecessors ∧ lastIsReturn f2 bk.id = true
             then bk.instructions.dropLast else bk.instructions).map
              (moveAt 1 f2.nextInstrId)) ∧
      (∀ bbk ∈ g'.basicblocks, ∀ i ∈ bbk.instructions, i.id = 1 →
        i.opcode = Opcode.kMove ∧ i.inputs = [Operand.linked f2.nextInstrId]) ∧
      (∃ bbk ∈ g'.basicblocks, ∃ i ∈ bbk.instructions, i.id = 1) :=
  inlineCall_merge_phi envD [] [("dd", some calleeD)] callerA 1 callA calleeD
    (by rfl) (by rfl) (by decide)
    (by
      intro a ha
      simp [callArguments, callA] at ha
      subst ha
      left
      rfl)
    (by decide) (by decide) (by decide) (by decide) (by decide)

/-! ## C1 -/
/-- C1, counterexample to the claim as stated: for `callerA` and `calleeZ`
the resolution succeeds and `isInlineable` returns true, yet `inlineCall`
does not return true — it aborts in the return merger, because the callee's
return carries no input. -/
theorem inlineCall_checker_insufficient :
    callerA.findInstr? 1 = some callA ∧
    (findFunction envZ [] callA).2 = some calleeZ ∧
    isInlineable callA calleeZ = true ∧
    ∀ g, (inlineCall envZ [] callerA 1).2 ≠ Except.ok (true, g) := by
  refine ⟨by rfl, by rfl, by decide, ?_⟩
  intro g h
  rw [show (inlineCall envZ [] callerA 1).2 =
    Except.error "Return instruction should have at least 1 input operand." from rfl] at h
  cases h

/-- C1 (amended): for a well-formed caller and callee whose return
instructions each carry at least one input and whose actual arguments are
immediates or linked operands, once resolution succeeds and `isInlineable`
is true, `inlineCall` returns true and no instruction inside the
transplanted block range [callee_start, callee_end) is a parameter load or a
return: parameter loads were converted to moves or erased, and every return
feeding the epilogue was deleted. -/
theorem inlineCall_inlineable_success (env : ResolveEnv) (cache cache' : Cache)
    (f : Function) (callId : Nat) (call : Instruction) (callee : Function)
    (hcall : f.findInstr? callId = some call)
    (hff : findFunction env cache call = (cache', some callee))
    (hinl : isInlineable call callee = true)
    (hargs : ∀ a ∈ callArguments call, a.isImm = true ∨ ∃ t, a = Operand.linked t)
    (hwf : f.wf) (hwfc : callee.wf)
    (hretf : ∀ i ∈ f.allInstrs, i.opcode = Opcode.kReturn → i.inputs ≠ [])
    (hret1 : ∀ i ∈ callee.allInstrs, i.opcode = Opcode.kReturn → i.inputs ≠ []) :
    ∃ g' idx f1, inlineCall env cache f callId = (cache', Except.ok (true, g')) ∧
      f.findBlockIdx? callId = some idx ∧
      splice f callId callee = some (f1, idx + 1, idx + 1 + callee.basicblocks.length) ∧
      ∀ k bk, idx + 1 ≤ k → k < idx + 1 + callee.basicblocks.length →
        g'.basicblocks.get? k = some bk →
        ∀ i ∈ bk.instructions, i.opcode ≠ Opcode.kLoadArg ∧ i.opcode ≠ Opcode.kReturn := by
  obtain ⟨hndf, hndif, hbound, hibf, hpsn, hpcf, hscf⟩ := hwf
  obtain ⟨hndc, hndci, hboundc, hibc, hpsnc, hpcc, hscc⟩ := hwfc
  obtain ⟨idx, bb, f2, epi, g', cexit, hlast, hcexins, hcexsucc, hinline, hidx, hbb, hsr,
    hf2len, hnd2, hni2, hx, hy, hrange, hcases, hepi, hepins, hepid, hepip, hepis,
    hglen, hvoidr, hmerger⟩ :=
    inlineCall_success_spec env cache cache' f callId call callee hcall hff hinl hargs
      hndf hbound hibf hretf hndc hndci (fun cb hcb => (hpsnc cb hcb).1)
      (fun cb hcb p hp => by
        obtain ⟨pb, hm, h1, h2⟩ := hpcc cb hcb p hp
        exact ⟨pb, hm, h1⟩)
      hret1
  obtain ⟨f1, hsplice, hres⟩ := hsr
  have hnBpos : 0 < callee.basicblocks.length := by
    by_cases hq : callee.basicblocks = []
    · exfalso
      rw [hq] at hlast
      simp at hlast
    · exact List.length_pos.mpr hq
  have hcexmem : cexit ∈ callee.basicblocks := by
    have hg : callee.basicblocks.get? (callee.basicblocks.length - 1) = some cexit := by
      rw [← List.getLast?_eq_get?]
      exact hlast
    exact List.get?_mem hg
  obtain ⟨cb0, crest, hcb⟩ : ∃ cb0 crest, callee.basicblocks = cb0 :: crest := by
    rcases hq : callee.basicblocks with _ | ⟨a, t⟩
    · rw [hq] at hnBpos
      simp at hnBpos
    · exact ⟨a, t, rfl⟩
  have hEERs := checkEntryExitReturn_sound cb0 crest callee hcb
    (isInlineable_true_elim call callee hinl).1
  have hgetD : (cb0 :: crest).getLast?.getD cb0 = cexit := by
    rw [hcb] at hlast
    rw [hlast]
    rfl
  -- the common analysis of a copied block that still contains a return
  have hretchain : ∀ j, j < callee.basicblocks.length → ∀ cbj, callee.basicblocks.get? j = some cbj →
      ∀ out, ScanRel (cbj.instructions.map
        (copyInstr (spliceInstrMap f callee) (spliceBlockMap f callee))) out →
      (∃ x ∈ out, x.opcode = Opcode.kReturn) →
      (∃ out0 rr, out = out0 ++ [rr] ∧ rr.opcode = Opcode.kReturn ∧
        (∀ x ∈ out0, x.opcode ≠ Opcode.kReturn)) ∧
      f.nextBlockId + 1 + j ∈ epi.predecessors := by
    intro j hj cbj hcbj out hrel hor
    obtain ⟨x, hxmem, hxr⟩ := hor
    obtain ⟨y, hymem, hyr, hylen⟩ := scanRel_return_from _ _ hrel x hxmem hxr
    obtain ⟨y0, hy0, rfl⟩ := List.mem_map.mp hymem
    have hy0r : y0.opcode = Opcode.kReturn := hyr
    have hscanj : instrsReturnLast (cbj.successors == [cexit.id]) cbj.instructions = true := by
      have h4 := (hEERs.2.2.2 j cbj (by rw [← hcb]; exact hcbj)).2.2
      rw [hgetD] at h4
      exact h4
    obtain ⟨l0, hdec, hl0nr, hsucct⟩ :=
      block_return_decomp (cbj.successors == [cexit.id]) cbj.instructions hscanj y0 hy0 hy0r
    have hsucceq : cbj.successors = [cexit.id] := by simpa using hsucct
    obtain ⟨out0, rr, hout, hrrret, hrrid, hrrlen, hout0nr⟩ :=
      scanRel_last_return _ _ hrel
        (l0.map (copyInstr (spliceInstrMap f callee) (spliceBlockMap f callee)))
        (copyInstr (spliceInstrMap f callee) (spliceBlockMap f callee) y0)
        (by rw [hdec, List.map_append, List.map_cons, List.map_nil])
        hy0r
        (by
          intro z hzmem
          obtain ⟨z1, hz1, rfl⟩ := List.mem_map.mp hzmem
          exact hl0nr z1 hz1)
    refine ⟨⟨out0, rr, hout, hrrret, hout0nr⟩, ?_⟩
    have hcbjin : cbj.id ∈ cexit.predecessors := by
      obtain ⟨sb, hsbmem, hsbid, hin⟩ := hscc cbj (List.get?_mem hcbj) cexit.id
        (by rw [hsucceq]; exact List.mem_singleton.mpr rfl)
      have hsbeq : sb = cexit := mem_id_unique (fun b => b.id) callee.basicblocks hndc
        sb cexit hsbmem hcexmem hsbid
      rw [← hsbeq]
      exact hin
    have hbmj : spliceBlockMap f callee cbj.id = f.nextBlockId + 1 + j :=
      spliceBlockMap_eq f callee hndc j cbj hcbj
    rw [hepip]
    apply List.mem_append.mpr
    left
    rw [← hbmj]
    exact List.mem_map.mpr ⟨cbj.id, hcbjin, rfl⟩
  have hgetf2 : ∀ k, k < f2.basicblocks.length → ∃ bk, f2.basicblocks.get? k = some bk := by
    intro k hk
    rcases hq : f2.basicblocks.get? k with _ | c
    · rw [List.get?_eq_none] at hq
      omega
    · exact ⟨c, rfl⟩
  have hidxlt : idx < f.basicblocks.length := (List.get?_eq_some.mp hbb).1
  refine ⟨g', idx, f1, hinline, hidx, hsplice, ?_⟩
  intro k bk hk1 hk2 hbkget i hi
  obtain ⟨j, rfl⟩ : ∃ j, k = idx + 1 + j := ⟨k - (idx + 1), by omega⟩
  have hj : j < callee.basicblocks.length := by omega
  obtain ⟨cbj, hcbj⟩ : ∃ cbj, callee.basicblocks.get? j = some cbj := by
    rcases hq : callee.basicblocks.get? j with _ | c
    · rw [List.get?_eq_none] at hq
      omega
    · exact ⟨c, rfl⟩
  obtain ⟨out, hfo, hrel⟩ := hrange j hj cbj hcbj
  have houtla : ∀ x ∈ out, x.opcode ≠ Opcode.kLoadArg := scanRel_no_loadArg _ _ hrel
  by_cases hpi : phiInputsOf f2 epi.predecessors = []
  · -- void path
    obtain ⟨hepiOutE, hothers⟩ := hvoidr hpi
    obtain ⟨epiOut, hgo, hoid, hop, hos, hoi⟩ := hepiOutE
    have houtnr : ∀ x ∈ out, x.opcode ≠ Opcode.kReturn := by
      intro x hxmem hxr
      obtain ⟨⟨out0, rr, hout, hrrret, hout0nr⟩, hinpreds⟩ :=
        hretchain j hj cbj hcbj out hrel ⟨x, hxmem, hxr⟩
      have hlirj : lastIsReturn f2 (f.nextBlockId + 1 + j) = true := by
        have hlir2 : lastIsReturn f2 (f.nextBlockId + 1 + j) =
            (match out.getLast? with
             | none => false
             | some r => r.opcode == Opcode.kReturn) :=
          lastIsReturn_eq_of_get? f2 (idx + 1 + j) _ hfo hnd2
        rw [hlir2, hout, List.getLast?_concat]
        simp [hrrret]
      have hlbl : Operand.lbl (f.nextBlockId + 1 + j) ∈ phiInputsOf f2 epi.predecessors := by
        rw [phiInputsOf, List.mem_flatMap]
        refine ⟨f.nextBlockId + 1 + j, hinpreds, ?_⟩
        rw [hlirj]
        simp
      rw [hpi] at hlbl
      cases hlbl
    by_cases hke : idx + 1 + j = idx + 1 + callee.basicblocks.length - 1
    · rw [hke] at hbkget
      have hbe : bk = epiOut := Option.some.inj (hbkget.symm.trans hgo)
      rw [hbe, hoi] at hi
      cases hi
    · obtain ⟨bk2, hbk2⟩ := hgetf2 (idx + 1 + j) (by rw [hf2len]; omega)
      obtain ⟨bk', hgbk', hid', hp', hs', hins'⟩ := hothers (idx + 1 + j) bk2 hke hbk2
      have hbk2eq : bk2 = { id := f.nextBlockId + 1 + j, instructions := out, predecessors := cbj.predecessors.map (spliceBlockMap f callee) ++ (if j = 0 then [bb.id] else []), successors := cbj.successors.map (spliceBlockMap f callee) ++ (if j = callee.basicblocks.length - 1 then [f.nextBlockId] else []) } :=
        Option.some.inj (hbk2.symm.trans hfo)
      have hbke : bk = bk' := Option.some.inj (hbkget.symm.trans hgbk')
      rw [hbke, hins', hbk2eq] at hi
      obtain ⟨i0, hi0, rfl⟩ := List.mem_map.mp hi
      have hi0out : i0 ∈ out := hi0
      constructor
      · unfold nopAt
        by_cases hc : (i0.id == callId) = true
        · rw [if_pos hc]
          intro hcp
          cases hcp
        · rw [if_neg hc]
          exact houtla i0 hi0out
      · unfold nopAt
        by_cases hc : (i0.id == callId) = true
        · rw [if_pos hc]
          intro hcp
          cases hcp
        · rw [if_neg hc]
          exact houtnr i0 hi0out
  · -- merging path
    obtain ⟨hepiOutE, hothers⟩ := hmerger hpi
    obtain ⟨epiOut, hgo, hoid, hop, hos, hoi⟩ := hepiOutE
    by_cases hke : idx + 1 + j = idx + 1 + callee.basicblocks.length - 1
    · rw [hke] at hbkget
      have hbe : bk = epiOut := Option.some.inj (hbkget.symm.trans hgo)
      rw [hbe, hoi] at hi
      have : i = { id := f2.nextInstrId, opcode := Opcode.kPhi, inputs := phiInputsOf f2 epi.predecessors } := by
        simpa using hi
      rw [this]
      exact ⟨(by intro hcp; cases hcp), (by intro hcp; cases hcp)⟩
    · obtain ⟨bk2, hbk2⟩ := hgetf2 (idx + 1 + j) (by rw [hf2len]; omega)
      obtain ⟨bk', hgbk', hid', hp', hs', hins'⟩ := hothers (idx + 1 + j) bk2 hke hbk2
      have hbk2eq : bk2 = { id := f.nextBlockId + 1 + j, instructions := out, predecessors := cbj.predecessors.map (spliceBlockMap f callee) ++ (if j = 0 then [bb.id] else []), successors := cbj.successors.map (spliceBlockMap f callee) ++ (if j = callee.basicblocks.length - 1 then [f.nextBlockId] else []) } :=
        Option.some.inj (hbk2.symm.trans hfo)
      have hbke : bk = bk' := Option.some.inj (hbkget.symm.trans hgbk')
      by_cases hor : ∃ x ∈ out, x.opcode = Opcode.kReturn
      · obtain ⟨⟨out0, rr, hout, hrrret, hout0nr⟩, hinpreds⟩ :=
          hretchain j hj cbj hcbj out hrel hor
        have hlirj : lastIsReturn f2 (f.nextBlockId + 1 + j) = true := by
          have hlir2 : lastIsReturn f2 (f.nextBlockId + 1 + j) =
              (match out.getLast? with
               | none => false
               | some r => r.opcode == Opcode.kReturn) :=
            lastIsReturn_eq_of_get? f2 (idx + 1 + j) _ hfo hnd2
          rw [hlir2, hout, List.getLast?_concat]
          simp [hrrret]
        have hcond : bk2.id ∈ epi.predecessors ∧ lastIsReturn f2 bk2.id = true := by
          rw [hbk2eq]
          exact ⟨hinpreds, hlirj⟩
        rw [hbke, hins', if_pos hcond, hbk2eq] at hi
        have hdl : out.dropLast = out0 := by
          rw [hout]
          exact List.dropLast_concat
        rw [show ({ id := f.nextBlockId + 1 + j, instructions := out, predecessors := cbj.predecessors.map (spliceBlockMap f callee) ++ (if j = 0 then [bb.id] else []), successors := cbj.successors.map (spliceBlockMap f callee) ++ (if j = callee.basicblocks.length - 1 then [f.nextBlockId] else []) } : BasicBlock).instructions = out from rfl, hdl] at hi
        obtain ⟨i0, hi0, rfl⟩ := List.mem_map.mp hi
        have hi0out : i0 ∈ out := by
          rw [hout]
          exact List.mem_append.mpr (Or.inl hi0)
        constructor
        · unfold moveAt
          by_cases hc : (i0.id == callId) = true
          · rw [if_pos hc]
            intro hcp
            cases hcp
          · rw [if_neg hc]
            exact houtla i0 hi0out
        · unfold moveAt
          by_cases hc : (i0.id == callId) = true
          · rw [if_pos hc]
            intro hcp
            cases hcp
          · rw [if_neg hc]
            exact hout0nr i0 hi0
      · push_neg at hor
        rw [hbke, hins'] at hi
        have hsub : ∀ i0, i0 ∈ (if bk2.id ∈ epi.predecessors ∧ lastIsReturn f2 bk2.id = true
            then bk2.instructions.dropLast else bk2.instructions) → i0 ∈ out := by
          intro i0 hi0
          have hbk2i : bk2.instructions = out := by rw [hbk2eq]
          by_cases hcond : bk2.id ∈ epi.predecessors ∧ lastIsReturn f2 bk2.id = true
          · rw [if_pos hcond, hbk2i] at hi0
            exact (List.dropLast_prefix out).subset hi0
          · rw [if_neg hcond, hbk2i] at hi0
            exact hi0
        obtain ⟨i0, hi0, rfl⟩ := List.mem_map.mp hi
        have hi0out : i0 ∈ out := hsub i0 hi0
        constructor
        · unfold moveAt
          by_cases hc : (i0.id == callId) = true
          · rw [if_pos hc]
            intro hcp
            cases hcp
          · rw [if_neg hc]
            exact houtla i0 hi0out
        · unfold moveAt
          by_cases hc : (i0.id == callId) = true
          · rw [if_pos hc]
            intro hcp
            cases hcp
          · rw [if_neg hc]
            exact hor i0 hi0out

/-- Witness for the amended C1 on the Scenario A fixture: the checker
passes, inlining succeeds, and the transplanted range holds no parameter
load and no return. -/
theorem inlineCall_inlineable_success_witness :
    ∃ g' idx f1, inlineCall envA [] callerA 1 = ([("dbl", some calleeA)], Except.ok (true, g')) ∧
      callerA.findBlockIdx? 1 = some idx ∧
      splice callerA 1 calleeA = some (f1, idx + 1, idx + 1 + calleeA.basicblocks.length) ∧
      ∀ k bk, idx + 1 ≤ k → k < idx + 1 + calleeA.basicblocks.length →
        g'.basicblocks.get? k = some bk →
        ∀ i ∈ bk.instructions, i.opcode ≠ Opcode.kLoadArg ∧ i.opcode ≠ Opcode.kReturn :=
  inlineCall_inlineable_success envA [] [("dbl", some calleeA)] callerA 1 callA calleeA
    (by rfl) (by rfl) (by decide)
    (by
      intro a ha
      simp [callArguments, callA] at ha
      subst ha
      left
      rfl)
    (by decide) (by decide) (by decide) (by decide)

end LIR
